import Mathlib

/-!
SQL lexer / parser validator: a shallow embedding of `project.cpp`.

`std::string` is modelled as `String` (lexemes, messages) and, inside the
lexer, as the `List Char` of its characters; a C++ `char` is a `Char` and the
`<cctype>` classifiers are the "C" locale ones (true on ASCII only).

Exceptions are modelled by `Except Failure`: `Failure.runtime_error what` is a
thrown `std::runtime_error`, `Failure.undefined` is an out-of-range read of the
token vector (undefined behaviour in C++), and `Failure.out_of_fuel` is the
exhaustion of the iteration budget of a `while` loop of the model. Every loop is
handed a budget above the number of characters or tokens it can consume, and it
is proved below that neither the lexer nor the parser ever exhausts a budget.

The functions `countColumnList`, `valueList` and `countValueList` of the parser are
never called and `main` is the console loop; they are not embedded.

`int` counters (`columnCount`, `valueCount`, edit distances) are natural
numbers: they hold sizes of vectors and strings, and the narrowing to `int` is
the identity for sizes below `2^31`.
-/

namespace SqlValidator

/-- Token types (`enum class TokenType`). -/
inductive TokenType
  | SELECT | FROM | WHERE | INSERT | INTO | VALUES | UPDATE | SET | DELETE
  | EQUAL | LESS_THAN | GREATER_THAN | LESS_EQUAL | GREATER_EQUAL | NOT_EQUAL
  | COMMA | SEMICOLON | LEFT_PAREN | RIGHT_PAREN | ASTERISK
  | IDENTIFIER | STRING_LITERAL | NUMBER | END_OF_FILE
  | AND | OR | NOT
  deriving DecidableEq, Repr

/-- Data types for columns (`enum class DataType`). -/
inductive DataType
  | STRING | NUMBER | BOOLEAN | DATE | UNKNOWN
  deriving DecidableEq, Repr

/-- Token structure. -/
structure Token where
  type : TokenType
  lexeme : String
  deriving DecidableEq, Repr

/-- Column structure. -/
structure Column where
  name : String
  type : DataType
  deriving DecidableEq, Repr

/-- The ways a run of the model can stop without a result. -/
inductive Failure
  | runtime_error (what : String)
  | undefined
  | out_of_fuel
  deriving DecidableEq, Repr

deriving instance DecidableEq for Except

/-! ## `<cctype>` in the "C" locale -/

/-- Embedding of `std::isspace`: space, `\t`, `\n`, `\v`, `\f`, `\r`. -/
def isspace (c : Char) : Bool := c.toNat == 32 || (9 ≤ c.toNat && c.toNat ≤ 13)

/-- Embedding of `std::isdigit`. -/
def isdigit (c : Char) : Bool := 48 ≤ c.toNat && c.toNat ≤ 57

/-- Embedding of `std::isalpha`. -/
def isalpha (c : Char) : Bool :=
  (65 ≤ c.toNat && c.toNat ≤ 90) || (97 ≤ c.toNat && c.toNat ≤ 122)

/-- Embedding of `std::isalnum`. -/
def isalnum (c : Char) : Bool := isalpha c || isdigit c

/-- Embedding of `::toupper`. -/
def toupper (c : Char) : Char :=
  if 97 ≤ c.toNat && c.toNat ≤ 122 then Char.ofNat (c.toNat - 32) else c

/-- Embedding of `::tolower`. -/
def tolower (c : Char) : Char :=
  if 65 ≤ c.toNat && c.toNat ≤ 90 then Char.ofNat (c.toNat + 32) else c

/-- The single quote character `'`. -/
def quote : Char := Char.ofNat 39

/-- Embedding of `std::string::substr(start, len)` on the characters of a string. -/
def substr (input : List Char) (start len : Nat) : String :=
  String.mk ((input.drop start).take len)

/-! ## Lexer -/

/-- The keyword map filled by the constructor `Lexer::Lexer`, in insertion order. -/
def keywordTable : List (String × TokenType) :=
  [("SELECT", .SELECT), ("FROM", .FROM), ("WHERE", .WHERE), ("INSERT", .INSERT),
   ("INTO", .INTO), ("VALUES", .VALUES), ("UPDATE", .UPDATE), ("SET", .SET),
   ("DELETE", .DELETE), ("AND", .AND), ("OR", .OR), ("NOT", .NOT)]

/-- Lexer state: the input and the scan position (the keyword map is the constant
`keywordTable`). -/
structure Lexer where
  input : List Char
  position : Nat
  deriving DecidableEq, Repr

namespace Lexer

/-- Embedding of `Lexer::peek`. -/
def peek (L : Lexer) : Char :=
  if L.position ≥ L.input.length then Char.ofNat 0 else L.input.getD L.position (Char.ofNat 0)

/-- Embedding of `Lexer::advance`: the character read and the lexer after `position++`. -/
def advance (L : Lexer) : Char × Lexer :=
  if L.position ≥ L.input.length then (Char.ofNat 0, L)
  else (L.input.getD L.position (Char.ofNat 0), { L with position := L.position + 1 })

/-- Embedding of `Lexer::isAtEnd`. -/
def isAtEnd (L : Lexer) : Bool := decide (L.position ≥ L.input.length)

/-- Embedding of `Lexer::match(char expected)`. -/
def matchChar (L : Lexer) (expected : Char) : Bool × Lexer :=
  if L.isAtEnd || L.peek != expected then (false, L)
  else (true, { L with position := L.position + 1 })

/-- The loop `while (!isAtEnd() && p(peek())) advance();` with an iteration budget. -/
def advanceWhile (p : Char → Bool) : Nat → Lexer → Except Failure Lexer
  | 0, _ => .error .out_of_fuel
  | fuel + 1, L =>
    if !L.isAtEnd && p L.peek then advanceWhile p fuel L.advance.2 else .ok L

/-- Embedding of `Lexer::skipWhitespace`. -/
def skipWhitespace (L : Lexer) : Except Failure Lexer :=
  advanceWhile isspace (L.input.length + 1) L

/-- Embedding of `Lexer::identifier`. -/
def identifier (L : Lexer) : Except Failure (Token × Lexer) :=
  let start := L.position - 1
  match advanceWhile (fun c => isalnum c || c == '_') (L.input.length + 1) L with
  | .error e => .error e
  | .ok L =>
    let text := substr L.input start (L.position - start)
    let upperText := String.mk (text.data.map toupper)
    match keywordTable.lookup upperText with
    | some k => .ok (⟨k, text⟩, L)
    | none => .ok (⟨.IDENTIFIER, text⟩, L)

/-- Embedding of `Lexer::number`. -/
def number (L : Lexer) : Except Failure (Token × Lexer) :=
  let start := L.position - 1
  match advanceWhile isdigit (L.input.length + 1) L with
  | .error e => .error e
  | .ok L =>
    if L.peek == '.' && isdigit (L.input.getD (L.position + 1) (Char.ofNat 0)) then
      match advanceWhile isdigit (L.input.length + 1) L.advance.2 with
      | .error e => .error e
      | .ok L => .ok (⟨.NUMBER, substr L.input start (L.position - start)⟩, L)
    else .ok (⟨.NUMBER, substr L.input start (L.position - start)⟩, L)

/-- Embedding of `Lexer::string`. -/
def string (L : Lexer) : Except Failure (Token × Lexer) :=
  let start := L.position
  match advanceWhile (fun c => c != quote) (L.input.length + 1) L with
  | .error e => .error e
  | .ok L =>
    if L.isAtEnd then .error (.runtime_error "Unterminated string.")
    else
      let L := L.advance.2
      .ok (⟨.STRING_LITERAL, substr L.input start (L.position - start - 1)⟩, L)

/-- Embedding of `Lexer::nextToken`. -/
def nextToken (L : Lexer) : Except Failure (Token × Lexer) :=
  match L.skipWhitespace with
  | .error e => .error e
  | .ok L =>
    if L.isAtEnd then .ok (⟨.END_OF_FILE, ""⟩, L)
    else
      let c := L.advance.1
      let L := L.advance.2
      if isalpha c || c == '_' then L.identifier
      else if isdigit c then L.number
      else if c == quote then L.string
      else if c == ',' then .ok (⟨.COMMA, ","⟩, L)
      else if c == ';' then .ok (⟨.SEMICOLON, ";"⟩, L)
      else if c == '(' then .ok (⟨.LEFT_PAREN, "("⟩, L)
      else if c == ')' then .ok (⟨.RIGHT_PAREN, ")"⟩, L)
      else if c == '*' then .ok (⟨.ASTERISK, "*"⟩, L)
      else if c == '=' then .ok (⟨.EQUAL, "="⟩, L)
      else if c == '<' then
        if (L.matchChar '=').1 then .ok (⟨.LESS_EQUAL, "<="⟩, (L.matchChar '=').2)
        else if (L.matchChar '>').1 then .ok (⟨.NOT_EQUAL, "<>"⟩, (L.matchChar '>').2)
        else .ok (⟨.LESS_THAN, "<"⟩, L)
      else if c == '>' then
        if (L.matchChar '=').1 then .ok (⟨.GREATER_EQUAL, ">="⟩, (L.matchChar '=').2)
        else .ok (⟨.GREATER_THAN, ">"⟩, L)
      else if c == '!' then
        if (L.matchChar '=').1 then .ok (⟨.NOT_EQUAL, "!="⟩, (L.matchChar '=').2)
        else .error (.runtime_error "Unexpected character: !")
      else .error (.runtime_error ("Unexpected character: " ++ String.singleton c))

/-- The loop of `Lexer::tokenize` with an iteration budget: `tokens` is the vector
built so far. -/
def tokenizeLoop : Nat → Lexer → List Token → Except Failure (List Token)
  | 0, _, _ => .error .out_of_fuel
  | fuel + 1, L, tokens =>
    match L.nextToken with
    | .error e => .error e
    | .ok (token, L) =>
      if token.type == .END_OF_FILE then .ok (tokens ++ [token])
      else tokenizeLoop fuel L (tokens ++ [token])

/-- Embedding of `Lexer::tokenize` on a freshly constructed lexer `Lexer(input)`. -/
def tokenize (input : String) : Except Failure (List Token) :=
  tokenizeLoop (input.data.length + 1) ⟨input.data, 0⟩ []

end Lexer

/-- The function `Lexer::getKeywords` returns the keys of the `std::unordered_map` in its
iteration order, which the language leaves unspecified: an admissible result is any
arrangement of the twelve keys. -/
def keywordNames : List String := keywordTable.map Prod.fst

/-! ## Helpers: edit distance, suggestion, type inference -/

/-- The assignment `d[i][j] = v` on the table `d`, read as `d i j`. -/
def setCell (d : Nat → Nat → Nat) (i j v : Nat) : Nat → Nat → Nat :=
  fun i' j' => if i' = i ∧ j' = j then v else d i' j'

/-- Embedding of `levenshteinDistance`: the table `d` is filled by the three loops of the source. -/
def levenshteinDistance (s1 s2 : String) : Nat :=
  let len1 := s1.data.length
  let len2 := s2.data.length
  let d : Nat → Nat → Nat := fun _ _ => 0
  let d := (List.range (len1 + 1)).foldl (fun d i => setCell d i 0 i) d
  let d := (List.range (len2 + 1)).foldl (fun d j => setCell d 0 j j) d
  let d := (List.range' 1 len1).foldl (fun d i =>
    (List.range' 1 len2).foldl (fun d j =>
      setCell d i j (min (d (i - 1) j + 1) (min (d i (j - 1) + 1)
        (d (i - 1) (j - 1) +
          (if s1.data.getD (i - 1) (Char.ofNat 0) != s2.data.getD (j - 1) (Char.ofNat 0)
            then 1 else 0))))) d) d
  d len1 len2

/-- Embedding of `std::numeric_limits<int>::max()`. -/
def INT_MAX : Nat := 2147483647

/-- One iteration of the loop of `findClosestKeyword` on the pair `(closest, minDistance)`. -/
def closestStep (word : String) (acc : String × Nat) (keyword : String) : String × Nat :=
  let distance := levenshteinDistance word keyword
  if distance < acc.2 then (keyword, distance) else acc

/-- Embedding of `findClosestKeyword`. -/
def findClosestKeyword (word : String) (keywords : List String) : String :=
  let r := keywords.foldl (closestStep word) ("", INT_MAX)
  if r.2 ≤ max 2 (word.data.length / 3) then r.1 else ""

/-- Embedding of `std::string::find(pattern)` from position `pos` on: the index of the first
occurrence, `none` for `npos`. -/
def findFrom (pattern : List Char) : List Char → Nat → Option Nat
  | [], pos => if pattern.isEmpty then some pos else none
  | c :: s, pos =>
    if pattern.isPrefixOf (c :: s) then some pos else findFrom pattern s (pos + 1)

/-- The word list `stringColumns`. -/
def stringColumns : List String :=
  ["name", "firstname", "lastname", "email", "address", "city", "state",
   "country", "description", "title", "username", "password", "phone",
   "status", "type", "color", "url", "code"]

/-- The word list `numericColumns`. -/
def numericColumns : List String :=
  ["id", "age", "count", "amount", "price", "quantity", "total", "number",
   "size", "width", "height", "weight", "duration", "score", "rating"]

/-- Embedding of `inferDataTypeFromColumnName`. -/
def inferDataTypeFromColumnName (columnName : String) : DataType :=
  let lowerName := String.mk (columnName.data.map tolower)
  if stringColumns.any (fun pattern =>
      lowerName == pattern || (findFrom pattern.data lowerName.data 0).isSome) then .STRING
  else if numericColumns.any (fun pattern =>
      lowerName == pattern || (findFrom pattern.data lowerName.data 0).isSome) then .NUMBER
  else .UNKNOWN

/-- Embedding of `isValueTypeValid`. -/
def isValueTypeValid (valueType : TokenType) (expectedType : DataType) : Bool :=
  match expectedType with
  | .STRING => valueType == .STRING_LITERAL || valueType == .IDENTIFIER
  | .NUMBER => valueType == .NUMBER || valueType == .IDENTIFIER
  | .BOOLEAN => true
  | .DATE => valueType == .STRING_LITERAL
  | .UNKNOWN => true

/-- Embedding of `dataTypeToString`. -/
def dataTypeToString (type : DataType) : String :=
  match type with
  | .STRING => "string"
  | .NUMBER => "number"
  | .BOOLEAN => "boolean"
  | .DATE => "date"
  | .UNKNOWN => "unknown"

/-! ## Parser -/

/-- Parser state: the token vector and the cursor `current`. The member `keywords` is
set by the constructor and never assigned again; it is passed as an argument to the two
functions that read it, `statement` and `parse`. -/
structure Parser where
  tokens : List Token
  current : Nat
  deriving DecidableEq, Repr

namespace Parser

/-- Embedding of `Parser::peek`: `tokens[current]`, undefined when out of range. -/
def peek (p : Parser) : Except Failure Token :=
  match p.tokens[p.current]? with
  | some t => .ok t
  | none => .error .undefined

/-- Embedding of `Parser::previous`: `tokens[current - 1]`, undefined when out of range. -/
def previous (p : Parser) : Except Failure Token :=
  if p.current = 0 then .error .undefined
  else
    match p.tokens[p.current - 1]? with
    | some t => .ok t
    | none => .error .undefined

/-- Embedding of `Parser::isAtEnd`. -/
def isAtEnd (p : Parser) : Except Failure Bool := do
  let t ← p.peek
  pure (t.type == .END_OF_FILE)

/-- Embedding of `Parser::advance`. -/
def advance (p : Parser) : Except Failure (Token × Parser) := do
  let e ← p.isAtEnd
  let p := if !e then { p with current := p.current + 1 } else p
  let t ← p.previous
  pure (t, p)

/-- Embedding of `Parser::check`. -/
def check (p : Parser) (type : TokenType) : Except Failure Bool := do
  let e ← p.isAtEnd
  if e then pure false
  else do
    let t ← p.peek
    pure (t.type == type)

/-- Embedding of `Parser::match(TokenType type)`. -/
def matchType (p : Parser) (type : TokenType) : Except Failure (Bool × Parser) := do
  let c ← p.check type
  if c then do
    let r ← p.advance
    pure (true, r.2)
  else pure (false, p)

/-- Embedding of `Parser::match(std::initializer_list<TokenType> types)`. -/
def matchAny (p : Parser) : List TokenType → Except Failure (Bool × Parser)
  | [] => pure (false, p)
  | type :: types => do
    let r ← p.matchType type
    if r.1 then pure (true, r.2) else matchAny r.2 types

/-- Embedding of `Parser::consume`. -/
def consume (p : Parser) (type : TokenType) (message : String) : Except Failure Parser := do
  let c ← p.check type
  if c then do
    let r ← p.advance
    pure r.2
  else throw (.runtime_error message)

/-- The `do ... while (match(COMMA))` loop of `Parser::columnList`. -/
def columnListLoop : Nat → Parser → Except Failure Parser
  | 0, _ => .error .out_of_fuel
  | fuel + 1, p => do
    let p ← p.consume .IDENTIFIER "Expected column name."
    let r ← p.matchType .COMMA
    if r.1 then columnListLoop fuel r.2 else pure r.2

/-- Embedding of `Parser::columnList`. -/
def columnList (p : Parser) : Except Failure Parser := do
  let r ← p.matchType .ASTERISK
  if r.1 then pure r.2 else columnListLoop (r.2.tokens.length + 1) r.2

/-- The `do ... while (match(COMMA))` loop of `Parser::parseColumnList`. -/
def parseColumnListLoop : Nat → Parser → List Column → Except Failure (List Column × Parser)
  | 0, _, _ => .error .out_of_fuel
  | fuel + 1, p, columns => do
    let columnToken ← p.peek
    let p ← p.consume .IDENTIFIER "Expected column name."
    let dataType := inferDataTypeFromColumnName columnToken.lexeme
    let columns := columns ++ [Column.mk columnToken.lexeme dataType]
    let r ← p.matchType .COMMA
    if r.1 then parseColumnListLoop fuel r.2 columns else pure (columns, r.2)

/-- Embedding of `Parser::parseColumnList`. -/
def parseColumnList (p : Parser) : Except Failure (List Column × Parser) := do
  let r ← p.matchType .ASTERISK
  if r.1 then pure ([Column.mk "*" .UNKNOWN], r.2)
  else parseColumnListLoop (r.2.tokens.length + 1) r.2 []

/-- The `do ... while (match(COMMA))` loop of `Parser::tableList`. -/
def tableListLoop : Nat → Parser → Except Failure Parser
  | 0, _ => .error .out_of_fuel
  | fuel + 1, p => do
    let p ← p.consume .IDENTIFIER "Expected table name."
    let r ← p.matchType .COMMA
    if r.1 then tableListLoop fuel r.2 else pure r.2

/-- Embedding of `Parser::tableList`. -/
def tableList (p : Parser) : Except Failure Parser :=
  tableListLoop (p.tokens.length + 1) p

/-- The body of the loop of `Parser::parseValueList`: the `if` / `else if` chain that
reads one value and pushes its kind onto `valueTypes`. -/
def parseValue (p : Parser) (valueTypes : List TokenType) :
    Except Failure (List TokenType × Parser) := do
  let r ← p.matchType .STRING_LITERAL
  if r.1 then pure (valueTypes ++ [.STRING_LITERAL], r.2)
  else do
    let r ← r.2.matchType .NUMBER
    if r.1 then pure (valueTypes ++ [.NUMBER], r.2)
    else do
      let r ← r.2.matchType .IDENTIFIER
      if r.1 then pure (valueTypes ++ [.IDENTIFIER], r.2)
      else throw (.runtime_error "Expected a value (string, number, or identifier).")

/-- The `do ... while (match(COMMA))` loop of `Parser::parseValueList`. -/
def parseValueListLoop : Nat → Parser → List TokenType →
    Except Failure (List TokenType × Parser)
  | 0, _, _ => .error .out_of_fuel
  | fuel + 1, p, valueTypes => do
    let s ← p.parseValue valueTypes
    let r ← s.2.matchType .COMMA
    if r.1 then parseValueListLoop fuel r.2 s.1 else pure (s.1, r.2)

/-- Embedding of `Parser::parseValueList`. -/
def parseValueList (p : Parser) : Except Failure (List TokenType × Parser) :=
  parseValueListLoop (p.tokens.length + 1) p []

/-- The `do ... while (match(COMMA))` loop of `Parser::assignmentList`. -/
def assignmentListLoop : Nat → Parser → Except Failure Parser
  | 0, _ => .error .out_of_fuel
  | fuel + 1, p => do
    let p ← p.consume .IDENTIFIER "Expected column name."
    let p ← p.consume .EQUAL "Expected '=' after column name."
    let r ← p.matchAny [.STRING_LITERAL, .NUMBER, .IDENTIFIER]
    if !r.1 then throw (.runtime_error "Expected a value (string, number, or identifier).")
    else do
      let r ← r.2.matchType .COMMA
      if r.1 then assignmentListLoop fuel r.2 else pure r.2

/-- Embedding of `Parser::assignmentList`. -/
def assignmentList (p : Parser) : Except Failure Parser :=
  assignmentListLoop (p.tokens.length + 1) p

/-- Embedding of `Parser::term`. -/
def term (p : Parser) : Except Failure Parser := do
  let p ← p.consume .IDENTIFIER "Expected column name in condition."
  let r ← p.matchAny [.EQUAL, .LESS_THAN, .GREATER_THAN, .LESS_EQUAL, .GREATER_EQUAL, .NOT_EQUAL]
  if !r.1 then throw (.runtime_error "Expected a comparison operator.")
  else do
    let r ← r.2.matchAny [.STRING_LITERAL, .NUMBER, .IDENTIFIER]
    if !r.1 then throw (.runtime_error "Expected a value (string, number, or identifier).")
    else pure r.2

/-- The `while (match({AND, OR})) term();` loop of `Parser::expression`. -/
def expressionLoop : Nat → Parser → Except Failure Parser
  | 0, _ => .error .out_of_fuel
  | fuel + 1, p => do
    let r ← p.matchAny [.AND, .OR]
    if r.1 then do
      let p ← r.2.term
      expressionLoop fuel p
    else pure r.2

/-- Embedding of `Parser::expression`. -/
def expression (p : Parser) : Except Failure Parser := do
  let p ← p.term
  expressionLoop (p.tokens.length + 1) p

/-- Embedding of `Parser::condition`. -/
def condition (p : Parser) : Except Failure Parser := p.expression

/-- The optional clause `if (match(WHERE)) condition();` of three statements. -/
def whereClause (p : Parser) : Except Failure Parser := do
  let r ← p.matchType .WHERE
  if r.1 then r.2.condition else pure r.2

/-- Embedding of `Parser::selectStatement`. -/
def selectStatement (p : Parser) : Except Failure Parser := do
  let p ← p.columnList
  let p ← p.consume .FROM "Expected 'FROM' after SELECT columns."
  let p ← p.tableList
  let p ← p.whereClause
  p.consume .SEMICOLON "Expected ';' at the end of SELECT statement."

/-- The type check loop of `Parser::insertStatement`:
`for (i = 0; i < columns.size() && i < valueTypes.size(); ++i)`. -/
def checkValueTypes (columns : List Column) (valueTypes : List TokenType) :
    Except Failure Unit :=
  (List.range (min columns.length valueTypes.length)).forM (fun i =>
    match columns[i]?, valueTypes[i]? with
    | some column, some valueType =>
      if !isValueTypeValid valueType column.type then
        throw (.runtime_error ("Type mismatch for column '" ++ column.name ++
          "'. Expected " ++ dataTypeToString column.type ++ " but got " ++
          (if valueType == .STRING_LITERAL then "string"
           else if valueType == .NUMBER then "number" else "identifier") ++ "."))
      else pure ()
    | _, _ => pure ())

/-- The optional column list of `Parser::insertStatement`:
`if (match(LEFT_PAREN)) { columns = parseColumnList(); consume(RIGHT_PAREN, ...); }`,
with `columns` empty otherwise. -/
def insertColumns (p : Parser) : Except Failure (List Column × Parser) := do
  let r ← p.matchType .LEFT_PAREN
  if r.1 then do
    let cs ← r.2.parseColumnList
    let p ← cs.2.consume .RIGHT_PAREN "Expected ')' after column list."
    pure (cs.1, p)
  else pure ([], r.2)

/-- Embedding of `Parser::insertStatement`. -/
def insertStatement (p : Parser) : Except Failure Parser := do
  let p ← p.consume .INTO "Expected 'INTO' after INSERT."
  let p ← p.consume .IDENTIFIER "Expected table name after INTO."
  let cp ← p.insertColumns
  let columns := cp.1
  let columnCount := columns.length
  let p ← cp.2.consume .VALUES "Expected 'VALUES' after table name or column list."
  let p ← p.consume .LEFT_PAREN "Expected '(' after VALUES."
  let vs ← p.parseValueList
  let valueTypes := vs.1
  let valueCount := valueTypes.length
  let p ← vs.2.consume .RIGHT_PAREN "Expected ')' after value list."
  if columnCount > 0 && columnCount != valueCount then
    throw (.runtime_error ("Column count (" ++ toString columnCount ++
      ") does not match value count (" ++ toString valueCount ++ ")."))
  else do
    checkValueTypes columns valueTypes
    p.consume .SEMICOLON "Expected ';' at the end of INSERT statement."

/-- Embedding of `Parser::updateStatement`. -/
def updateStatement (p : Parser) : Except Failure Parser := do
  let p ← p.consume .IDENTIFIER "Expected table name after UPDATE."
  let p ← p.consume .SET "Expected 'SET' after table name."
  let p ← p.assignmentList
  let p ← p.whereClause
  p.consume .SEMICOLON "Expected ';' at the end of UPDATE statement."

/-- Embedding of `Parser::deleteStatement`. -/
def deleteStatement (p : Parser) : Except Failure Parser := do
  let p ← p.consume .FROM "Expected 'FROM' after DELETE."
  let p ← p.consume .IDENTIFIER "Expected table name after FROM."
  let p ← p.whereClause
  p.consume .SEMICOLON "Expected ';' at the end of DELETE statement."

/-- The `else` branch of `Parser::statement`: the keyword suggestion. -/
def unknownStatement (keywords : List String) (p : Parser) : Except Failure Parser := do
  let t ← p.peek
  if t.type == .IDENTIFIER then
    let token := String.mk (t.lexeme.data.map toupper)
    let suggestion := findClosestKeyword token keywords
    if !suggestion.isEmpty then
      throw (.runtime_error ("Unknown keyword '" ++ t.lexeme ++
        "'. Did you mean '" ++ suggestion ++ "'?"))
    else throw (.runtime_error "Expected a SQL statement.")
  else throw (.runtime_error "Expected a SQL statement.")

/-- Embedding of `Parser::statement`. -/
def statement (keywords : List String) (p : Parser) : Except Failure Parser := do
  let r ← p.matchType .SELECT
  if r.1 then r.2.selectStatement
  else do
    let r ← r.2.matchType .INSERT
    if r.1 then r.2.insertStatement
    else do
      let r ← r.2.matchType .UPDATE
      if r.1 then r.2.updateStatement
      else do
        let r ← r.2.matchType .DELETE
        if r.1 then r.2.deleteStatement
        else r.2.unknownStatement keywords

/-- Embedding of `Parser::parse` (the console output is not modelled). -/
def parse (keywords : List String) (p : Parser) : Except Failure Unit := do
  let p ← p.statement keywords
  let e ← p.isAtEnd
  if !e then do
    let t ← p.peek
    if t.type != .SEMICOLON then
      throw (.runtime_error "Unexpected tokens after statement.")
    else pure ()
  else pure ()

end Parser

/-! ## Validator -/

namespace SQLValidator

/-- The `try` block of `SQLValidator::validate`: tokenize, then parse with the keyword
spellings in the order `keywords` in which `getKeywords` yields them. -/
def run (keywords : List String) (sql : String) : Except Failure Unit := do
  let tokens ← Lexer.tokenize sql
  Parser.parse keywords ⟨tokens, 0⟩

/-- Embedding of `SQLValidator::validate`: `true` when the `try` block completes, `false` when a
`std::exception` is caught. -/
def validate (keywords : List String) (sql : String) : Except Failure Bool :=
  match run keywords sql with
  | .ok _ => .ok true
  | .error (.runtime_error _) => .ok false
  | .error e => .error e

end SQLValidator

/-! ## Auxiliary definitions of the proofs -/

namespace Parser

/-- The parser `q` works on the token vector of `p` with a cursor that is not behind. -/
def Reaches (p q : Parser) : Prop := q.tokens = p.tokens ∧ p.current ≤ q.current

/-- The cursor of `q` is just behind a `SEMICOLON` token and beyond the cursor of `p`. -/
def EndsAfterSemicolon (p q : Parser) : Prop :=
  q.tokens = p.tokens ∧ p.current < q.current ∧
    ∃ s, q.tokens[q.current - 1]? = some s ∧ s.type = .SEMICOLON

end Parser

namespace Lexer

/-- What `identifier` returns after the character `c`, with `r` the unread characters:
the token and the number of characters of `r` it consumes. -/
def scanIdentifier (c : Char) (r : List Char) : Token × Nat :=
  let body := r.takeWhile (fun c => isalnum c || c == '_')
  let text := String.mk (c :: body)
  match keywordTable.lookup (String.mk (text.data.map toupper)) with
  | some k => (⟨k, text⟩, body.length)
  | none => (⟨.IDENTIFIER, text⟩, body.length)

/-- What `number` returns after the digit `c`, with `r` the unread characters. -/
def scanNumber (c : Char) (r : List Char) : Token × Nat :=
  let ds := r.takeWhile isdigit
  let r1 := r.dropWhile isdigit
  if r1.headD (Char.ofNat 0) == '.' && isdigit (r1.getD 1 (Char.ofNat 0)) then
    let fs := (r1.drop 1).takeWhile isdigit
    (⟨.NUMBER, String.mk (c :: (ds ++ '.' :: fs))⟩, ds.length + 1 + fs.length)
  else (⟨.NUMBER, String.mk (c :: ds)⟩, ds.length)

/-- What `string` returns after the opening quote, with `r` the unread characters. -/
def scanString (r : List Char) : Except Failure (Token × Nat) :=
  let body := r.takeWhile (fun c => c != quote)
  if (r.dropWhile (fun c => c != quote)).isEmpty then
    .error (.runtime_error "Unterminated string.")
  else .ok (⟨.STRING_LITERAL, String.mk body⟩, body.length + 1)

/-- What `nextToken` returns when the first character past the blanks is `c`, with `r` the
unread characters behind it. -/
def scanSymbol (c : Char) (r : List Char) : Except Failure (Token × Nat) :=
  if isalpha c || c == '_' then .ok (scanIdentifier c r)
  else if isdigit c then .ok (scanNumber c r)
  else if c == quote then scanString r
  else if c == ',' then .ok (⟨.COMMA, ","⟩, 0)
  else if c == ';' then .ok (⟨.SEMICOLON, ";"⟩, 0)
  else if c == '(' then .ok (⟨.LEFT_PAREN, "("⟩, 0)
  else if c == ')' then .ok (⟨.RIGHT_PAREN, ")"⟩, 0)
  else if c == '*' then .ok (⟨.ASTERISK, "*"⟩, 0)
  else if c == '=' then .ok (⟨.EQUAL, "="⟩, 0)
  else if c == '<' then
    if r.head? = some '=' then .ok (⟨.LESS_EQUAL, "<="⟩, 1)
    else if r.head? = some '>' then .ok (⟨.NOT_EQUAL, "<>"⟩, 1)
    else .ok (⟨.LESS_THAN, "<"⟩, 0)
  else if c == '>' then
    if r.head? = some '=' then .ok (⟨.GREATER_EQUAL, ">="⟩, 1)
    else .ok (⟨.GREATER_THAN, ">"⟩, 0)
  else if c == '!' then
    if r.head? = some '=' then .ok (⟨.NOT_EQUAL, "!="⟩, 1)
    else .error (.runtime_error "Unexpected character: !")
  else .error (.runtime_error ("Unexpected character: " ++ String.singleton c))

/-- What `nextToken` returns on the unread characters `rest`: the token and the number of
characters consumed. -/
def scan (rest : List Char) : Except Failure (Token × Nat) :=
  match rest.dropWhile isspace with
  | [] => .ok (⟨.END_OF_FILE, ""⟩, (rest.takeWhile isspace).length)
  | c :: r =>
    match scanSymbol c r with
    | .ok (t, n) => .ok (t, (rest.takeWhile isspace).length + 1 + n)
    | .error e => .error e

end Lexer

/-- The token list `part` is the non-empty list `items` with one COMMA token between
consecutive items: `c1 , c2 , ... , cn`. -/
inductive CommaSeparated : List Token → List Token → Prop
  | single (c : Token) : CommaSeparated [c] [c]
  | cons (c comma : Token) (items part : List Token) :
      comma.type = .COMMA → CommaSeparated items part →
      CommaSeparated (c :: items) (c :: comma :: part)

/-- The column that `parseColumnList` records for the identifier token `c`. -/
def columnOf (c : Token) : Column := ⟨c.lexeme, inferDataTypeFromColumnName c.lexeme⟩

/-- The diagnostic of the type check of `insertStatement` for the column token `c` and
the value token `v`. -/
def typeMismatch (c v : Token) : String :=
  "Type mismatch for column '" ++ c.lexeme ++ "'. Expected " ++
    dataTypeToString (inferDataTypeFromColumnName c.lexeme) ++ " but got " ++
    (if v.type == .STRING_LITERAL then "string"
     else if v.type == .NUMBER then "number" else "identifier") ++ "."

/-- The keyword kind named by the upper-case spelling `upper`, IDENTIFIER when it is none
of the twelve keywords. -/
def specKeywordKind (upper : String) : TokenType :=
  if upper = "SELECT" then .SELECT
  else if upper = "FROM" then .FROM
  else if upper = "WHERE" then .WHERE
  else if upper = "INSERT" then .INSERT
  else if upper = "INTO" then .INTO
  else if upper = "VALUES" then .VALUES
  else if upper = "UPDATE" then .UPDATE
  else if upper = "SET" then .SET
  else if upper = "DELETE" then .DELETE
  else if upper = "AND" then .AND
  else if upper = "OR" then .OR
  else if upper = "NOT" then .NOT
  else .IDENTIFIER

/-- The type inference in the words of the specification: on the lower-cased name, STRING
when a word of the string list occurs in it, else NUMBER when a word of the number list
occurs in it, else UNKNOWN. -/
def specInferDataType (columnName : String) : DataType :=
  if ∃ w ∈ stringColumns, w.data <:+: columnName.data.map tolower then .STRING
  else if ∃ w ∈ numericColumns, w.data <:+: columnName.data.map tolower then .NUMBER
  else .UNKNOWN

/-- Two results agree but for the text of a thrown diagnostic. -/
def SameVerdict {α : Type} (r r' : Except Failure α) : Prop :=
  r = r' ∨ ∃ m m', r = .error (.runtime_error m) ∧ r' = .error (.runtime_error m')

/-- The token vector is non-empty and its only END_OF_FILE token is its last element. -/
def WellFormed (tokens : List Token) : Prop :=
  ∃ init last, tokens = init ++ [last] ∧ last.type = .END_OF_FILE ∧
    ∀ t ∈ init, t.type ≠ .END_OF_FILE

/-- The cursor of the parser is an index into its well-formed token vector. -/
def InBounds (p : Parser) : Prop := WellFormed p.tokens ∧ p.current < p.tokens.length

/-- A step from `p` with result `r` reads no token out of range, and when it returns, the
parser `proj a` it leaves is in bounds, on the same vector, with a cursor not behind. -/
def SafeStep {α : Type} (p : Parser) (r : Except Failure α) (proj : α → Parser) : Prop :=
  r ≠ .error .undefined ∧
    ∀ a, r = .ok a → InBounds (proj a) ∧ (proj a).tokens = p.tokens ∧
      p.current ≤ (proj a).current

/-- The row of the recursive edit distance for a first string `a :: s`: `n` is its length
and `prev` is the distance from `s`. -/
def specLevRow (a : Char) (n : Nat) (prev : List Char → Nat) : List Char → Nat
  | [] => n
  | b :: t =>
    min (prev (b :: t) + 1)
      (min (specLevRow a n prev t + 1) (prev t + if a != b then 1 else 0))

/-- The standard recursive definition of the edit distance:
`lev(a::s, b::t) = min(lev(s, b::t) + 1, lev(a::s, t) + 1, lev(s, t) + [a != b])`,
`lev(s, "") = |s|`, `lev("", t) = |t|`. -/
def specLev : List Char → List Char → Nat
  | [] => fun t => t.length
  | a :: s => specLevRow a (s.length + 1) (specLev s)

/-- An edit script of `n` single-character operations that transforms the first string into
the second, read from left to right: characters are kept, substituted, deleted or
inserted, and every operation but keeping counts 1. -/
inductive Edits : List Char → List Char → Nat → Prop
  | nil : Edits [] [] 0
  | keep (a : Char) {s t : List Char} {n : Nat} : Edits s t n → Edits (a :: s) (a :: t) n
  | substitute (a b : Char) {s t : List Char} {n : Nat} :
      Edits s t n → Edits (a :: s) (b :: t) (n + 1)
  | delete (a : Char) {s t : List Char} {n : Nat} : Edits s t n → Edits (a :: s) t (n + 1)
  | insert (b : Char) {s t : List Char} {n : Nat} : Edits s t n → Edits s (b :: t) (n + 1)


/-- One single-character operation on a string: an insertion, a deletion or a substitution
at any place. -/
inductive EditStep : List Char → List Char → Prop
  | insert (l r : List Char) (c : Char) : EditStep (l ++ r) (l ++ c :: r)
  | delete (l r : List Char) (c : Char) : EditStep (l ++ c :: r) (l ++ r)
  | substitute (l r : List Char) (a b : Char) : EditStep (l ++ a :: r) (l ++ b :: r)

/-- The statement `Transforms n s t`: `n` single-character operations, one after the other,
transform `s` into `t`. -/
inductive Transforms : Nat → List Char → List Char → Prop
  | done (s : List Char) : Transforms 0 s s
  | step {n : Nat} {s u t : List Char} : EditStep s u → Transforms n u t → Transforms (n + 1) s t

/-- One cell update of the inner loop of `levenshteinDistance`. -/
def cellStep (cost : Nat → Nat → Nat) (i : Nat) (d : Nat → Nat → Nat) (j : Nat) :
    Nat → Nat → Nat :=
  setCell d i j (min (d (i - 1) j + 1) (min (d i (j - 1) + 1) (d (i - 1) (j - 1) + cost i j)))

/-- The grammar rule `value := STRING | NUMBER | IDENTIFIER` on a token. -/
def IsValue (t : Token) : Prop :=
  t.type = .STRING_LITERAL ∨ t.type = .NUMBER ∨ t.type = .IDENTIFIER

/-- The grammar rule `compareOp`: the six kinds of comparison tokens (`<>` and `!=` are both
NOT_EQUAL). -/
def IsCompareOp (t : Token) : Prop :=
  t.type ∈ [TokenType.EQUAL, .LESS_THAN, .GREATER_THAN, .LESS_EQUAL, .GREATER_EQUAL, .NOT_EQUAL]

/-- The repetition `((AND|OR) term)*` of the grammar rule `condition`, with
`term := IDENTIFIER compareOp value`. -/
inductive SpecConditionTail : List Token → Prop
  | nil : SpecConditionTail []
  | cons (conj c op v : Token) (rest : List Token) :
      (conj.type = .AND ∨ conj.type = .OR) → c.type = .IDENTIFIER → IsCompareOp op →
      IsValue v → SpecConditionTail rest → SpecConditionTail (conj :: c :: op :: v :: rest)

/-- The grammar rule `condition := term ((AND|OR) term)*`. -/
inductive SpecCondition : List Token → Prop
  | mk (c op v : Token) (tail : List Token) :
      c.type = .IDENTIFIER → IsCompareOp op → IsValue v → SpecConditionTail tail →
      SpecCondition (c :: op :: v :: tail)

/-- The optional clause `(WHERE condition)?` of the grammar. -/
inductive SpecWhere : List Token → Prop
  | absent : SpecWhere []
  | present (w : Token) (cond : List Token) :
      w.type = .WHERE → SpecCondition cond → SpecWhere (w :: cond)

/-- The grammar rule `IDENTIFIER (',' IDENTIFIER)*`, used for `tableList` and for the named
form of `columnList`. -/
def SpecIdentifierList (part : List Token) : Prop :=
  ∃ items, (∀ c ∈ items, c.type = .IDENTIFIER) ∧ CommaSeparated items part

/-- The grammar rule `columnList := '*' | IDENTIFIER (',' IDENTIFIER)*`. -/
inductive SpecColumnList : List Token → Prop
  | star (t : Token) : t.type = .ASTERISK → SpecColumnList [t]
  | names (part : List Token) : SpecIdentifierList part → SpecColumnList part

/-- The grammar rule
`assignmentList := (IDENTIFIER '=' value) (',' IDENTIFIER '=' value)*`. -/
inductive SpecAssignmentList : List Token → Prop
  | single (c eq v : Token) :
      c.type = .IDENTIFIER → eq.type = .EQUAL → IsValue v → SpecAssignmentList [c, eq, v]
  | cons (c eq v comma : Token) (rest : List Token) :
      c.type = .IDENTIFIER → eq.type = .EQUAL → IsValue v → comma.type = .COMMA →
      SpecAssignmentList rest → SpecAssignmentList (c :: eq :: v :: comma :: rest)

/-- The proviso on an INSERT with an explicit column list: as many values as columns, and
every value compatible with the type inferred for its column. -/
def InsertProviso (cols vals : List Token) : Prop :=
  cols.length = vals.length ∧
  ∀ (i : Nat) (c v : Token), cols[i]? = some c → vals[i]? = some v →
    isValueTypeValid v.type (inferDataTypeFromColumnName c.lexeme) = true

/-- The token sequences derived from `statement` in the grammar of the specification, the
leading keyword included. `proviso cols vals` is required of the column identifiers and the
values of an INSERT with an explicit column list. -/
inductive SpecStatement (proviso : List Token → List Token → Prop) : List Token → Prop
  | select (kw fr semi : Token) (columns tables wh : List Token) :
      kw.type = .SELECT → SpecColumnList columns → fr.type = .FROM →
      SpecIdentifierList tables → SpecWhere wh → semi.type = .SEMICOLON →
      SpecStatement proviso (kw :: (columns ++ fr :: (tables ++ (wh ++ [semi]))))
  | insert (kw into table lp rp values lp2 rp2 semi : Token)
      (cols colPart vals valPart : List Token) :
      kw.type = .INSERT → into.type = .INTO → table.type = .IDENTIFIER →
      lp.type = .LEFT_PAREN → (∀ c ∈ cols, c.type = .IDENTIFIER) →
      CommaSeparated cols colPart → rp.type = .RIGHT_PAREN → values.type = .VALUES →
      lp2.type = .LEFT_PAREN → (∀ v ∈ vals, IsValue v) → CommaSeparated vals valPart →
      rp2.type = .RIGHT_PAREN → semi.type = .SEMICOLON → proviso cols vals →
      SpecStatement proviso
        (kw :: into :: table :: lp :: (colPart ++ rp :: values :: lp2 :: (valPart ++ [rp2, semi])))
  | insertValues (kw into table values lp rp semi : Token) (vals valPart : List Token) :
      kw.type = .INSERT → into.type = .INTO → table.type = .IDENTIFIER →
      values.type = .VALUES → lp.type = .LEFT_PAREN → (∀ v ∈ vals, IsValue v) →
      CommaSeparated vals valPart → rp.type = .RIGHT_PAREN → semi.type = .SEMICOLON →
      SpecStatement proviso (kw :: into :: table :: values :: lp :: (valPart ++ [rp, semi]))
  | update (kw table set semi : Token) (assignments wh : List Token) :
      kw.type = .UPDATE → table.type = .IDENTIFIER → set.type = .SET →
      SpecAssignmentList assignments → SpecWhere wh → semi.type = .SEMICOLON →
      SpecStatement proviso (kw :: table :: set :: (assignments ++ (wh ++ [semi])))
  | delete (kw fr table semi : Token) (wh : List Token) :
      kw.type = .DELETE → fr.type = .FROM → table.type = .IDENTIFIER → SpecWhere wh →
      semi.type = .SEMICOLON → SpecStatement proviso (kw :: fr :: table :: (wh ++ [semi]))

/-- The statement `Eats r p x`: the parser step `r`, run from the state `p`, succeeds and
leaves the token vector as it is with `x` unread. -/
def Parser.Eats (r : Except Failure Parser) (p : Parser) (x : List Token) : Prop :=
  ∃ q, r = .ok q ∧ q.tokens = p.tokens ∧ q.tokens.drop q.current = x

/-- The parser `q` works on the token vector of `p`, its cursor is not behind, and the
tokens between the two cursors are neither NOT nor SEMICOLON tokens. -/
def Parser.Plain (p q : Parser) : Prop :=
  q.tokens = p.tokens ∧ p.current ≤ q.current ∧
    ∀ (i : Nat) (t : Token), p.current ≤ i → i < q.current → p.tokens[i]? = some t →
      t.type ≠ .NOT ∧ t.type ≠ .SEMICOLON

/-- From `p`, tokens that are neither NOT nor SEMICOLON were read up to a state `m`, and
`q` is `m` moved over one SEMICOLON token. -/
def Parser.PlainThenSemicolon (p q : Parser) : Prop :=
  ∃ m, Parser.Plain p m ∧ q = ⟨m.tokens, m.current + 1⟩ ∧
    ∃ s, m.tokens[m.current]? = some s ∧ s.type = .SEMICOLON

/-! # Theorems -/

/-! ## The lexer in terms of the unread characters -/

namespace Lexer

theorem drop_succ_of_drop {inp : List Char} {pos : Nat} {c : Char} {r : List Char}
    (hd : inp.drop pos = c :: r) : inp.drop (pos + 1) = r := by
  rw [← List.tail_drop, hd]; rfl

theorem lt_of_drop {inp : List Char} {pos : Nat} {c : Char} {r : List Char}
    (hd : inp.drop pos = c :: r) : pos < inp.length := by
  by_contra hge
  rw [List.drop_eq_nil_iff.mpr (not_lt.mp hge)] at hd
  cases hd

theorem getElem?_of_drop {inp : List Char} {pos : Nat} {c : Char} {r : List Char}
    (hd : inp.drop pos = c :: r) : inp[pos]? = some c := by
  have h1 : (inp.drop pos).head? = some c := by rw [hd]; rfl
  rwa [List.head?_drop] at h1

theorem peek_of_drop {inp : List Char} {pos : Nat} {c : Char} {r : List Char}
    (hd : inp.drop pos = c :: r) : peek ⟨inp, pos⟩ = c := by
  have hlt := lt_of_drop hd
  simp [peek, not_le.mpr hlt, getElem?_of_drop hd]

theorem isAtEnd_of_drop {inp : List Char} {pos : Nat} {c : Char} {r : List Char}
    (hd : inp.drop pos = c :: r) : isAtEnd ⟨inp, pos⟩ = false := by
  have hlt := lt_of_drop hd
  simp [isAtEnd, hlt]

theorem advance_of_drop {inp : List Char} {pos : Nat} {c : Char} {r : List Char}
    (hd : inp.drop pos = c :: r) : advance ⟨inp, pos⟩ = (c, ⟨inp, pos + 1⟩) := by
  have hlt := lt_of_drop hd
  simp [advance, not_le.mpr hlt, getElem?_of_drop hd]

theorem isAtEnd_of_drop_nil {inp : List Char} {pos : Nat} (hd : inp.drop pos = []) :
    isAtEnd ⟨inp, pos⟩ = true := by
  simp [isAtEnd, List.drop_eq_nil_iff.mp hd]

theorem peek_eq_headD (inp : List Char) (pos : Nat) :
    peek ⟨inp, pos⟩ = (inp.drop pos).headD (Char.ofNat 0) := by
  cases hd : inp.drop pos with
  | nil => simp [peek, List.drop_eq_nil_iff.mp hd]
  | cons c r => rw [peek_of_drop hd]; rfl

theorem matchChar_eq (inp : List Char) (pos : Nat) (expected : Char) :
    matchChar ⟨inp, pos⟩ expected =
      if (inp.drop pos).head? = some expected then (true, ⟨inp, pos + 1⟩)
      else (false, ⟨inp, pos⟩) := by
  cases hd : inp.drop pos with
  | nil => simp [matchChar, isAtEnd_of_drop_nil hd]
  | cons c r =>
    simp only [matchChar, isAtEnd_of_drop hd, peek_of_drop hd, List.head?_cons,
      Option.some.injEq, Bool.false_or]
    by_cases hc : c = expected <;> simp [hc]

/-- The `while` loop of the scanners stops behind the longest run of characters that
satisfy `p`, as soon as the budget exceeds the number of unread characters. -/
theorem advanceWhile_eq (p : Char → Bool) (fuel : Nat) (inp : List Char) (pos : Nat)
    (hf : inp.length - pos < fuel) :
    advanceWhile p fuel ⟨inp, pos⟩ =
      .ok ⟨inp, pos + ((inp.drop pos).takeWhile p).length⟩ := by
  induction fuel generalizing pos with
  | zero => omega
  | succ fuel ih =>
    unfold advanceWhile
    cases hd : inp.drop pos with
    | nil => simp [isAtEnd_of_drop_nil hd]
    | cons c r =>
      have hlt := lt_of_drop hd
      simp only [isAtEnd_of_drop hd, peek_of_drop hd, advance_of_drop hd, Bool.not_false,
        Bool.true_and, List.takeWhile_cons]
      by_cases hc : p c = true
      · rw [if_pos hc, if_pos hc, ih (pos + 1) (by omega), drop_succ_of_drop hd]
        simp [Nat.add_assoc, Nat.add_comm 1]
      · rw [if_neg hc, if_neg hc]; simp

theorem drop_takeWhile_length (p : Char → Bool) (l : List Char) :
    l.drop (l.takeWhile p).length = l.dropWhile p := by
  induction l with
  | nil => rfl
  | cons a l ih =>
    by_cases ha : p a = true
    · simp [List.takeWhile_cons, List.dropWhile_cons, ha, ih]
    · simp [List.takeWhile_cons, List.dropWhile_cons, ha]

theorem take_takeWhile_length (p : Char → Bool) (l : List Char) :
    l.take (l.takeWhile p).length = l.takeWhile p := by
  induction l with
  | nil => rfl
  | cons a l ih =>
    by_cases ha : p a = true
    · simp [List.takeWhile_cons, ha, ih]
    · simp [List.takeWhile_cons, ha]

theorem drop_add_takeWhile (p : Char → Bool) (inp : List Char) (pos : Nat) :
    inp.drop (pos + ((inp.drop pos).takeWhile p).length) = (inp.drop pos).dropWhile p := by
  rw [← List.drop_drop, drop_takeWhile_length]

theorem isAtEnd_eq_isEmpty (inp : List Char) (pos : Nat) :
    isAtEnd ⟨inp, pos⟩ = (inp.drop pos).isEmpty := by
  cases hd : inp.drop pos with
  | nil => rw [isAtEnd_of_drop_nil hd]; rfl
  | cons c r => rw [isAtEnd_of_drop hd]; rfl

theorem substr_of_drop {inp : List Char} {pos : Nat} {c : Char} {r : List Char}
    (hd : inp.drop pos = c :: r) (p : Char → Bool) (k : Nat)
    (hk : k = pos + 1 + (r.takeWhile p).length - pos) :
    substr inp pos k = String.mk (c :: r.takeWhile p) := by
  have hk' : k = (r.takeWhile p).length + 1 := by omega
  rw [substr, hd, hk', List.take_succ_cons, take_takeWhile_length]

theorem take_of_split (p : Char → Bool) (r ds r2 : List Char) (h : r = ds ++ '.' :: r2) :
    r.take (ds.length + (1 + (r2.takeWhile p).length)) = ds ++ '.' :: r2.takeWhile p := by
  subst h
  rw [List.take_append, Nat.add_comm 1, List.take_succ_cons, take_takeWhile_length]

theorem identifier_eq {inp : List Char} {pos : Nat} {c : Char} {r : List Char}
    (hd : inp.drop pos = c :: r) :
    identifier ⟨inp, pos + 1⟩ =
      .ok ((scanIdentifier c r).1, ⟨inp, pos + 1 + (scanIdentifier c r).2⟩) := by
  have hr := drop_succ_of_drop hd
  simp only [identifier, advanceWhile_eq _ (inp.length + 1) inp (pos + 1) (by omega), hr,
    Nat.add_sub_cancel, scanIdentifier]
  rw [substr_of_drop hd _ _ rfl]
  generalize List.lookup _ keywordTable = o
  cases o <;> rfl

theorem number_eq {inp : List Char} {pos : Nat} {c : Char} {r : List Char}
    (hd : inp.drop pos = c :: r) :
    number ⟨inp, pos + 1⟩ =
      .ok ((scanNumber c r).1, ⟨inp, pos + 1 + (scanNumber c r).2⟩) := by
  have hr := drop_succ_of_drop hd
  have hdw : inp.drop (pos + 1 + (r.takeWhile isdigit).length) = r.dropWhile isdigit := by
    have := drop_add_takeWhile isdigit inp (pos + 1)
    rwa [hr] at this
  have hget : inp.getD (pos + 1 + (r.takeWhile isdigit).length + 1) (Char.ofNat 0) =
      (r.dropWhile isdigit).getD 1 (Char.ofNat 0) := by
    rw [← hdw, List.getD_eq_getElem?_getD, List.getD_eq_getElem?_getD, List.getElem?_drop]
  simp only [number, advanceWhile_eq _ (inp.length + 1) inp (pos + 1) (by omega), hr,
    Nat.add_sub_cancel, scanNumber, peek_eq_headD, hdw, hget]
  split
  · next hcond =>
    have hdot : ∃ r2, r.dropWhile isdigit = '.' :: r2 := by
      cases hr1 : r.dropWhile isdigit with
      | nil => rw [hr1] at hcond; simp at hcond
      | cons a r2 =>
        rw [hr1] at hcond
        simp at hcond
        exact ⟨r2, by rw [hcond.1]⟩
    obtain ⟨r2, hr2⟩ := hdot
    rw [hr2] at hdw
    have hadv := advance_of_drop hdw
    have hr3 := drop_succ_of_drop hdw
    simp only [hadv, advanceWhile_eq _ (inp.length + 1) inp _ (Nat.lt_succ_of_le (Nat.sub_le _ _)),
      hr3, hr2, List.drop_one, List.tail_cons]
    have hsub : substr inp pos (pos + 1 + (r.takeWhile isdigit).length + 1 +
        (r2.takeWhile isdigit).length - pos) =
        String.mk (c :: (r.takeWhile isdigit ++ '.' :: r2.takeWhile isdigit)) := by
      have hk : pos + 1 + (r.takeWhile isdigit).length + 1 + (r2.takeWhile isdigit).length - pos
          = ((r.takeWhile isdigit).length + (1 + (r2.takeWhile isdigit).length)) + 1 := by omega
      rw [substr, hd, hk, List.take_succ_cons]
      congr 2
      exact take_of_split isdigit r _ r2
        (by rw [← hr2, List.takeWhile_append_dropWhile])
    rw [hsub]
    simp [Nat.add_assoc]
  · rw [substr_of_drop hd _ _ rfl]

theorem string_eq (inp : List Char) (pos : Nat) :
    string ⟨inp, pos⟩ =
      match scanString (inp.drop pos) with
      | .ok (t, n) => .ok (t, ⟨inp, pos + n⟩)
      | .error e => .error e := by
  simp only [string, advanceWhile_eq _ (inp.length + 1) inp pos
    (Nat.lt_succ_of_le (Nat.sub_le _ _)), scanString, isAtEnd_eq_isEmpty, drop_add_takeWhile]
  cases hdw : (inp.drop pos).dropWhile (fun c => c != quote) with
  | nil => simp
  | cons a r2 =>
    have hd2 := drop_add_takeWhile (fun c => c != quote) inp pos
    rw [hdw] at hd2
    simp only [List.isEmpty_cons, Bool.false_eq_true, if_false, advance_of_drop hd2]
    have hk : pos + ((inp.drop pos).takeWhile (fun c => c != quote)).length + 1 - pos - 1 =
        ((inp.drop pos).takeWhile (fun c => c != quote)).length := by omega
    rw [hk, substr, take_takeWhile_length, Nat.add_assoc]

/-- The function `nextToken` is `scan` on the unread characters. -/
theorem nextToken_eq (inp : List Char) (pos : Nat) :
    nextToken ⟨inp, pos⟩ =
      match scan (inp.drop pos) with
      | .ok (t, n) => .ok (t, ⟨inp, pos + n⟩)
      | .error e => .error e := by
  simp only [nextToken, skipWhitespace, advanceWhile_eq _ (inp.length + 1) inp pos
    (Nat.lt_succ_of_le (Nat.sub_le _ _)), scan]
  have hdw := drop_add_takeWhile isspace inp pos
  cases hr : (inp.drop pos).dropWhile isspace with
  | nil =>
    rw [hr] at hdw
    simp [isAtEnd_of_drop_nil hdw]
  | cons c r =>
    rw [hr] at hdw
    have hr1 := drop_succ_of_drop hdw
    simp only [isAtEnd_of_drop hdw, advance_of_drop hdw, Bool.false_eq_true, if_false,
      scanSymbol, identifier_eq hdw, number_eq hdw, string_eq, matchChar_eq, hr1]
    by_cases h : (isalpha c || c == '_') = true
    · rw [if_pos h, if_pos h]; simp [Nat.add_assoc]
    rw [if_neg h, if_neg h]
    clear h
    by_cases h : isdigit c = true
    · rw [if_pos h, if_pos h]; simp [Nat.add_assoc]
    rw [if_neg h, if_neg h]
    clear h
    by_cases h : (c == quote) = true
    · rw [if_pos h, if_pos h]; cases scanString r <;> simp [Nat.add_assoc]
    rw [if_neg h, if_neg h]
    clear h
    by_cases h : (c == ',') = true
    · rw [if_pos h, if_pos h]; simp [Nat.add_assoc]
    rw [if_neg h, if_neg h]
    clear h
    by_cases h : (c == ';') = true
    · rw [if_pos h, if_pos h]; simp [Nat.add_assoc]
    rw [if_neg h, if_neg h]
    clear h
    by_cases h : (c == '(') = true
    · rw [if_pos h, if_pos h]; simp [Nat.add_assoc]
    rw [if_neg h, if_neg h]
    clear h
    by_cases h : (c == ')') = true
    · rw [if_pos h, if_pos h]; simp [Nat.add_assoc]
    rw [if_neg h, if_neg h]
    clear h
    by_cases h : (c == '*') = true
    · rw [if_pos h, if_pos h]; simp [Nat.add_assoc]
    rw [if_neg h, if_neg h]
    clear h
    by_cases h : (c == '=') = true
    · rw [if_pos h, if_pos h]; simp [Nat.add_assoc]
    rw [if_neg h, if_neg h]
    clear h
    by_cases h : (c == '<') = true
    · rw [if_pos h, if_pos h]
      by_cases h1 : r.head? = some '='
      · simp [h1, Nat.add_assoc]
      · by_cases h2 : r.head? = some '>'
        · simp [h1, h2, Nat.add_assoc]
        · simp [h1, h2, Nat.add_assoc]
    rw [if_neg h, if_neg h]
    clear h
    by_cases h : (c == '>') = true
    · rw [if_pos h, if_pos h]
      by_cases h1 : r.head? = some '='
      · simp [h1, Nat.add_assoc]
      · simp [h1, Nat.add_assoc]
    rw [if_neg h, if_neg h]
    clear h
    by_cases h : (c == '!') = true
    · rw [if_pos h, if_pos h]
      by_cases h1 : r.head? = some '='
      · simp [h1, Nat.add_assoc]
      · simp [h1, Nat.add_assoc]
    rw [if_neg h, if_neg h]

theorem tokenizeLoop_step {fuel : Nat} {inp : List Char} {pos : Nat} {acc : List Token}
    {t : Token} {n : Nat} (hs : scan (inp.drop pos) = .ok (t, n))
    (hne : t.type ≠ .END_OF_FILE) :
    tokenizeLoop (fuel + 1) ⟨inp, pos⟩ acc = tokenizeLoop fuel ⟨inp, pos + n⟩ (acc ++ [t]) := by
  simp [tokenizeLoop, nextToken_eq, hs, hne]

theorem tokenizeLoop_eof {fuel : Nat} {inp : List Char} {pos : Nat} {acc : List Token}
    {t : Token} {n : Nat} (hs : scan (inp.drop pos) = .ok (t, n))
    (he : t.type = .END_OF_FILE) :
    tokenizeLoop (fuel + 1) ⟨inp, pos⟩ acc = .ok (acc ++ [t]) := by
  simp [tokenizeLoop, nextToken_eq, hs, he]

theorem tokenizeLoop_error {fuel : Nat} {inp : List Char} {pos : Nat} {acc : List Token}
    {e : Failure} (hs : scan (inp.drop pos) = .error e) :
    tokenizeLoop (fuel + 1) ⟨inp, pos⟩ acc = .error e := by
  simp [tokenizeLoop, nextToken_eq, hs]

theorem takeWhile_append_stop (p : Char → Bool) (l : List Char) (a : Char) (t : List Char)
    (hl : ∀ x ∈ l, p x = true) (ha : p a = false) : (l ++ a :: t).takeWhile p = l := by
  rw [List.takeWhile_append_of_pos hl, List.takeWhile_cons, ha]; simp

theorem dropWhile_append_stop (p : Char → Bool) (l : List Char) (a : Char) (t : List Char)
    (hl : ∀ x ∈ l, p x = true) (ha : p a = false) : (l ++ a :: t).dropWhile p = a :: t := by
  rw [List.dropWhile_append_of_pos hl, List.dropWhile_cons, ha]; simp

theorem scan_nil : scan [] = .ok (⟨.END_OF_FILE, ""⟩, 0) := rfl

/-- A quoted body without a quote scans as one string literal. -/
theorem scan_quoted (b t : List Char) (hb : quote ∉ b) :
    scan (quote :: (b ++ quote :: t)) = .ok (⟨.STRING_LITERAL, String.mk b⟩, b.length + 2) := by
  have hall : ∀ x ∈ b, (fun c => c != quote) x = true := by
    intro x hx
    simp only [bne_iff_ne, ne_eq]
    rintro rfl
    exact hb hx
  have hq : (fun c => c != quote) quote = false := by simp
  have h1 : (quote :: (b ++ quote :: t)).dropWhile isspace = quote :: (b ++ quote :: t) := by
    rw [List.dropWhile_cons]; rfl
  have h2 : (quote :: (b ++ quote :: t)).takeWhile isspace = [] := by
    rw [List.takeWhile_cons]; rfl
  have h3 : scanSymbol quote (b ++ quote :: t) = scanString (b ++ quote :: t) := rfl
  simp only [scan, h1, h2, h3, scanString, takeWhile_append_stop _ b quote t hall hq,
    dropWhile_append_stop _ b quote t hall hq]
  simp [Nat.add_comm, Nat.add_left_comm]

theorem isdigit_not_isspace {c : Char} (h : isdigit c = true) : isspace c = false := by
  simp only [isdigit, isspace, Bool.and_eq_true, decide_eq_true_eq, Bool.or_eq_false_iff,
    beq_eq_false_iff_ne, ne_eq, Bool.and_eq_false_iff, decide_eq_false_iff_not] at *
  omega

theorem isdigit_not_isalpha {c : Char} (h : isdigit c = true) : isalpha c = false := by
  simp only [isdigit, isalpha, Bool.and_eq_true, decide_eq_true_eq, Bool.or_eq_false_iff,
    Bool.and_eq_false_iff, decide_eq_false_iff_not] at *
  omega

theorem isdigit_ne {c a : Char} (h : isdigit c = true) (ha : isdigit a = false) :
    (c == a) = false := by
  rw [beq_eq_false_iff_ne]
  rintro rfl
  rw [h] at ha
  cases ha

/-- A run of digits followed by a `.` that no digit follows scans as a NUMBER that stops in
front of the `.`. -/
theorem scan_digits_dot (c : Char) (ds r : List Char) (hc : isdigit c = true)
    (hds : ∀ x ∈ ds, isdigit x = true) (hr : ∀ x, r.head? = some x → isdigit x = false) :
    scan (c :: (ds ++ '.' :: r)) = .ok (⟨.NUMBER, String.mk (c :: ds)⟩, ds.length + 1) := by
  have hsp := isdigit_not_isspace hc
  have h1 : (c :: (ds ++ '.' :: r)).dropWhile isspace = c :: (ds ++ '.' :: r) := by
    rw [List.dropWhile_cons, hsp]; rfl
  have h2 : (c :: (ds ++ '.' :: r)).takeWhile isspace = [] := by
    rw [List.takeWhile_cons, hsp]; rfl
  have hdot : isdigit '.' = false := by decide
  have hnext : isdigit (('.' :: r).getD 1 (Char.ofNat 0)) = false := by
    cases r with
    | nil => decide
    | cons x r => exact hr x rfl
  have h3 : scanSymbol c (ds ++ '.' :: r) = .ok (scanNumber c (ds ++ '.' :: r)) := by
    simp only [scanSymbol, isdigit_not_isalpha hc, isdigit_ne hc (by decide : isdigit '_' = false),
      hc, Bool.or_self, Bool.false_eq_true, if_false, if_true]
  have h4 : scanNumber c (ds ++ '.' :: r) = (⟨.NUMBER, String.mk (c :: ds)⟩, ds.length) := by
    simp only [scanNumber, takeWhile_append_stop isdigit ds '.' r hds hdot,
      dropWhile_append_stop isdigit ds '.' r hds hdot, hnext, Bool.and_false,
      Bool.false_eq_true, if_false]
  simp only [scan, h1, h2, h3, h4]
  simp [Nat.add_comm]

/-- The vector returned by the loop of `tokenize` is the vector built so far, then tokens
that are not END_OF_FILE, then one END_OF_FILE token. -/
theorem tokenizeLoop_shape (fuel : Nat) (L : Lexer) (acc tokens : List Token)
    (h : tokenizeLoop fuel L acc = .ok tokens) :
    ∃ mid last, tokens = acc ++ mid ++ [last] ∧ last.type = .END_OF_FILE ∧
      ∀ t ∈ mid, t.type ≠ .END_OF_FILE := by
  induction fuel generalizing L acc with
  | zero => cases h
  | succ fuel ih =>
    unfold tokenizeLoop at h
    cases hn : L.nextToken with
    | error e => rw [hn] at h; cases h
    | ok r =>
      obtain ⟨t, L'⟩ := r
      rw [hn] at h
      simp only at h
      by_cases ht : t.type = .END_OF_FILE
      · simp only [ht, beq_self_eq_true, if_true, Except.ok.injEq] at h
        exact ⟨[], t, by simp [← h], ht, by simp⟩
      · have hb : (t.type == TokenType.END_OF_FILE) = false := beq_eq_false_iff_ne.mpr ht
        simp only [hb, Bool.false_eq_true, if_false] at h
        obtain ⟨mid, last, h1, h2, h3⟩ := ih _ _ h
        refine ⟨t :: mid, last, by simp [h1], h2, ?_⟩
        intro x hx
        rcases List.mem_cons.mp hx with rfl | hx
        · exact ht
        · exact h3 x hx

theorem lookup_mem_snd {α β : Type} [BEq α] (l : List (α × β)) (a : α) (b : β)
    (h : l.lookup a = some b) : b ∈ l.map Prod.snd := by
  induction l with
  | nil => cases h
  | cons x l ih =>
    obtain ⟨x1, x2⟩ := x
    rw [List.lookup_cons] at h
    split at h
    · cases h; simp
    · simp only [List.map_cons, List.mem_cons]
      exact Or.inr (ih h)

theorem keyword_ne_eof (text : String) (k : TokenType) (h : keywordTable.lookup text = some k) :
    k ≠ .END_OF_FILE := by
  have hm := lookup_mem_snd _ _ _ h
  have hall : ∀ x ∈ keywordTable.map Prod.snd, x ≠ TokenType.END_OF_FILE := by decide
  exact hall k hm

theorem length_takeWhile_le (p : Char → Bool) (l : List Char) :
    (l.takeWhile p).length ≤ l.length := (List.takeWhile_prefix p).length_le

theorem length_takeWhile_add (p : Char → Bool) (l : List Char) :
    (l.takeWhile p).length + (l.dropWhile p).length = l.length := by
  rw [← List.length_append, List.takeWhile_append_dropWhile]

theorem scanIdentifier_bound (c : Char) (r : List Char) :
    (scanIdentifier c r).2 ≤ r.length ∧ (scanIdentifier c r).1.type ≠ .END_OF_FILE := by
  unfold scanIdentifier
  simp only
  split
  · next k hk => exact ⟨length_takeWhile_le _ _, keyword_ne_eof _ _ hk⟩
  · exact ⟨length_takeWhile_le _ _, by intro h; cases h⟩

theorem scanNumber_bound (c : Char) (r : List Char) :
    (scanNumber c r).2 ≤ r.length ∧ (scanNumber c r).1.type = .NUMBER := by
  unfold scanNumber
  simp only
  split
  · next hcond =>
    refine ⟨?_, rfl⟩
    have hadd := length_takeWhile_add isdigit r
    cases hr1 : r.dropWhile isdigit with
    | nil => rw [hr1] at hcond; simp at hcond
    | cons a r2 =>
      rw [hr1] at hadd
      have := length_takeWhile_le isdigit r2
      simp only [List.drop_one, List.tail_cons, List.length_cons] at *
      omega
  · exact ⟨length_takeWhile_le _ _, rfl⟩

theorem scanString_bound (r : List Char) (t : Token) (n : Nat)
    (h : scanString r = .ok (t, n)) : n ≤ r.length ∧ t.type = .STRING_LITERAL := by
  unfold scanString at h
  simp only at h
  split at h
  · cases h
  · next hne =>
    cases h
    refine ⟨?_, rfl⟩
    have hadd := length_takeWhile_add (fun c => c != quote) r
    cases hr1 : r.dropWhile (fun c => c != quote) with
    | nil => rw [hr1] at hne; simp at hne
    | cons a r2 =>
      rw [hr1] at hadd
      simp only [List.length_cons] at hadd
      omega

theorem scanString_error (r : List Char) (e : Failure) (h : scanString r = .error e) :
    e = .runtime_error "Unterminated string." := by
  unfold scanString at h
  simp only at h
  split at h
  · cases h; rfl
  · cases h

theorem head?_length {r : List Char} {a : Char} (h : r.head? = some a) : 1 ≤ r.length := by
  cases r with
  | nil => cases h
  | cons x r => simp

/-- A token scanned behind the blanks is never END_OF_FILE and lies within the unread
characters. -/
theorem scanSymbol_bound (c : Char) (r : List Char) (t : Token) (n : Nat)
    (h : scanSymbol c r = .ok (t, n)) : n ≤ r.length ∧ t.type ≠ .END_OF_FILE := by
  unfold scanSymbol at h
  by_cases h1 : (isalpha c || c == '_') = true
  · rw [if_pos h1, Except.ok.injEq] at h
    have hb := scanIdentifier_bound c r
    rw [h] at hb
    exact hb
  rw [if_neg h1] at h; clear h1
  by_cases h1 : isdigit c = true
  · rw [if_pos h1, Except.ok.injEq] at h
    have hb := scanNumber_bound c r
    rw [h] at hb
    exact ⟨hb.1, by rw [hb.2]; intro h; cases h⟩
  rw [if_neg h1] at h; clear h1
  by_cases h1 : (c == quote) = true
  · rw [if_pos h1] at h
    obtain ⟨h2, h3⟩ := scanString_bound r t n h
    exact ⟨h2, by rw [h3]; intro h; cases h⟩
  rw [if_neg h1] at h; clear h1
  by_cases h1 : (c == ',') = true
  · rw [if_pos h1] at h; cases h; exact ⟨Nat.zero_le _, by intro h; cases h⟩
  rw [if_neg h1] at h; clear h1
  by_cases h1 : (c == ';') = true
  · rw [if_pos h1] at h; cases h; exact ⟨Nat.zero_le _, by intro h; cases h⟩
  rw [if_neg h1] at h; clear h1
  by_cases h1 : (c == '(') = true
  · rw [if_pos h1] at h; cases h; exact ⟨Nat.zero_le _, by intro h; cases h⟩
  rw [if_neg h1] at h; clear h1
  by_cases h1 : (c == ')') = true
  · rw [if_pos h1] at h; cases h; exact ⟨Nat.zero_le _, by intro h; cases h⟩
  rw [if_neg h1] at h; clear h1
  by_cases h1 : (c == '*') = true
  · rw [if_pos h1] at h; cases h; exact ⟨Nat.zero_le _, by intro h; cases h⟩
  rw [if_neg h1] at h; clear h1
  by_cases h1 : (c == '=') = true
  · rw [if_pos h1] at h; cases h; exact ⟨Nat.zero_le _, by intro h; cases h⟩
  rw [if_neg h1] at h; clear h1
  by_cases h1 : (c == '<') = true
  · rw [if_pos h1] at h
    by_cases h2 : r.head? = some '='
    · rw [if_pos h2] at h; cases h; exact ⟨head?_length h2, by intro h; cases h⟩
    rw [if_neg h2] at h
    by_cases h3 : r.head? = some '>'
    · rw [if_pos h3] at h; cases h; exact ⟨head?_length h3, by intro h; cases h⟩
    rw [if_neg h3] at h; cases h; exact ⟨Nat.zero_le _, by intro h; cases h⟩
  rw [if_neg h1] at h; clear h1
  by_cases h1 : (c == '>') = true
  · rw [if_pos h1] at h
    by_cases h2 : r.head? = some '='
    · rw [if_pos h2] at h; cases h; exact ⟨head?_length h2, by intro h; cases h⟩
    rw [if_neg h2] at h; cases h; exact ⟨Nat.zero_le _, by intro h; cases h⟩
  rw [if_neg h1] at h; clear h1
  by_cases h1 : (c == '!') = true
  · rw [if_pos h1] at h
    by_cases h2 : r.head? = some '='
    · rw [if_pos h2] at h; cases h; exact ⟨head?_length h2, by intro h; cases h⟩
    rw [if_neg h2] at h; cases h
  rw [if_neg h1] at h; cases h

theorem scanSymbol_error (c : Char) (r : List Char) (e : Failure)
    (h : scanSymbol c r = .error e) : ∃ what, e = .runtime_error what := by
  unfold scanSymbol at h
  by_cases h1 : (isalpha c || c == '_') = true
  · rw [if_pos h1] at h; cases h
  rw [if_neg h1] at h; clear h1
  by_cases h1 : isdigit c = true
  · rw [if_pos h1] at h; cases h
  rw [if_neg h1] at h; clear h1
  by_cases h1 : (c == quote) = true
  · rw [if_pos h1] at h
    exact ⟨_, scanString_error r e h⟩
  rw [if_neg h1] at h; clear h1
  by_cases h1 : (c == ',') = true
  · rw [if_pos h1] at h; cases h
  rw [if_neg h1] at h; clear h1
  by_cases h1 : (c == ';') = true
  · rw [if_pos h1] at h; cases h
  rw [if_neg h1] at h; clear h1
  by_cases h1 : (c == '(') = true
  · rw [if_pos h1] at h; cases h
  rw [if_neg h1] at h; clear h1
  by_cases h1 : (c == ')') = true
  · rw [if_pos h1] at h; cases h
  rw [if_neg h1] at h; clear h1
  by_cases h1 : (c == '*') = true
  · rw [if_pos h1] at h; cases h
  rw [if_neg h1] at h; clear h1
  by_cases h1 : (c == '=') = true
  · rw [if_pos h1] at h; cases h
  rw [if_neg h1] at h; clear h1
  by_cases h1 : (c == '<') = true
  · rw [if_pos h1] at h
    by_cases h2 : r.head? = some '='
    · rw [if_pos h2] at h; cases h
    rw [if_neg h2] at h
    by_cases h3 : r.head? = some '>'
    · rw [if_pos h3] at h; cases h
    rw [if_neg h3] at h; cases h
  rw [if_neg h1] at h; clear h1
  by_cases h1 : (c == '>') = true
  · rw [if_pos h1] at h
    by_cases h2 : r.head? = some '='
    · rw [if_pos h2] at h; cases h
    rw [if_neg h2] at h; cases h
  rw [if_neg h1] at h; clear h1
  by_cases h1 : (c == '!') = true
  · rw [if_pos h1] at h
    by_cases h2 : r.head? = some '='
    · rw [if_pos h2] at h; cases h
    rw [if_neg h2] at h; cases h; exact ⟨_, rfl⟩
  rw [if_neg h1] at h; cases h; exact ⟨_, rfl⟩

/-- The function `scan` consumes no more than the unread characters, and at least one of them for a
token other than END_OF_FILE. -/
theorem scan_bound (rest : List Char) (t : Token) (n : Nat) (h : scan rest = .ok (t, n)) :
    n ≤ rest.length ∧ (t.type ≠ .END_OF_FILE → 1 ≤ n) := by
  unfold scan at h
  have hadd := length_takeWhile_add isspace rest
  split at h
  · next hnil =>
    cases h
    exact ⟨length_takeWhile_le _ _, fun hne => absurd rfl hne⟩
  · next c r hcons =>
    rw [hcons] at hadd
    simp only [List.length_cons] at hadd
    cases hs : scanSymbol c r with
    | error e => rw [hs] at h; cases h
    | ok v =>
      obtain ⟨t', n'⟩ := v
      rw [hs] at h
      cases h
      have := (scanSymbol_bound c r _ _ hs).1
      exact ⟨by omega, fun _ => by omega⟩

theorem scan_error (rest : List Char) (e : Failure) (h : scan rest = .error e) :
    ∃ what, e = .runtime_error what := by
  unfold scan at h
  split at h
  · cases h
  · next c r hcons =>
    cases hs : scanSymbol c r with
    | error e' =>
      rw [hs] at h
      cases h
      exact scanSymbol_error c r _ hs
    | ok v =>
      obtain ⟨t', n'⟩ := v
      rw [hs] at h
      cases h

/-- The loop of `tokenize` from a position within the input: with a budget above the
number of unread characters it never runs out of budget, its result is the same for every
such budget, and a returned vector grows by at most one token per unread character, plus
END_OF_FILE. -/
theorem tokenizeLoop_spec (inp : List Char) (fuel : Nat) :
    ∀ (pos : Nat) (acc : List Token), pos ≤ inp.length → inp.length - pos < fuel →
      ∃ res, tokenizeLoop fuel ⟨inp, pos⟩ acc = res ∧
        (∀ fuel', inp.length - pos < fuel' → tokenizeLoop fuel' ⟨inp, pos⟩ acc = res) ∧
        ((∃ tokens, res = .ok tokens ∧ tokens.length ≤ acc.length + (inp.length - pos) + 1) ∨
          ∃ what, res = .error (.runtime_error what)) := by
  induction fuel with
  | zero => intro pos acc _ hf; omega
  | succ fuel ih =>
    intro pos acc hpos hf
    cases hs : scan (inp.drop pos) with
    | error e =>
      refine ⟨.error e, tokenizeLoop_error hs, ?_, Or.inr ?_⟩
      · intro fuel' hf'
        obtain ⟨f, rfl⟩ : ∃ f, fuel' = f + 1 := ⟨fuel' - 1, by omega⟩
        exact tokenizeLoop_error hs
      · obtain ⟨what, rfl⟩ := scan_error _ _ hs
        exact ⟨what, rfl⟩
    | ok v =>
      obtain ⟨t, n⟩ := v
      by_cases ht : t.type = .END_OF_FILE
      · refine ⟨.ok (acc ++ [t]), tokenizeLoop_eof hs ht, ?_, Or.inl ⟨_, rfl, by simp⟩⟩
        intro fuel' hf'
        obtain ⟨f, rfl⟩ : ∃ f, fuel' = f + 1 := ⟨fuel' - 1, by omega⟩
        exact tokenizeLoop_eof hs ht
      · obtain ⟨hn1, hn2⟩ := scan_bound _ _ _ hs
        have hn3 := hn2 ht
        rw [List.length_drop] at hn1
        obtain ⟨res, h1, h2, h3⟩ := ih (pos + n) (acc ++ [t]) (by omega) (by omega)
        refine ⟨res, by rw [tokenizeLoop_step hs ht, h1], ?_, ?_⟩
        · intro fuel' hf'
          obtain ⟨f, rfl⟩ : ∃ f, fuel' = f + 1 := ⟨fuel' - 1, by omega⟩
          rw [tokenizeLoop_step hs ht]
          exact h2 f (by omega)
        · rcases h3 with ⟨tokens, rfl, hlen⟩ | ⟨what, rfl⟩
          · refine Or.inl ⟨tokens, rfl, ?_⟩
            simp only [List.length_append, List.length_singleton] at hlen
            omega
          · exact Or.inr ⟨what, rfl⟩

theorem takeWhile_append_cons_stop (p : Char → Bool) (l : List Char) (a : Char)
    (t : List Char) (ha : p a = false) : (l ++ a :: t).takeWhile p = l.takeWhile p := by
  induction l with
  | nil => simp [List.takeWhile_cons, ha]
  | cons x l ih =>
    by_cases hx : p x = true
    · simp [List.takeWhile_cons, hx, ih]
    · simp [List.takeWhile_cons, hx]

theorem dropWhile_append_cons_stop (p : Char → Bool) (l : List Char) (a : Char)
    (t : List Char) (ha : p a = false) :
    (l ++ a :: t).dropWhile p = l.dropWhile p ++ a :: t := by
  induction l with
  | nil => simp [List.dropWhile_cons, ha]
  | cons x l ih =>
    by_cases hx : p x = true
    · simp [List.dropWhile_cons, hx, ih]
    · simp [List.dropWhile_cons, hx]

theorem scanIdentifier_append_quote (c : Char) (r b : List Char) :
    scanIdentifier c (r ++ quote :: b) = scanIdentifier c r := by
  unfold scanIdentifier
  rw [takeWhile_append_cons_stop _ r quote b (by decide)]

theorem scanNumber_append_quote (c : Char) (r b : List Char) :
    scanNumber c (r ++ quote :: b) = scanNumber c r := by
  unfold scanNumber
  rw [takeWhile_append_cons_stop _ r quote b (by decide),
    dropWhile_append_cons_stop _ r quote b (by decide)]
  cases hr1 : r.dropWhile isdigit with
  | nil =>
    have h1 : (quote == '.') = false := by decide
    have h2 : (Char.ofNat 0 == '.') = false := by decide
    simp only [List.nil_append, List.headD_cons, List.headD_nil, h1, h2, Bool.false_and,
      Bool.false_eq_true, if_false]
  | cons a r1 =>
    cases r1 with
    | nil =>
      have h1 : isdigit quote = false := by decide
      have h2 : isdigit (Char.ofNat 0) = false := by decide
      have h3 : ([a] ++ quote :: b).getD 1 (Char.ofNat 0) = quote := rfl
      have h4 : [a].getD 1 (Char.ofNat 0) = Char.ofNat 0 := rfl
      simp only [h3, h4, h1, h2, Bool.and_false, Bool.false_eq_true, if_false]
    | cons a2 r2 =>
      simp only [List.cons_append, List.headD_cons, List.getD_cons_succ, List.getD_cons_zero,
        List.drop_one, List.tail_cons]
      have h5 := takeWhile_append_cons_stop isdigit (a2 :: r2) quote b (by decide)
      rw [List.cons_append] at h5
      rw [h5]

theorem head?_append_quote (r b : List Char) (a : Char) (ha : a ≠ quote) :
    (r ++ quote :: b).head? = some a ↔ r.head? = some a := by
  cases r with
  | nil =>
    simp only [List.nil_append, List.head?_cons, Option.some.injEq, List.head?_nil]
    constructor
    · intro h; exact absurd h.symm ha
    · intro h; cases h
  | cons x r => simp

/-- Behind a character that is not a quote, a quote further on does not change the token:
every scanner stops in front of the quote at the latest. -/
theorem scanSymbol_append_quote (c : Char) (r b : List Char) (hc : (c == quote) = false) :
    scanSymbol c (r ++ quote :: b) = scanSymbol c r := by
  unfold scanSymbol
  rw [scanIdentifier_append_quote, scanNumber_append_quote, hc]
  simp only [head?_append_quote r b '=' (by decide), head?_append_quote r b '>' (by decide),
    Bool.false_eq_true, if_false]

theorem scanString_no_quote (b : List Char) (hb : quote ∉ b) :
    scanString b = .error (.runtime_error "Unterminated string.") := by
  have hall : ∀ x ∈ b, (fun c => c != quote) x = true := by
    intro x hx
    simp only [bne_iff_ne, ne_eq]
    rintro rfl
    exact hb hx
  unfold scanString
  rw [List.dropWhile_eq_nil_iff.mpr hall]
  rfl

/-- With a quote-free text `rest` in front of an opening quote that is never closed, `scan`
returns the tokens of `rest` unchanged and throws where `rest` alone ends. -/
theorem scan_append_quote (rest b : List Char) (hrest : quote ∉ rest) (hb : quote ∉ b) :
    scan (rest ++ quote :: b) =
      match scan rest with
      | .ok (t, n) =>
        if t.type = .END_OF_FILE then .error (.runtime_error "Unterminated string.")
        else .ok (t, n)
      | .error e => .error e := by
  unfold scan
  rw [takeWhile_append_cons_stop _ rest quote b (by decide),
    dropWhile_append_cons_stop _ rest quote b (by decide)]
  cases hdw : rest.dropWhile isspace with
  | nil =>
    have h3 : scanSymbol quote b = scanString b := rfl
    simp [h3, scanString_no_quote b hb]
  | cons c r =>
    have hmem : c ∈ rest := by
      have : c ∈ rest.dropWhile isspace := by rw [hdw]; exact List.mem_cons_self _ _
      exact (List.dropWhile_suffix _).subset this
    have hc : (c == quote) = false := by
      rw [beq_eq_false_iff_ne]
      rintro rfl
      exact hrest hmem
    simp only [List.cons_append, scanSymbol_append_quote c r b hc]
    cases hs : scanSymbol c r with
    | error e => rfl
    | ok v =>
      obtain ⟨t, n⟩ := v
      have := (scanSymbol_bound c r t n hs).2
      simp [this]

theorem tokenizeLoop_append_quote (s b : List Char) (hs : quote ∉ s) (hb : quote ∉ b)
    (fuel : Nat) :
    ∀ (pos : Nat) (acc tokens : List Token), pos ≤ s.length →
      tokenizeLoop fuel ⟨s, pos⟩ acc = .ok tokens →
      ∀ fuel', fuel ≤ fuel' →
        tokenizeLoop fuel' ⟨s ++ quote :: b, pos⟩ acc =
          .error (.runtime_error "Unterminated string.") := by
  induction fuel with
  | zero => intro pos acc tokens _ h; cases h
  | succ fuel ih =>
    intro pos acc tokens hpos h fuel' hf
    obtain ⟨f, rfl⟩ : ∃ f, fuel' = f + 1 := ⟨fuel' - 1, by omega⟩
    have hq : quote ∉ s.drop pos := fun hm => hs ((List.drop_sublist _ _).subset hm)
    have hsc := scan_append_quote (s.drop pos) b hq hb
    rw [← List.drop_append_of_le_length hpos] at hsc
    cases hscan : scan (s.drop pos) with
    | error e => rw [tokenizeLoop_error hscan] at h; cases h
    | ok v =>
      obtain ⟨t, n⟩ := v
      rw [hscan] at hsc
      by_cases ht : t.type = .END_OF_FILE
      · simp only [ht, if_true] at hsc
        exact tokenizeLoop_error hsc
      · simp only [ht, if_false] at hsc
        rw [tokenizeLoop_step hscan ht] at h
        rw [tokenizeLoop_step hsc ht]
        have hn := (scan_bound _ _ _ hscan).1
        rw [List.length_drop] at hn
        exact ih (pos + n) _ tokens (by omega) h f (by omega)

end Lexer

/-! ## Parser primitives on a cursor that reads a token -/

namespace Parser

theorem peek_of_get {p : Parser} {t : Token} (h : p.tokens[p.current]? = some t) :
    p.peek = .ok t := by
  simp [peek, h]

theorem peek_of_none {p : Parser} (h : p.tokens[p.current]? = none) :
    p.peek = .error .undefined := by
  simp [peek, h]

theorem isAtEnd_of_get {p : Parser} {t : Token} (h : p.tokens[p.current]? = some t) :
    p.isAtEnd = .ok (t.type == .END_OF_FILE) := by
  simp [isAtEnd, peek_of_get h, bind, Except.bind, pure, Except.pure]

theorem check_of_get {p : Parser} {t : Token} (h : p.tokens[p.current]? = some t)
    (type : TokenType) :
    p.check type = .ok (t.type != .END_OF_FILE && t.type == type) := by
  simp only [check, isAtEnd_of_get h, peek_of_get h, bind, Except.bind, pure, Except.pure]
  cases t.type <;> cases type <;> rfl

theorem advance_of_get {p : Parser} {t : Token} (h : p.tokens[p.current]? = some t)
    (hne : t.type ≠ .END_OF_FILE) :
    p.advance = .ok (t, ⟨p.tokens, p.current + 1⟩) := by
  simp [advance, isAtEnd_of_get h, previous, hne, h, bind, Except.bind, pure, Except.pure]

theorem matchType_of_get {p : Parser} {t : Token} (h : p.tokens[p.current]? = some t)
    (type : TokenType) :
    p.matchType type =
      .ok (if t.type ≠ .END_OF_FILE ∧ t.type = type then (true, ⟨p.tokens, p.current + 1⟩)
           else (false, p)) := by
  by_cases hc : t.type ≠ .END_OF_FILE ∧ t.type = type
  · obtain ⟨h1, rfl⟩ := hc
    simp [matchType, check_of_get h, advance_of_get h h1, h1, bind, Except.bind, pure,
      Except.pure]
  · have : (t.type != .END_OF_FILE && t.type == type) = false := by
      rcases not_and_or.mp hc with h1 | h1
      · simp only [ne_eq, not_not] at h1; simp [h1]
      · simp [h1]
    simp [matchType, check_of_get h, hc, this, bind, Except.bind, pure, Except.pure]

theorem consume_of_get {p : Parser} {t : Token} (h : p.tokens[p.current]? = some t)
    (type : TokenType) (message : String) :
    p.consume type message =
      if t.type ≠ .END_OF_FILE ∧ t.type = type then .ok ⟨p.tokens, p.current + 1⟩
      else .error (.runtime_error message) := by
  by_cases hc : t.type ≠ .END_OF_FILE ∧ t.type = type
  · obtain ⟨h1, rfl⟩ := hc
    simp [consume, check_of_get h, advance_of_get h h1, h1, bind, Except.bind, pure,
      Except.pure]
  · have : (t.type != .END_OF_FILE && t.type == type) = false := by
      rcases not_and_or.mp hc with h1 | h1
      · simp only [ne_eq, not_not] at h1; simp [h1]
      · simp [h1]
    simp [consume, check_of_get h, hc, this, bind, Except.bind, pure, Except.pure, throw,
      throwThe, MonadExceptOf.throw]

theorem matchType_of_none {p : Parser} (h : p.tokens[p.current]? = none) (type : TokenType) :
    p.matchType type = .error .undefined := by
  simp [matchType, check, isAtEnd, peek_of_none h, bind, Except.bind]

theorem consume_of_none {p : Parser} (h : p.tokens[p.current]? = none) (type : TokenType)
    (message : String) : p.consume type message = .error .undefined := by
  simp [consume, check, isAtEnd, peek_of_none h, bind, Except.bind]

/-- A successful `consume` moved the cursor over one token of the requested type. -/
theorem consume_ok {p q : Parser} {type : TokenType} {message : String}
    (h : p.consume type message = .ok q) :
    q = ⟨p.tokens, p.current + 1⟩ ∧ ∃ t, p.tokens[p.current]? = some t ∧ t.type = type ∧
      type ≠ .END_OF_FILE := by
  cases hg : p.tokens[p.current]? with
  | none => rw [consume_of_none hg] at h; cases h
  | some t =>
    rw [consume_of_get hg] at h
    split at h
    · next hc =>
      cases h
      exact ⟨rfl, t, rfl, hc.2, hc.2 ▸ hc.1⟩
    · cases h

/-- A `match` that succeeds leaves the parser one token further, or unchanged when it
answers `false`. -/
theorem matchType_ok {p : Parser} {type : TokenType} {r : Bool × Parser}
    (h : p.matchType type = .ok r) :
    (r = (true, ⟨p.tokens, p.current + 1⟩) ∧ ∃ t, p.tokens[p.current]? = some t ∧ t.type = type ∧
      type ≠ .END_OF_FILE) ∨
    (r = (false, p) ∧ ∃ t, p.tokens[p.current]? = some t ∧
      ¬ (t.type ≠ .END_OF_FILE ∧ t.type = type)) := by
  cases hg : p.tokens[p.current]? with
  | none => rw [matchType_of_none hg] at h; cases h
  | some t =>
    rw [matchType_of_get hg] at h
    split at h
    · next hc =>
      cases h
      exact Or.inl ⟨rfl, t, rfl, hc.2, hc.2 ▸ hc.1⟩
    · next hc =>
      cases h
      exact Or.inr ⟨rfl, t, rfl, hc⟩

/-- The suggestion branch of `statement` always throws. -/
theorem unknownStatement_throws (keywords : List String) (p : Parser) :
    (∃ what, p.unknownStatement keywords = .error (.runtime_error what)) ∨
      p.unknownStatement keywords = .error .undefined := by
  unfold unknownStatement
  cases hp : p.peek with
  | error e =>
    right
    unfold peek at hp
    split at hp
    · cases hp
    · cases hp; rfl
  | ok t =>
    left
    simp only [bind, Except.bind]
    split
    · split
      · exact ⟨_, rfl⟩
      · exact ⟨_, rfl⟩
    · exact ⟨_, rfl⟩

/-- Destructuring of a successful bind in `Except`. -/
theorem bind_ok {ε α β : Type} {x : Except ε α} {f : α → Except ε β} {b : β}
    (h : (x >>= f) = .ok b) : ∃ a, x = .ok a ∧ f a = .ok b := by
  cases x with
  | error e => cases h
  | ok a => exact ⟨a, rfl, h⟩

theorem Reaches.refl (p : Parser) : Reaches p p := ⟨rfl, le_refl _⟩

theorem Reaches.trans {p q r : Parser} (h1 : Reaches p q) (h2 : Reaches q r) : Reaches p r :=
  ⟨h2.1.trans h1.1, le_trans h1.2 h2.2⟩

theorem consume_reaches {p q : Parser} {type : TokenType} {message : String}
    (h : p.consume type message = .ok q) : Reaches p q := by
  obtain ⟨rfl, _⟩ := consume_ok h
  exact ⟨rfl, Nat.le_succ _⟩

theorem matchType_reaches {p : Parser} {type : TokenType} {r : Bool × Parser}
    (h : p.matchType type = .ok r) : Reaches p r.2 := by
  rcases matchType_ok h with ⟨rfl, _⟩ | ⟨rfl, _⟩
  · exact ⟨rfl, Nat.le_succ _⟩
  · exact Reaches.refl _

theorem matchAny_reaches (types : List TokenType) {p : Parser} {r : Bool × Parser}
    (h : p.matchAny types = .ok r) : Reaches p r.2 := by
  induction types generalizing p with
  | nil => cases h; exact Reaches.refl _
  | cons type types ih =>
    unfold matchAny at h
    obtain ⟨r1, h1, h⟩ := bind_ok h
    have r1 := matchType_reaches h1
    split at h
    · cases h; exact r1
    · exact r1.trans (ih h)

theorem columnListLoop_reaches (fuel : Nat) {p q : Parser}
    (h : columnListLoop fuel p = .ok q) : Reaches p q := by
  induction fuel generalizing p with
  | zero => cases h
  | succ fuel ih =>
    unfold columnListLoop at h
    obtain ⟨p1, h1, h⟩ := bind_ok h
    obtain ⟨r, h2, h⟩ := bind_ok h
    have h12 := (consume_reaches h1).trans (matchType_reaches h2)
    split at h
    · exact h12.trans (ih h)
    · cases h; exact h12

theorem columnList_reaches {p q : Parser} (h : p.columnList = .ok q) : Reaches p q := by
  unfold columnList at h
  obtain ⟨r, h1, h⟩ := bind_ok h
  split at h
  · cases h; exact matchType_reaches h1
  · exact (matchType_reaches h1).trans (columnListLoop_reaches _ h)

theorem parseColumnListLoop_reaches (fuel : Nat) {p : Parser} {columns : List Column}
    {r : List Column × Parser} (h : parseColumnListLoop fuel p columns = .ok r) :
    Reaches p r.2 := by
  induction fuel generalizing p columns with
  | zero => cases h
  | succ fuel ih =>
    unfold parseColumnListLoop at h
    obtain ⟨t, _, h⟩ := bind_ok h
    obtain ⟨p1, h1, h⟩ := bind_ok h
    obtain ⟨m, h2, h⟩ := bind_ok h
    have h12 := (consume_reaches h1).trans (matchType_reaches h2)
    split at h
    · exact h12.trans (ih h)
    · cases h; exact h12

theorem parseColumnList_reaches {p : Parser} {r : List Column × Parser}
    (h : p.parseColumnList = .ok r) : Reaches p r.2 := by
  unfold parseColumnList at h
  obtain ⟨m, h1, h⟩ := bind_ok h
  split at h
  · cases h; exact matchType_reaches h1
  · exact (matchType_reaches h1).trans (parseColumnListLoop_reaches _ h)

theorem tableListLoop_reaches (fuel : Nat) {p q : Parser}
    (h : tableListLoop fuel p = .ok q) : Reaches p q := by
  induction fuel generalizing p with
  | zero => cases h
  | succ fuel ih =>
    unfold tableListLoop at h
    obtain ⟨p1, h1, h⟩ := bind_ok h
    obtain ⟨r, h2, h⟩ := bind_ok h
    have h12 := (consume_reaches h1).trans (matchType_reaches h2)
    split at h
    · exact h12.trans (ih h)
    · cases h; exact h12

theorem parseValue_reaches {p : Parser} {valueTypes : List TokenType}
    {s : List TokenType × Parser} (hs : p.parseValue valueTypes = .ok s) : Reaches p s.2 := by
  unfold parseValue at hs
  obtain ⟨m1, h1, hs⟩ := bind_ok hs
  have r1 := matchType_reaches h1
  split at hs
  · cases hs; exact r1
  · obtain ⟨m2, h2, hs⟩ := bind_ok hs
    have r2 := r1.trans (matchType_reaches h2)
    split at hs
    · cases hs; exact r2
    · obtain ⟨m3, h3, hs⟩ := bind_ok hs
      have r3 := r2.trans (matchType_reaches h3)
      split at hs
      · cases hs; exact r3
      · cases hs

theorem parseValueListLoop_reaches (fuel : Nat) {p : Parser} {valueTypes : List TokenType}
    {r : List TokenType × Parser} (h : parseValueListLoop fuel p valueTypes = .ok r) :
    Reaches p r.2 := by
  induction fuel generalizing p valueTypes with
  | zero => cases h
  | succ fuel ih =>
    unfold parseValueListLoop at h
    obtain ⟨s, hs, h⟩ := bind_ok h
    obtain ⟨m4, h4, h⟩ := bind_ok h
    have h14 := (parseValue_reaches hs).trans (matchType_reaches h4)
    split at h
    · exact h14.trans (ih h)
    · cases h; exact h14

theorem assignmentListLoop_reaches (fuel : Nat) {p q : Parser}
    (h : assignmentListLoop fuel p = .ok q) : Reaches p q := by
  induction fuel generalizing p with
  | zero => cases h
  | succ fuel ih =>
    unfold assignmentListLoop at h
    obtain ⟨p1, h1, h⟩ := bind_ok h
    obtain ⟨p2, h2, h⟩ := bind_ok h
    obtain ⟨m, h3, h⟩ := bind_ok h
    split at h
    · cases h
    · obtain ⟨m', h4, h⟩ := bind_ok h
      have h14 := (((consume_reaches h1).trans (consume_reaches h2)).trans
        (matchAny_reaches _ h3)).trans (matchType_reaches h4)
      split at h
      · exact h14.trans (ih h)
      · cases h; exact h14

theorem term_reaches {p q : Parser} (h : p.term = .ok q) : Reaches p q := by
  unfold term at h
  obtain ⟨p1, h1, h⟩ := bind_ok h
  obtain ⟨m, h2, h⟩ := bind_ok h
  split at h
  · cases h
  · obtain ⟨m', h3, h⟩ := bind_ok h
    split at h
    · cases h
    · cases h
      exact ((consume_reaches h1).trans (matchAny_reaches _ h2)).trans (matchAny_reaches _ h3)

theorem expressionLoop_reaches (fuel : Nat) {p q : Parser}
    (h : expressionLoop fuel p = .ok q) : Reaches p q := by
  induction fuel generalizing p with
  | zero => cases h
  | succ fuel ih =>
    unfold expressionLoop at h
    obtain ⟨m, h1, h⟩ := bind_ok h
    split at h
    · obtain ⟨p2, h2, h⟩ := bind_ok h
      exact ((matchAny_reaches _ h1).trans (term_reaches h2)).trans (ih h)
    · cases h; exact matchAny_reaches _ h1

theorem condition_reaches {p q : Parser} (h : p.condition = .ok q) : Reaches p q := by
  unfold condition expression at h
  obtain ⟨p1, h1, h⟩ := bind_ok h
  exact (term_reaches h1).trans (expressionLoop_reaches _ h)

theorem whereClause_reaches {p q : Parser} (h : p.whereClause = .ok q) : Reaches p q := by
  unfold whereClause at h
  obtain ⟨r, h1, h⟩ := bind_ok h
  have r1 := matchType_reaches h1
  split at h
  · exact r1.trans (condition_reaches h)
  · cases h; exact r1

theorem insertColumns_reaches {p : Parser} {cp : List Column × Parser}
    (h : p.insertColumns = .ok cp) : Reaches p cp.2 := by
  unfold insertColumns at h
  obtain ⟨r, h1, h⟩ := bind_ok h
  have r1 := matchType_reaches h1
  split at h
  · obtain ⟨cs, hc1, h⟩ := bind_ok h
    obtain ⟨pc, hc2, h⟩ := bind_ok h
    cases h
    exact (r1.trans (parseColumnList_reaches hc1)).trans (consume_reaches hc2)
  · cases h; exact r1

theorem consume_semicolon_ends {p p' q : Parser} {message : String} (hr : Reaches p p')
    (h : p'.consume .SEMICOLON message = .ok q) : EndsAfterSemicolon p q := by
  obtain ⟨rfl, s, hs, hty, _⟩ := consume_ok h
  exact ⟨hr.1, Nat.lt_succ_of_le hr.2, s, by simpa using hs, hty⟩

theorem selectStatement_ends {p q : Parser} (h : p.selectStatement = .ok q) :
    EndsAfterSemicolon p q := by
  unfold selectStatement at h
  obtain ⟨p1, h1, h⟩ := bind_ok h
  obtain ⟨p2, h2, h⟩ := bind_ok h
  obtain ⟨p3, h3, h⟩ := bind_ok h
  obtain ⟨p5, h5, h⟩ := bind_ok h
  exact consume_semicolon_ends ((((columnList_reaches h1).trans (consume_reaches h2)).trans
    (tableListLoop_reaches _ h3)).trans (whereClause_reaches h5)) h

theorem updateStatement_ends {p q : Parser} (h : p.updateStatement = .ok q) :
    EndsAfterSemicolon p q := by
  unfold updateStatement at h
  obtain ⟨p1, h1, h⟩ := bind_ok h
  obtain ⟨p2, h2, h⟩ := bind_ok h
  obtain ⟨p3, h3, h⟩ := bind_ok h
  obtain ⟨p5, h5, h⟩ := bind_ok h
  exact consume_semicolon_ends ((((consume_reaches h1).trans (consume_reaches h2)).trans
    (assignmentListLoop_reaches _ h3)).trans (whereClause_reaches h5)) h

theorem deleteStatement_ends {p q : Parser} (h : p.deleteStatement = .ok q) :
    EndsAfterSemicolon p q := by
  unfold deleteStatement at h
  obtain ⟨p1, h1, h⟩ := bind_ok h
  obtain ⟨p2, h2, h⟩ := bind_ok h
  obtain ⟨p5, h5, h⟩ := bind_ok h
  exact consume_semicolon_ends (((consume_reaches h1).trans (consume_reaches h2)).trans
    (whereClause_reaches h5)) h

theorem insertStatement_ends {p q : Parser} (h : p.insertStatement = .ok q) :
    EndsAfterSemicolon p q := by
  unfold insertStatement at h
  obtain ⟨p1, h1, h⟩ := bind_ok h
  obtain ⟨p2, h2, h⟩ := bind_ok h
  obtain ⟨cp, h4, h⟩ := bind_ok h
  obtain ⟨p5, h5, h⟩ := bind_ok h
  obtain ⟨p6, h6, h⟩ := bind_ok h
  obtain ⟨vs, h7, h⟩ := bind_ok h
  obtain ⟨p8, h8, h⟩ := bind_ok h
  split at h
  · cases h
  · obtain ⟨u, _, h⟩ := bind_ok h
    exact consume_semicolon_ends (((((((consume_reaches h1).trans (consume_reaches h2)).trans
      (insertColumns_reaches h4)).trans (consume_reaches h5)).trans
      (consume_reaches h6)).trans (parseValueListLoop_reaches _ h7)).trans
      (consume_reaches h8)) h

/-- A statement that parses ends just behind its terminating `;`. -/
theorem statement_ends {keywords : List String} {p q : Parser}
    (h : p.statement keywords = .ok q) : EndsAfterSemicolon p q := by
  have lift : ∀ {a b : Parser}, Reaches p a → EndsAfterSemicolon a b → EndsAfterSemicolon p b :=
    fun hr he => ⟨he.1.trans hr.1, lt_of_le_of_lt hr.2 he.2.1, he.2.2⟩
  unfold statement at h
  obtain ⟨m1, h1, h⟩ := bind_ok h
  have r1 := matchType_reaches h1
  split at h
  · exact lift r1 (selectStatement_ends h)
  · obtain ⟨m2, h2, h⟩ := bind_ok h
    have r2 := r1.trans (matchType_reaches h2)
    split at h
    · exact lift r2 (insertStatement_ends h)
    · obtain ⟨m3, h3, h⟩ := bind_ok h
      have r3 := r2.trans (matchType_reaches h3)
      split at h
      · exact lift r3 (updateStatement_ends h)
      · obtain ⟨m4, h4, h⟩ := bind_ok h
        have r4 := r3.trans (matchType_reaches h4)
        split at h
        · exact lift r4 (deleteStatement_ends h)
        · exfalso
          rcases unknownStatement_throws keywords m4.2 with ⟨w, hw⟩ | hw <;>
            rw [hw] at h <;> cases h

/-! ### The iteration budgets of the parser are never exhausted -/

theorem bind_fuel {α β : Type} {x : Except Failure α} {f : α → Except Failure β}
    (h : (x >>= f) = .error .out_of_fuel) :
    x = .error .out_of_fuel ∨ ∃ a, x = .ok a ∧ f a = .error .out_of_fuel := by
  cases x with
  | error e => left; simpa [bind, Except.bind] using h
  | ok a => right; exact ⟨a, rfl, h⟩

theorem lt_length_of_get {p : Parser} {t : Token} (h : p.tokens[p.current]? = some t) :
    p.current < p.tokens.length := by
  by_contra hge
  rw [List.getElem?_eq_none (not_lt.mp hge)] at h
  cases h

theorem consume_fuel (p : Parser) (type : TokenType) (message : String) :
    p.consume type message ≠ .error .out_of_fuel := by
  cases hg : p.tokens[p.current]? with
  | none => rw [consume_of_none hg]; intro h; cases h
  | some t =>
    rw [consume_of_get hg]
    split <;> intro h <;> cases h

theorem matchType_fuel (p : Parser) (type : TokenType) :
    p.matchType type ≠ .error .out_of_fuel := by
  cases hg : p.tokens[p.current]? with
  | none => rw [matchType_of_none hg]; intro h; cases h
  | some t => rw [matchType_of_get hg]; intro h; cases h

theorem matchAny_fuel (types : List TokenType) (p : Parser) :
    p.matchAny types ≠ .error .out_of_fuel := by
  induction types generalizing p with
  | nil => intro h; cases h
  | cons type types ih =>
    intro h
    unfold matchAny at h
    rcases bind_fuel h with h | ⟨r, _, h⟩
    · exact matchType_fuel _ _ h
    · split at h
      · cases h
      · exact ih _ h

/-- A successful `consume` uses up one of the unread tokens. -/
theorem consume_progress {p q : Parser} {type : TokenType} {message : String}
    (h : p.consume type message = .ok q) :
    q.tokens = p.tokens ∧ q.current = p.current + 1 ∧ p.current < p.tokens.length := by
  obtain ⟨rfl, t, ht, _⟩ := consume_ok h
  exact ⟨rfl, rfl, lt_length_of_get ht⟩

/-- A `match` that answers `true` uses up one of the unread tokens. -/
theorem matchType_progress {p : Parser} {type : TokenType} {r : Bool × Parser}
    (h : p.matchType type = .ok r) (hr : r.1 = true) :
    r.2.tokens = p.tokens ∧ r.2.current = p.current + 1 ∧ p.current < p.tokens.length := by
  rcases matchType_ok h with ⟨rfl, t, ht, _⟩ | ⟨rfl, _⟩
  · exact ⟨rfl, rfl, lt_length_of_get ht⟩
  · cases hr

theorem matchAny_progress (types : List TokenType) {p : Parser} {r : Bool × Parser}
    (h : p.matchAny types = .ok r) (hr : r.1 = true) :
    r.2.tokens = p.tokens ∧ r.2.current = p.current + 1 ∧ p.current < p.tokens.length := by
  induction types generalizing p with
  | nil => cases h; cases hr
  | cons type types ih =>
    unfold matchAny at h
    obtain ⟨r1, h1, h⟩ := bind_ok h
    split at h
    · next h2 =>
      have hp := matchType_progress h1 h2
      cases h
      exact hp
    · next h2 =>
      rcases matchType_ok h1 with ⟨rfl, _⟩ | ⟨rfl, _⟩
      · exact absurd rfl h2
      · exact ih h

theorem columnListLoop_fuel (fuel : Nat) (p : Parser)
    (hf : p.tokens.length - p.current < fuel) :
    columnListLoop fuel p ≠ .error .out_of_fuel := by
  induction fuel generalizing p with
  | zero => omega
  | succ fuel ih =>
    intro h
    unfold columnListLoop at h
    rcases bind_fuel h with h | ⟨p1, h1, h⟩
    · exact consume_fuel _ _ _ h
    · rcases bind_fuel h with h | ⟨r, h2, h⟩
      · exact matchType_fuel _ _ h
      · obtain ⟨e1, e2, e3⟩ := consume_progress h1
        have hr := matchType_reaches h2
        split at h
        · exact ih r.2 (by rw [hr.1, e1]; have := hr.2; omega) h
        · cases h

theorem parseColumnListLoop_fuel (fuel : Nat) (p : Parser) (columns : List Column)
    (hf : p.tokens.length - p.current < fuel) :
    parseColumnListLoop fuel p columns ≠ .error .out_of_fuel := by
  induction fuel generalizing p columns with
  | zero => omega
  | succ fuel ih =>
    intro h
    unfold parseColumnListLoop at h
    rcases bind_fuel h with h | ⟨t, _, h⟩
    · unfold peek at h
      split at h <;> cases h
    · rcases bind_fuel h with h | ⟨p1, h1, h⟩
      · exact consume_fuel _ _ _ h
      · rcases bind_fuel h with h | ⟨r, h2, h⟩
        · exact matchType_fuel _ _ h
        · obtain ⟨e1, e2, e3⟩ := consume_progress h1
          have hr := matchType_reaches h2
          split at h
          · exact ih r.2 _ (by rw [hr.1, e1]; have := hr.2; omega) h
          · cases h

theorem tableListLoop_fuel (fuel : Nat) (p : Parser)
    (hf : p.tokens.length - p.current < fuel) :
    tableListLoop fuel p ≠ .error .out_of_fuel := by
  induction fuel generalizing p with
  | zero => omega
  | succ fuel ih =>
    intro h
    unfold tableListLoop at h
    rcases bind_fuel h with h | ⟨p1, h1, h⟩
    · exact consume_fuel _ _ _ h
    · rcases bind_fuel h with h | ⟨r, h2, h⟩
      · exact matchType_fuel _ _ h
      · obtain ⟨e1, e2, e3⟩ := consume_progress h1
        have hr := matchType_reaches h2
        split at h
        · exact ih r.2 (by rw [hr.1, e1]; have := hr.2; omega) h
        · cases h

theorem parseValue_fuel (p : Parser) (valueTypes : List TokenType) :
    p.parseValue valueTypes ≠ .error .out_of_fuel := by
  intro h
  unfold parseValue at h
  rcases bind_fuel h with h | ⟨r1, _, h⟩
  · exact matchType_fuel _ _ h
  · split at h
    · cases h
    · rcases bind_fuel h with h | ⟨r2, _, h⟩
      · exact matchType_fuel _ _ h
      · split at h
        · cases h
        · rcases bind_fuel h with h | ⟨r3, _, h⟩
          · exact matchType_fuel _ _ h
          · split at h <;> cases h

/-- A value that `parseValue` reads uses up one of the unread tokens. -/
theorem parseValue_progress {p : Parser} {valueTypes : List TokenType}
    {s : List TokenType × Parser} (hs : p.parseValue valueTypes = .ok s) :
    s.2.tokens = p.tokens ∧ s.2.current = p.current + 1 ∧ p.current < p.tokens.length := by
  unfold parseValue at hs
  obtain ⟨m1, h1, hs⟩ := bind_ok hs
  split at hs
  · next hb => cases hs; exact matchType_progress h1 hb
  · next hb =>
    have e1 : m1.2 = p := by
      rcases matchType_ok h1 with ⟨rfl, _⟩ | ⟨rfl, _⟩
      · exact absurd rfl hb
      · rfl
    rw [e1] at hs
    obtain ⟨m2, h2, hs⟩ := bind_ok hs
    split at hs
    · next hb2 => cases hs; exact matchType_progress h2 hb2
    · next hb2 =>
      have e2 : m2.2 = p := by
        rcases matchType_ok h2 with ⟨rfl, _⟩ | ⟨rfl, _⟩
        · exact absurd rfl hb2
        · rfl
      rw [e2] at hs
      obtain ⟨m3, h3, hs⟩ := bind_ok hs
      split at hs
      · next hb3 => cases hs; exact matchType_progress h3 hb3
      · cases hs

theorem parseValueListLoop_fuel (fuel : Nat) (p : Parser) (valueTypes : List TokenType)
    (hf : p.tokens.length - p.current < fuel) :
    parseValueListLoop fuel p valueTypes ≠ .error .out_of_fuel := by
  induction fuel generalizing p valueTypes with
  | zero => omega
  | succ fuel ih =>
    intro h
    unfold parseValueListLoop at h
    rcases bind_fuel h with h | ⟨s, h1, h⟩
    · exact parseValue_fuel _ _ h
    · rcases bind_fuel h with h | ⟨r, h2, h⟩
      · exact matchType_fuel _ _ h
      · obtain ⟨e1, e2, e3⟩ := parseValue_progress h1
        have hr := matchType_reaches h2
        split at h
        · exact ih r.2 _ (by rw [hr.1, e1]; have := hr.2; omega) h
        · cases h

theorem assignmentListLoop_fuel (fuel : Nat) (p : Parser)
    (hf : p.tokens.length - p.current < fuel) :
    assignmentListLoop fuel p ≠ .error .out_of_fuel := by
  induction fuel generalizing p with
  | zero => omega
  | succ fuel ih =>
    intro h
    unfold assignmentListLoop at h
    rcases bind_fuel h with h | ⟨p1, h1, h⟩
    · exact consume_fuel _ _ _ h
    · rcases bind_fuel h with h | ⟨p2, h2, h⟩
      · exact consume_fuel _ _ _ h
      · rcases bind_fuel h with h | ⟨r, h3, h⟩
        · exact matchAny_fuel _ _ h
        · split at h
          · cases h
          · rcases bind_fuel h with h | ⟨r', h4, h⟩
            · exact matchType_fuel _ _ h
            · obtain ⟨e1, e2, e3⟩ := consume_progress h1
              have hr := ((consume_reaches h2).trans (matchAny_reaches _ h3)).trans
                (matchType_reaches h4)
              split at h
              · exact ih r'.2 (by rw [hr.1, e1]; have := hr.2; omega) h
              · cases h

theorem term_fuel (p : Parser) : p.term ≠ .error .out_of_fuel := by
  intro h
  unfold term at h
  rcases bind_fuel h with h | ⟨p1, _, h⟩
  · exact consume_fuel _ _ _ h
  · rcases bind_fuel h with h | ⟨r, _, h⟩
    · exact matchAny_fuel _ _ h
    · split at h
      · cases h
      · rcases bind_fuel h with h | ⟨r', _, h⟩
        · exact matchAny_fuel _ _ h
        · split at h <;> cases h

theorem expressionLoop_fuel (fuel : Nat) (p : Parser)
    (hf : p.tokens.length - p.current < fuel) :
    expressionLoop fuel p ≠ .error .out_of_fuel := by
  induction fuel generalizing p with
  | zero => omega
  | succ fuel ih =>
    intro h
    unfold expressionLoop at h
    rcases bind_fuel h with h | ⟨r, h1, h⟩
    · exact matchAny_fuel _ _ h
    · split at h
      · next hb =>
        rcases bind_fuel h with h | ⟨p2, h2, h⟩
        · exact term_fuel _ h
        · obtain ⟨e1, e2, e3⟩ := matchAny_progress _ h1 hb
          have hr := term_reaches h2
          exact ih p2 (by rw [hr.1, e1]; have := hr.2; omega) h
      · cases h

theorem whereClause_fuel (p : Parser) : p.whereClause ≠ .error .out_of_fuel := by
  intro h
  unfold whereClause at h
  rcases bind_fuel h with h | ⟨r, _, h⟩
  · exact matchType_fuel _ _ h
  · split at h
    · unfold condition expression at h
      rcases bind_fuel h with h | ⟨p1, _, h⟩
      · exact term_fuel _ h
      · exact expressionLoop_fuel _ _ (Nat.lt_succ_of_le (Nat.sub_le _ _)) h
    · cases h

theorem selectStatement_fuel (p : Parser) : p.selectStatement ≠ .error .out_of_fuel := by
  intro h
  unfold selectStatement at h
  rcases bind_fuel h with h | ⟨p1, _, h⟩
  · unfold columnList at h
    rcases bind_fuel h with h | ⟨r, _, h⟩
    · exact matchType_fuel _ _ h
    · split at h
      · cases h
      · exact columnListLoop_fuel _ _ (Nat.lt_succ_of_le (Nat.sub_le _ _)) h
  · rcases bind_fuel h with h | ⟨p2, _, h⟩
    · exact consume_fuel _ _ _ h
    · rcases bind_fuel h with h | ⟨p3, _, h⟩
      · exact tableListLoop_fuel _ _ (Nat.lt_succ_of_le (Nat.sub_le _ _)) h
      · rcases bind_fuel h with h | ⟨p4, _, h⟩
        · exact whereClause_fuel _ h
        · exact consume_fuel _ _ _ h

theorem forM_fuel (f : Nat → Except Failure Unit) (l : List Nat)
    (hf : ∀ i, f i ≠ .error .out_of_fuel) : l.forM f ≠ .error .out_of_fuel := by
  induction l with
  | nil => intro h; cases h
  | cons i l ih =>
    intro h
    have step : (i :: l).forM f = (f i >>= fun _ => l.forM f) := rfl
    rw [step] at h
    rcases bind_fuel h with h | ⟨_, _, h⟩
    · exact hf i h
    · exact ih h

theorem checkValueTypes_fuel (columns : List Column) (valueTypes : List TokenType) :
    checkValueTypes columns valueTypes ≠ .error .out_of_fuel := by
  unfold checkValueTypes
  apply forM_fuel
  intro i h
  split at h
  · split at h <;> cases h
  · cases h

theorem insertStatement_fuel (p : Parser) : p.insertStatement ≠ .error .out_of_fuel := by
  intro h
  unfold insertStatement at h
  rcases bind_fuel h with h | ⟨p1, _, h⟩
  · exact consume_fuel _ _ _ h
  rcases bind_fuel h with h | ⟨p2, _, h⟩
  · exact consume_fuel _ _ _ h
  rcases bind_fuel h with h | ⟨cp, _, h⟩
  · unfold insertColumns at h
    rcases bind_fuel h with h | ⟨r, _, h⟩
    · exact matchType_fuel _ _ h
    · split at h
      · rcases bind_fuel h with h | ⟨cs, _, h⟩
        · unfold parseColumnList at h
          rcases bind_fuel h with h | ⟨r', _, h⟩
          · exact matchType_fuel _ _ h
          · split at h
            · cases h
            · exact parseColumnListLoop_fuel _ _ _ (Nat.lt_succ_of_le (Nat.sub_le _ _)) h
        · rcases bind_fuel h with h | ⟨p', _, h⟩
          · exact consume_fuel _ _ _ h
          · cases h
      · cases h
  rcases bind_fuel h with h | ⟨p5, _, h⟩
  · exact consume_fuel _ _ _ h
  rcases bind_fuel h with h | ⟨p6, _, h⟩
  · exact consume_fuel _ _ _ h
  rcases bind_fuel h with h | ⟨vs, _, h⟩
  · exact parseValueListLoop_fuel _ _ _ (Nat.lt_succ_of_le (Nat.sub_le _ _)) h
  rcases bind_fuel h with h | ⟨p8, _, h⟩
  · exact consume_fuel _ _ _ h
  split at h
  · cases h
  · rcases bind_fuel h with h | ⟨_, _, h⟩
    · exact checkValueTypes_fuel _ _ h
    · exact consume_fuel _ _ _ h

theorem updateStatement_fuel (p : Parser) : p.updateStatement ≠ .error .out_of_fuel := by
  intro h
  unfold updateStatement at h
  rcases bind_fuel h with h | ⟨p1, _, h⟩
  · exact consume_fuel _ _ _ h
  rcases bind_fuel h with h | ⟨p2, _, h⟩
  · exact consume_fuel _ _ _ h
  rcases bind_fuel h with h | ⟨p3, _, h⟩
  · exact assignmentListLoop_fuel _ _ (Nat.lt_succ_of_le (Nat.sub_le _ _)) h
  rcases bind_fuel h with h | ⟨p4, _, h⟩
  · exact whereClause_fuel _ h
  · exact consume_fuel _ _ _ h

theorem deleteStatement_fuel (p : Parser) : p.deleteStatement ≠ .error .out_of_fuel := by
  intro h
  unfold deleteStatement at h
  rcases bind_fuel h with h | ⟨p1, _, h⟩
  · exact consume_fuel _ _ _ h
  rcases bind_fuel h with h | ⟨p2, _, h⟩
  · exact consume_fuel _ _ _ h
  rcases bind_fuel h with h | ⟨p4, _, h⟩
  · exact whereClause_fuel _ h
  · exact consume_fuel _ _ _ h

theorem statement_fuel (keywords : List String) (p : Parser) :
    p.statement keywords ≠ .error .out_of_fuel := by
  intro h
  unfold statement at h
  rcases bind_fuel h with h | ⟨r1, _, h⟩
  · exact matchType_fuel _ _ h
  split at h
  · exact selectStatement_fuel _ h
  rcases bind_fuel h with h | ⟨r2, _, h⟩
  · exact matchType_fuel _ _ h
  split at h
  · exact insertStatement_fuel _ h
  rcases bind_fuel h with h | ⟨r3, _, h⟩
  · exact matchType_fuel _ _ h
  split at h
  · exact updateStatement_fuel _ h
  rcases bind_fuel h with h | ⟨r4, _, h⟩
  · exact matchType_fuel _ _ h
  split at h
  · exact deleteStatement_fuel _ h
  · rcases unknownStatement_throws keywords r4.2 with ⟨w, hw⟩ | hw <;> rw [hw] at h <;> cases h

/-- No loop of the parser exhausts its iteration budget: `parse` returns, throws a
`std::runtime_error`, or reads the token vector out of range. -/
theorem parse_fuel (keywords : List String) (p : Parser) :
    p.parse keywords ≠ .error .out_of_fuel := by
  intro h
  unfold parse at h
  rcases bind_fuel h with h | ⟨q, _, h⟩
  · exact statement_fuel _ _ h
  rcases bind_fuel h with h | ⟨e, _, h⟩
  · unfold isAtEnd at h
    rcases bind_fuel h with h | ⟨t, _, h⟩
    · unfold peek at h
      split at h <;> cases h
    · cases h
  split at h
  · rcases bind_fuel h with h | ⟨t, _, h⟩
    · unfold peek at h
      split at h <;> cases h
    · split at h <;> cases h
  · cases h

/-- Whether `statement` succeeds, and where it leaves the cursor, does not depend on the
keyword spellings. -/
theorem statement_ok_keywords (k k' : List String) (p q : Parser)
    (h : p.statement k = .ok q) : p.statement k' = .ok q := by
  unfold statement at h ⊢
  simp only [bind, Except.bind] at h ⊢
  repeat' split at h
  all_goals first
    | cases h
    | (simp [*]; done)
    | (exfalso
       rcases unknownStatement_throws k _ with ⟨w, hw⟩ | hw <;> rw [hw] at h <;> cases h)

/-- Whether `parse` succeeds does not depend on the keyword spellings. -/
theorem parse_ok_keywords (k k' : List String) (p : Parser)
    (h : p.parse k = .ok ()) : p.parse k' = .ok () := by
  unfold parse at h ⊢
  cases hs : p.statement k with
  | error e => rw [hs] at h; cases h
  | ok q =>
    rw [hs] at h
    rw [statement_ok_keywords k k' p q hs]
    exact h

/-! ### The parser in terms of the unread tokens -/

theorem get_of_unread {p : Parser} {t : Token} {ts : List Token}
    (hd : p.tokens.drop p.current = t :: ts) : p.tokens[p.current]? = some t := by
  have h1 : (p.tokens.drop p.current).head? = some t := by rw [hd]; rfl
  rwa [List.head?_drop] at h1

theorem unread_succ {p : Parser} {t : Token} {ts : List Token}
    (hd : p.tokens.drop p.current = t :: ts) : p.tokens.drop (p.current + 1) = ts := by
  rw [← List.tail_drop, hd]; rfl

theorem consume_unread {p : Parser} {t : Token} {ts : List Token} {type : TokenType}
    (hd : p.tokens.drop p.current = t :: ts) (ht : t.type = type)
    (hne : type ≠ .END_OF_FILE) (message : String) :
    p.consume type message = .ok ⟨p.tokens, p.current + 1⟩ := by
  rw [consume_of_get (get_of_unread hd), if_pos ⟨ht ▸ hne, ht⟩]

theorem matchType_unread_true {p : Parser} {t : Token} {ts : List Token} {type : TokenType}
    (hd : p.tokens.drop p.current = t :: ts) (ht : t.type = type)
    (hne : type ≠ .END_OF_FILE) :
    p.matchType type = .ok (true, ⟨p.tokens, p.current + 1⟩) := by
  rw [matchType_of_get (get_of_unread hd), if_pos ⟨ht ▸ hne, ht⟩]

theorem matchType_unread_false {p : Parser} {t : Token} {ts : List Token} {type : TokenType}
    (hd : p.tokens.drop p.current = t :: ts) (ht : t.type ≠ type) :
    p.matchType type = .ok (false, p) := by
  rw [matchType_of_get (get_of_unread hd), if_neg (fun h => ht h.2)]

theorem CommaSeparated.length_le {items part : List Token} (h : CommaSeparated items part) :
    items.length ≤ part.length := by
  induction h with
  | single c => simp
  | cons c comma items part _ _ ih => simp only [List.length_cons]; omega

theorem CommaSeparated.head {items part : List Token} (h : CommaSeparated items part) :
    ∃ c cs ps, items = c :: cs ∧ part = c :: ps := by
  cases h with
  | single c => exact ⟨c, [], [], rfl, rfl⟩
  | cons c comma items part _ _ => exact ⟨c, _, _, rfl, rfl⟩

/-- The loop of `parseColumnList` on identifiers separated by commas records one column
per identifier and stops behind the last one. -/
theorem parseColumnListLoop_separated {cols part : List Token}
    (h : CommaSeparated cols part) :
    ∀ (toks : List Token) (start : Nat) (next : Token) (rest : List Token) (fuel : Nat)
      (acc : List Column), (∀ c ∈ cols, c.type = .IDENTIFIER) →
      toks.drop start = part ++ next :: rest → next.type ≠ .COMMA → cols.length ≤ fuel →
      parseColumnListLoop fuel ⟨toks, start⟩ acc =
        .ok (acc ++ cols.map columnOf, ⟨toks, start + part.length⟩) := by
  induction h with
  | single c =>
    intro toks start next rest fuel acc hid hd hnext hfuel
    obtain ⟨f, rfl⟩ : ∃ f, fuel = f + 1 := ⟨fuel - 1, by simp at hfuel; omega⟩
    have hc : c.type = .IDENTIFIER := hid c (List.mem_singleton.mpr rfl)
    have hd0 : (⟨toks, start⟩ : Parser).tokens.drop (⟨toks, start⟩ : Parser).current =
        c :: next :: rest := hd
    have hd1 : (⟨toks, start + 1⟩ : Parser).tokens.drop (⟨toks, start + 1⟩ : Parser).current =
        next :: rest := unread_succ hd0
    unfold parseColumnListLoop
    simp [peek_of_get (get_of_unread hd0), consume_unread hd0 hc (by decide),
      matchType_unread_false hd1 hnext, bind, Except.bind, pure, Except.pure, columnOf]
  | cons c comma cs part hcomma hsep ih =>
    intro toks start next rest fuel acc hid hd hnext hfuel
    obtain ⟨f, rfl⟩ : ∃ f, fuel = f + 1 := ⟨fuel - 1, by simp at hfuel; omega⟩
    have hc : c.type = .IDENTIFIER := hid c (List.mem_cons_self _ _)
    have hd0 : (⟨toks, start⟩ : Parser).tokens.drop (⟨toks, start⟩ : Parser).current =
        c :: comma :: (part ++ next :: rest) := hd
    have hd1 : (⟨toks, start + 1⟩ : Parser).tokens.drop (⟨toks, start + 1⟩ : Parser).current =
        comma :: (part ++ next :: rest) := unread_succ hd0
    have hd2 : toks.drop (start + 1 + 1) = part ++ next :: rest := unread_succ hd1
    have hrec := ih toks (start + 1 + 1) next rest f (acc ++ [columnOf c])
      (fun x hx => hid x (List.mem_cons_of_mem _ hx)) hd2 hnext
      (by simp only [List.length_cons] at hfuel; omega)
    unfold parseColumnListLoop
    simp only [peek_of_get (get_of_unread hd0), consume_unread hd0 hc (by decide),
      matchType_unread_true hd1 hcomma (by decide), bind, Except.bind, if_true]
    rw [show acc ++ [Column.mk c.lexeme (inferDataTypeFromColumnName c.lexeme)] =
      acc ++ [columnOf c] from rfl, hrec]
    simp [Nat.add_assoc, Nat.add_comm, Nat.add_left_comm]

theorem parseValue_of_value {p : Parser} {v : Token} {ts : List Token}
    (hd : p.tokens.drop p.current = v :: ts)
    (hv : v.type = .STRING_LITERAL ∨ v.type = .NUMBER ∨ v.type = .IDENTIFIER)
    (valueTypes : List TokenType) :
    p.parseValue valueTypes = .ok (valueTypes ++ [v.type], ⟨p.tokens, p.current + 1⟩) := by
  unfold parseValue
  rcases hv with hv | hv | hv
  · simp [matchType_unread_true hd hv (by decide), bind, Except.bind, pure, Except.pure, hv]
  · simp [matchType_unread_false hd (show v.type ≠ .STRING_LITERAL by rw [hv]; decide),
      matchType_unread_true hd hv (by decide), bind, Except.bind, pure, Except.pure, hv]
  · simp [matchType_unread_false hd (show v.type ≠ .STRING_LITERAL by rw [hv]; decide),
      matchType_unread_false hd (show v.type ≠ .NUMBER by rw [hv]; decide),
      matchType_unread_true hd hv (by decide), bind, Except.bind, pure, Except.pure, hv]

/-- The loop of `parseValueList` on values separated by commas records the kind of each
value and stops behind the last one. -/
theorem parseValueListLoop_separated {vals part : List Token}
    (h : CommaSeparated vals part) :
    ∀ (toks : List Token) (start : Nat) (next : Token) (rest : List Token) (fuel : Nat)
      (acc : List TokenType),
      (∀ v ∈ vals, v.type = .STRING_LITERAL ∨ v.type = .NUMBER ∨ v.type = .IDENTIFIER) →
      toks.drop start = part ++ next :: rest → next.type ≠ .COMMA → vals.length ≤ fuel →
      parseValueListLoop fuel ⟨toks, start⟩ acc =
        .ok (acc ++ vals.map Token.type, ⟨toks, start + part.length⟩) := by
  induction h with
  | single v =>
    intro toks start next rest fuel acc hid hd hnext hfuel
    obtain ⟨f, rfl⟩ : ∃ f, fuel = f + 1 := ⟨fuel - 1, by simp at hfuel; omega⟩
    have hv := hid v (List.mem_singleton.mpr rfl)
    have hd0 : (⟨toks, start⟩ : Parser).tokens.drop (⟨toks, start⟩ : Parser).current =
        v :: next :: rest := hd
    have hd1 : (⟨toks, start + 1⟩ : Parser).tokens.drop (⟨toks, start + 1⟩ : Parser).current =
        next :: rest := unread_succ hd0
    unfold parseValueListLoop
    simp [parseValue_of_value hd0 hv, matchType_unread_false hd1 hnext, bind, Except.bind,
      pure, Except.pure]
  | cons v comma vs part hcomma hsep ih =>
    intro toks start next rest fuel acc hid hd hnext hfuel
    obtain ⟨f, rfl⟩ : ∃ f, fuel = f + 1 := ⟨fuel - 1, by simp at hfuel; omega⟩
    have hv := hid v (List.mem_cons_self _ _)
    have hd0 : (⟨toks, start⟩ : Parser).tokens.drop (⟨toks, start⟩ : Parser).current =
        v :: comma :: (part ++ next :: rest) := hd
    have hd1 : (⟨toks, start + 1⟩ : Parser).tokens.drop (⟨toks, start + 1⟩ : Parser).current =
        comma :: (part ++ next :: rest) := unread_succ hd0
    have hd2 : toks.drop (start + 1 + 1) = part ++ next :: rest := unread_succ hd1
    have hrec := ih toks (start + 1 + 1) next rest f (acc ++ [v.type])
      (fun x hx => hid x (List.mem_cons_of_mem _ hx)) hd2 hnext
      (by simp only [List.length_cons] at hfuel; omega)
    unfold parseValueListLoop
    simp only [parseValue_of_value hd0 hv, matchType_unread_true hd1 hcomma (by decide), bind,
      Except.bind, if_true]
    rw [hrec]
    simp [Nat.add_assoc, Nat.add_comm, Nat.add_left_comm]

theorem drop_add_length {toks part x : List Token} {start : Nat}
    (h : toks.drop start = part ++ x) : toks.drop (start + part.length) = x := by
  rw [← List.drop_drop, h, List.drop_left]

/-- The function `statement` on `INSERT INTO table ( c1 , ... , cn ) VALUES ( v1 , ... , vm )`
followed by `rest`: the lists are parsed, and what remains is the arity check, the type
check and the closing `;`. -/
theorem statement_insert (keywords : List String) (t1 t2 t3 t4 m1 m2 m3 tr : Token)
    (cols colPart vals valPart rest : List Token)
    (h1 : t1.type = .INSERT) (h2 : t2.type = .INTO) (h3 : t3.type = .IDENTIFIER)
    (h4 : t4.type = .LEFT_PAREN) (h5 : m1.type = .RIGHT_PAREN) (h6 : m2.type = .VALUES)
    (h7 : m3.type = .LEFT_PAREN) (h8 : tr.type = .RIGHT_PAREN)
    (hcols : ∀ c ∈ cols, c.type = .IDENTIFIER) (hcp : CommaSeparated cols colPart)
    (hvals : ∀ v ∈ vals, v.type = .STRING_LITERAL ∨ v.type = .NUMBER ∨ v.type = .IDENTIFIER)
    (hvp : CommaSeparated vals valPart) :
    Parser.statement keywords
        ⟨t1 :: t2 :: t3 :: t4 :: (colPart ++ m1 :: m2 :: m3 :: (valPart ++ tr :: rest)), 0⟩ =
      if (decide (cols.length > 0) && cols.length != vals.length) = true then
        .error (.runtime_error ("Column count (" ++ toString cols.length ++
          ") does not match value count (" ++ toString vals.length ++ ")."))
      else
        match checkValueTypes (cols.map columnOf) (vals.map Token.type) with
        | .error e => .error e
        | .ok _ =>
          Parser.consume
            ⟨t1 :: t2 :: t3 :: t4 :: (colPart ++ m1 :: m2 :: m3 :: (valPart ++ tr :: rest)),
              0 + 1 + 1 + 1 + 1 + colPart.length + 1 + 1 + 1 + valPart.length + 1⟩
            .SEMICOLON "Expected ';' at the end of INSERT statement." := by
  generalize htoks :
    t1 :: t2 :: t3 :: t4 :: (colPart ++ m1 :: m2 :: m3 :: (valPart ++ tr :: rest)) = toks
  have hd0 : (⟨toks, 0⟩ : Parser).tokens.drop (⟨toks, 0⟩ : Parser).current =
      t1 :: t2 :: t3 :: t4 :: (colPart ++ m1 :: m2 :: m3 :: (valPart ++ tr :: rest)) := by
    rw [← htoks]; rfl
  have hd1 : (⟨toks, 0 + 1⟩ : Parser).tokens.drop (⟨toks, 0 + 1⟩ : Parser).current = _ :=
    unread_succ hd0
  have hd2 : (⟨toks, 0 + 1 + 1⟩ : Parser).tokens.drop (⟨toks, 0 + 1 + 1⟩ : Parser).current = _ :=
    unread_succ hd1
  have hd3 : (⟨toks, 0 + 1 + 1 + 1⟩ : Parser).tokens.drop
      (⟨toks, 0 + 1 + 1 + 1⟩ : Parser).current = _ := unread_succ hd2
  have hd4 : toks.drop (0 + 1 + 1 + 1 + 1) = colPart ++ m1 :: m2 :: m3 :: (valPart ++ tr :: rest) :=
    unread_succ hd3
  obtain ⟨c, cs, ps, hcs, hps⟩ := CommaSeparated.head hcp
  have hcty : c.type = .IDENTIFIER := hcols c (by rw [hcs]; exact List.mem_cons_self _ _)
  have hd4' : (⟨toks, 0 + 1 + 1 + 1 + 1⟩ : Parser).tokens.drop
      (⟨toks, 0 + 1 + 1 + 1 + 1⟩ : Parser).current =
      c :: (ps ++ m1 :: m2 :: m3 :: (valPart ++ tr :: rest)) := by
    rw [show (⟨toks, 0 + 1 + 1 + 1 + 1⟩ : Parser).tokens.drop
      (⟨toks, 0 + 1 + 1 + 1 + 1⟩ : Parser).current = toks.drop (0 + 1 + 1 + 1 + 1) from rfl,
      hd4, hps]
    rfl
  have hlen : toks.length = 4 + colPart.length + 3 + valPart.length + 1 + rest.length := by
    rw [← htoks]; simp; omega
  have hcl := CommaSeparated.length_le hcp
  have hvl := CommaSeparated.length_le hvp
  have hcolumns := parseColumnListLoop_separated hcp toks (0 + 1 + 1 + 1 + 1) m1
    (m2 :: m3 :: (valPart ++ tr :: rest)) (toks.length + 1) [] hcols hd4
    (by rw [h5]; decide) (by omega)
  have hd5 : (⟨toks, 0 + 1 + 1 + 1 + 1 + colPart.length⟩ : Parser).tokens.drop
      (⟨toks, 0 + 1 + 1 + 1 + 1 + colPart.length⟩ : Parser).current =
      m1 :: m2 :: m3 :: (valPart ++ tr :: rest) := drop_add_length hd4
  have hd6 : (⟨toks, 0 + 1 + 1 + 1 + 1 + colPart.length + 1⟩ : Parser).tokens.drop
      (⟨toks, 0 + 1 + 1 + 1 + 1 + colPart.length + 1⟩ : Parser).current = _ := unread_succ hd5
  have hd7 : (⟨toks, 0 + 1 + 1 + 1 + 1 + colPart.length + 1 + 1⟩ : Parser).tokens.drop
      (⟨toks, 0 + 1 + 1 + 1 + 1 + colPart.length + 1 + 1⟩ : Parser).current = _ :=
    unread_succ hd6
  have hd8 : toks.drop (0 + 1 + 1 + 1 + 1 + colPart.length + 1 + 1 + 1) =
      valPart ++ tr :: rest := unread_succ hd7
  have hvalues := parseValueListLoop_separated hvp toks
    (0 + 1 + 1 + 1 + 1 + colPart.length + 1 + 1 + 1) tr rest (toks.length + 1) [] hvals hd8
    (by rw [h8]; decide) (by omega)
  have hd9 : (⟨toks, 0 + 1 + 1 + 1 + 1 + colPart.length + 1 + 1 + 1 + valPart.length⟩ :
      Parser).tokens.drop
      (⟨toks, 0 + 1 + 1 + 1 + 1 + colPart.length + 1 + 1 + 1 + valPart.length⟩ :
        Parser).current = tr :: rest := drop_add_length hd8
  unfold statement
  rw [matchType_unread_false hd0 (by rw [h1]; decide)]
  simp only [bind, Except.bind, Bool.false_eq_true, if_false]
  rw [matchType_unread_true hd0 h1 (by decide)]
  simp only [if_true]
  unfold insertStatement
  simp only [bind, Except.bind]
  rw [consume_unread hd1 h2 (by decide)]
  simp only
  rw [consume_unread hd2 h3 (by decide)]
  simp only
  unfold insertColumns
  simp only [bind, Except.bind]
  rw [matchType_unread_true hd3 h4 (by decide)]
  simp only [if_true]
  unfold parseColumnList
  simp only [bind, Except.bind]
  rw [matchType_unread_false hd4' (by rw [hcty]; decide)]
  simp only [Bool.false_eq_true, if_false, hcolumns, List.nil_append]
  rw [consume_unread hd5 h5 (by decide)]
  simp only [pure, Except.pure]
  rw [consume_unread hd6 h6 (by decide)]
  simp only
  rw [consume_unread hd7 h7 (by decide)]
  simp only
  unfold parseValueList
  simp only [hvalues, List.nil_append]
  rw [consume_unread hd9 h8 (by decide)]
  simp only [List.length_map, throw, throwThe, MonadExceptOf.throw]
  split
  · rfl
  · cases checkValueTypes (cols.map columnOf) (vals.map Token.type) <;> rfl

theorem forM_first_error (f : Nat → Except Failure Unit) (l1 l2 : List Nat) (i : Nat)
    (e : Failure) (h1 : ∀ j ∈ l1, f j = .ok ()) (hi : f i = .error e) :
    (l1 ++ i :: l2).forM f = .error e := by
  induction l1 with
  | nil =>
    have step : ([] ++ i :: l2).forM f = (f i >>= fun _ => l2.forM f) := rfl
    rw [step, hi]
    rfl
  | cons a l1 ih =>
    have ha := h1 a (List.mem_cons_self _ _)
    have step : (a :: l1 ++ i :: l2).forM f = (f a >>= fun _ => (l1 ++ i :: l2).forM f) := rfl
    rw [step, ha]
    exact ih (fun j hj => h1 j (List.mem_cons_of_mem _ hj))

/-- The type check loop of `insertStatement` throws at the first position whose value is
not compatible with its column. -/
theorem checkValueTypes_first_mismatch (cols vals : List Token) (i : Nat) (c v : Token)
    (hc : cols[i]? = some c) (hv : vals[i]? = some v)
    (hbad : isValueTypeValid v.type (inferDataTypeFromColumnName c.lexeme) = false)
    (hgood : ∀ j c' v', j < i → cols[j]? = some c' → vals[j]? = some v' →
      isValueTypeValid v'.type (inferDataTypeFromColumnName c'.lexeme) = true) :
    checkValueTypes (cols.map columnOf) (vals.map Token.type) =
      .error (.runtime_error (typeMismatch c v)) := by
  have hic : i < cols.length := by
    by_contra hge
    rw [List.getElem?_eq_none (not_lt.mp hge)] at hc
    cases hc
  have hiv : i < vals.length := by
    by_contra hge
    rw [List.getElem?_eq_none (not_lt.mp hge)] at hv
    cases hv
  unfold checkValueTypes
  simp only [List.length_map]
  obtain ⟨k, hk⟩ : ∃ k, min cols.length vals.length = i + (k + 1) :=
    ⟨min cols.length vals.length - i - 1, by omega⟩
  rw [hk, List.range_add, List.range_succ_eq_map, List.map_cons]
  apply forM_first_error
  · intro j hj
    have hji : j < i := List.mem_range.mp hj
    have hjc : j < cols.length := by omega
    have hjv : j < vals.length := by omega
    have h1 : cols[j]? = some cols[j] := List.getElem?_eq_getElem hjc
    have h2 : vals[j]? = some vals[j] := List.getElem?_eq_getElem hjv
    have hg := hgood j _ _ hji h1 h2
    simp [List.getElem?_map, h1, h2, columnOf, hg, pure, Except.pure]
  · simp [List.getElem?_map, hc, hv, columnOf, hbad, typeMismatch, throw, throwThe,
      MonadExceptOf.throw]

theorem map_type_four {l : List Token} {a b c d : TokenType}
    (h : l.map Token.type = [a, b, c, d]) :
    ∃ t1 t2 t3 t4, l = [t1, t2, t3, t4] ∧ t1.type = a ∧ t2.type = b ∧ t3.type = c ∧
      t4.type = d := by
  rcases l with _ | ⟨t1, _ | ⟨t2, _ | ⟨t3, _ | ⟨t4, _ | ⟨t5, l⟩⟩⟩⟩⟩ <;>
    simp only [List.map_nil, List.map_cons, List.cons.injEq, and_true, and_false,
      reduceCtorEq] at h
  exact ⟨t1, t2, t3, t4, rfl, h.1, h.2.1, h.2.2.1, h.2.2.2⟩

theorem map_type_three {l : List Token} {a b c : TokenType}
    (h : l.map Token.type = [a, b, c]) :
    ∃ t1 t2 t3, l = [t1, t2, t3] ∧ t1.type = a ∧ t2.type = b ∧ t3.type = c := by
  rcases l with _ | ⟨t1, _ | ⟨t2, _ | ⟨t3, _ | ⟨t4, l⟩⟩⟩⟩ <;>
    simp only [List.map_nil, List.map_cons, List.cons.injEq, and_true, and_false,
      reduceCtorEq] at h
  exact ⟨t1, t2, t3, rfl, h.1, h.2.1, h.2.2⟩

theorem map_type_head {l : List Token} {a : TokenType}
    (h : (l.map Token.type).head? = some a) : ∃ t rest, l = t :: rest ∧ t.type = a := by
  rcases l with _ | ⟨t, rest⟩
  · cases h
  · simp only [List.map_cons, List.head?_cons, Option.some.injEq] at h
    exact ⟨t, rest, rfl, h⟩

/-- The same as `statement_insert`, for the token vector split into its five parts. -/
theorem statement_insert_parts (keywords : List String)
    (head cols colPart mid vals valPart tail : List Token)
    (hhead : head.map Token.type = [.INSERT, .INTO, .IDENTIFIER, .LEFT_PAREN])
    (hcols : ∀ c ∈ cols, c.type = .IDENTIFIER) (hcp : CommaSeparated cols colPart)
    (hmid : mid.map Token.type = [.RIGHT_PAREN, .VALUES, .LEFT_PAREN])
    (hvals : ∀ v ∈ vals, v.type = .STRING_LITERAL ∨ v.type = .NUMBER ∨ v.type = .IDENTIFIER)
    (hvp : CommaSeparated vals valPart)
    (htail : (tail.map Token.type).head? = some .RIGHT_PAREN) :
    Parser.statement keywords ⟨head ++ colPart ++ mid ++ valPart ++ tail, 0⟩ =
      if (decide (cols.length > 0) && cols.length != vals.length) = true then
        .error (.runtime_error ("Column count (" ++ toString cols.length ++
          ") does not match value count (" ++ toString vals.length ++ ")."))
      else
        match checkValueTypes (cols.map columnOf) (vals.map Token.type) with
        | .error e => .error e
        | .ok _ =>
          Parser.consume
            ⟨head ++ colPart ++ mid ++ valPart ++ tail,
              0 + 1 + 1 + 1 + 1 + colPart.length + 1 + 1 + 1 + valPart.length + 1⟩
            .SEMICOLON "Expected ';' at the end of INSERT statement." := by
  obtain ⟨t1, t2, t3, t4, rfl, h1, h2, h3, h4⟩ := map_type_four hhead
  obtain ⟨m1, m2, m3, rfl, h5, h6, h7⟩ := map_type_three hmid
  obtain ⟨tr, rest, rfl, h8⟩ := map_type_head htail
  have := statement_insert keywords t1 t2 t3 t4 m1 m2 m3 tr cols colPart vals valPart rest
    h1 h2 h3 h4 h5 h6 h7 h8 hcols hcp hvals hvp
  simpa using this

theorem CommaSeparated.length_pos {items part : List Token} (h : CommaSeparated items part) :
    0 < items.length := by
  cases h <;> simp

/-- With an IDENTIFIER at the cursor, `statement` takes its suggestion branch. -/
theorem statement_of_identifier (keywords : List String) {p : Parser} {t : Token}
    (h : p.tokens[p.current]? = some t) (ht : t.type = .IDENTIFIER) :
    p.statement keywords = p.unknownStatement keywords := by
  unfold statement
  simp [matchType_of_get h, ht, bind, Except.bind]

end Parser

/-! ## The keyword suggestion for `SELEC` -/

theorem distance_SELEC (k : String) (hk : k ∈ keywordNames) :
    (k = "SELECT" ∧ levenshteinDistance "SELEC" k = 1) ∨
      (k ≠ "SELECT" ∧ 2 ≤ levenshteinDistance "SELEC" k) := by
  have hall : ∀ k ∈ keywordNames, (k = "SELECT" ∧ levenshteinDistance "SELEC" k = 1) ∨
      (k ≠ "SELECT" ∧ 2 ≤ levenshteinDistance "SELEC" k) := by decide
  exact hall k hk

/-- The loop of `findClosestKeyword` on `SELEC` ends on `("SELECT", 1)` as soon as it
has met `SELECT`, whatever the order of the keywords. -/
theorem closest_SELEC (l : List String) :
    ∀ acc : String × Nat, (∀ k ∈ l, k ∈ keywordNames) →
      (acc = ("SELECT", 1) ∨ (2 ≤ acc.2 ∧ "SELECT" ∈ l)) →
      l.foldl (closestStep "SELEC") acc = ("SELECT", 1) := by
  induction l with
  | nil =>
    intro acc _ h
    rcases h with rfl | ⟨_, hm⟩
    · rfl
    · cases hm
  | cons k l ih =>
    intro acc hall h
    rw [List.foldl_cons]
    have hl : ∀ k ∈ l, k ∈ keywordNames := fun x hx => hall x (List.mem_cons_of_mem _ hx)
    apply ih _ hl
    rcases distance_SELEC k (hall k (List.mem_cons_self _ _)) with ⟨rfl, hd⟩ | ⟨hne, hd⟩
    · left
      rcases h with rfl | ⟨h2, _⟩
      · simp [closestStep, hd]
      · have : 1 < acc.2 := h2
        simp [closestStep, hd, this]
    · rcases h with rfl | ⟨h2, hm⟩
      · left
        have : ¬ levenshteinDistance "SELEC" k < 1 := by omega
        simp [closestStep, this]
      · right
        have hm' : "SELECT" ∈ l := by
          rcases List.mem_cons.mp hm with h | h
          · exact absurd h.symm hne
          · exact h
        refine ⟨?_, hm'⟩
        unfold closestStep
        simp only
        split
        · exact hd
        · exact h2

theorem findClosestKeyword_SELEC (keywords : List String)
    (hperm : keywords.Perm keywordNames) :
    findClosestKeyword "SELEC" keywords = "SELECT" := by
  have hfold := closest_SELEC keywords ("", INT_MAX)
    (fun k hk => hperm.subset hk)
    (Or.inr ⟨by decide, hperm.symm.subset (by decide)⟩)
  unfold findClosestKeyword
  simp only [hfold]
  decide

namespace SQLValidator

/-- Acceptance by `validate` does not depend on the keyword spellings. -/
theorem validate_true_keywords (k k' : List String) (sql : String)
    (h : validate k sql = .ok true) : validate k' sql = .ok true := by
  unfold validate run at h ⊢
  cases ht : Lexer.tokenize sql with
  | error e =>
    rw [ht] at h
    cases e <;> simp [bind, Except.bind] at h
  | ok tokens =>
    rw [ht] at h
    simp only [bind, Except.bind] at h ⊢
    cases hp : Parser.parse k ⟨tokens, 0⟩ with
    | error e =>
      rw [hp] at h
      cases e <;> simp at h
    | ok u =>
      rw [Parser.parse_ok_keywords k k' _ hp]

end SQLValidator

namespace Lexer

theorem lookup_cons_ne (a k : String) (b : TokenType) (l : List (String × TokenType))
    (h : a ≠ k) : List.lookup a ((k, b) :: l) = List.lookup a l := by
  rw [List.lookup_cons]
  have : (a == k) = false := beq_eq_false_iff_ne.mpr h
  rw [this]

theorem lookup_keywordTable (u : String) :
    (keywordTable.lookup u).getD .IDENTIFIER = specKeywordKind u := by
  unfold specKeywordKind keywordTable
  by_cases h : u = "SELECT"
  · subst h; rfl
  rw [lookup_cons_ne _ _ _ _ h, if_neg h]; clear h
  by_cases h : u = "FROM"
  · subst h; rfl
  rw [lookup_cons_ne _ _ _ _ h, if_neg h]; clear h
  by_cases h : u = "WHERE"
  · subst h; rfl
  rw [lookup_cons_ne _ _ _ _ h, if_neg h]; clear h
  by_cases h : u = "INSERT"
  · subst h; rfl
  rw [lookup_cons_ne _ _ _ _ h, if_neg h]; clear h
  by_cases h : u = "INTO"
  · subst h; rfl
  rw [lookup_cons_ne _ _ _ _ h, if_neg h]; clear h
  by_cases h : u = "VALUES"
  · subst h; rfl
  rw [lookup_cons_ne _ _ _ _ h, if_neg h]; clear h
  by_cases h : u = "UPDATE"
  · subst h; rfl
  rw [lookup_cons_ne _ _ _ _ h, if_neg h]; clear h
  by_cases h : u = "SET"
  · subst h; rfl
  rw [lookup_cons_ne _ _ _ _ h, if_neg h]; clear h
  by_cases h : u = "DELETE"
  · subst h; rfl
  rw [lookup_cons_ne _ _ _ _ h, if_neg h]; clear h
  by_cases h : u = "AND"
  · subst h; rfl
  rw [lookup_cons_ne _ _ _ _ h, if_neg h]; clear h
  by_cases h : u = "OR"
  · subst h; rfl
  rw [lookup_cons_ne _ _ _ _ h, if_neg h]; clear h
  by_cases h : u = "NOT"
  · subst h; rfl
  rw [lookup_cons_ne _ _ _ _ h, if_neg h]; clear h
  rfl

theorem specKeywordKind_ne_eof (u : String) : specKeywordKind u ≠ .END_OF_FILE := by
  rw [← lookup_keywordTable]
  cases h : keywordTable.lookup u with
  | none => intro h'; cases h'
  | some k => exact keyword_ne_eof u k h

theorem scanIdentifier_eq (c : Char) (r : List Char) :
    scanIdentifier c r =
      (⟨(keywordTable.lookup (String.mk ((c :: r.takeWhile (fun c => isalnum c || c == '_')).map
          toupper))).getD .IDENTIFIER,
        String.mk (c :: r.takeWhile (fun c => isalnum c || c == '_'))⟩,
       (r.takeWhile (fun c => isalnum c || c == '_')).length) := by
  unfold scanIdentifier
  simp only
  cases List.lookup _ keywordTable <;> rfl

theorem word_start_not_isspace {c : Char} (h : (isalpha c || c == '_') = true) :
    isspace c = false := by
  rcases Bool.or_eq_true_iff.mp h with h | h
  · simp only [isalpha, isspace, Bool.and_eq_true, decide_eq_true_eq, Bool.or_eq_true,
      Bool.or_eq_false_iff, beq_eq_false_iff_ne, ne_eq, Bool.and_eq_false_iff,
      decide_eq_false_iff_not] at *
    omega
  · rw [beq_iff_eq] at h
    subst h
    decide

/-- A word scans as one identifier-or-keyword token that takes all of its characters. -/
theorem scan_word (c : Char) (r : List Char) (hc : (isalpha c || c == '_') = true)
    (hr : ∀ x ∈ r, (isalnum x || x == '_') = true) :
    scan (c :: r) =
      .ok (⟨specKeywordKind (String.mk ((c :: r).map toupper)), String.mk (c :: r)⟩,
        r.length + 1) := by
  have hsp := word_start_not_isspace hc
  have h1 : (c :: r).dropWhile isspace = c :: r := by
    rw [List.dropWhile_cons, hsp]; rfl
  have h2 : (c :: r).takeWhile isspace = [] := by
    rw [List.takeWhile_cons, hsp]; rfl
  have h3 : scanSymbol c r = .ok (scanIdentifier c r) := by
    unfold scanSymbol
    rw [if_pos hc]
  have h4 : r.takeWhile (fun c => isalnum c || c == '_') = r :=
    List.takeWhile_eq_self_iff.mpr hr
  simp only [scan, h1, h2, h3, scanIdentifier_eq, h4, lookup_keywordTable]
  simp [Nat.add_comm]

/-- The character `!` scans as `!=` when `=` follows and is an error otherwise. -/
theorem scan_bang (r : List Char) :
    scan ('!' :: r) =
      if r.head? = some '=' then .ok (⟨.NOT_EQUAL, "!="⟩, 2)
      else .error (.runtime_error "Unexpected character: !") := by
  have h1 : ('!' :: r).dropWhile isspace = '!' :: r := by
    rw [List.dropWhile_cons]; rfl
  have h2 : ('!' :: r).takeWhile isspace = [] := by
    rw [List.takeWhile_cons]; rfl
  have h3 : scanSymbol '!' r =
      if r.head? = some '=' then .ok (⟨.NOT_EQUAL, "!="⟩, 1)
      else .error (.runtime_error "Unexpected character: !") := rfl
  simp only [scan, h1, h2, h3]
  by_cases h : r.head? = some '='
  · simp only [if_pos h]; rfl
  · simp only [if_neg h]

end Lexer

/-! ## Type inference by substring containment -/

theorem findFrom_isSome (pattern s : List Char) (pos : Nat) :
    (findFrom pattern s pos).isSome = true ↔ pattern <:+: s := by
  induction s generalizing pos with
  | nil =>
    unfold findFrom
    rw [List.infix_nil]
    cases pattern <;> simp
  | cons c s ih =>
    unfold findFrom
    rw [List.infix_cons_iff]
    by_cases hp : pattern.isPrefixOf (c :: s) = true
    · rw [if_pos hp]
      simp only [Option.isSome_some, true_iff]
      exact Or.inl (List.isPrefixOf_iff_prefix.mp hp)
    · rw [if_neg hp, ih]
      constructor
      · intro h; exact Or.inr h
      · rintro (h | h)
        · exact absurd (List.isPrefixOf_iff_prefix.mpr h) hp
        · exact h

theorem any_contains (words : List String) (lower : List Char) :
    words.any (fun pattern =>
      String.mk lower == pattern || (findFrom pattern.data lower 0).isSome) = true ↔
    ∃ w ∈ words, w.data <:+: lower := by
  rw [List.any_eq_true]
  constructor
  · rintro ⟨w, hw, h⟩
    refine ⟨w, hw, ?_⟩
    rcases Bool.or_eq_true_iff.mp h with h | h
    · rw [beq_iff_eq] at h
      rw [← h]
    · exact (findFrom_isSome _ _ _).mp h
  · rintro ⟨w, hw, h⟩
    exact ⟨w, hw, Bool.or_eq_true_iff.mpr (Or.inr ((findFrom_isSome _ _ _).mpr h))⟩

theorem inferDataTypeFromColumnName_eq_spec (columnName : String) :
    inferDataTypeFromColumnName columnName = specInferDataType columnName := by
  unfold inferDataTypeFromColumnName specInferDataType
  simp only [any_contains]

theorem tolower_toupper (c : Char) : tolower (toupper c) = tolower c := by
  unfold toupper
  split
  · next h =>
    simp only [Bool.and_eq_true, decide_eq_true_eq] at h
    obtain ⟨n, hn⟩ : ∃ n, c.toNat = n := ⟨_, rfl⟩
    have hc : c = Char.ofNat n := by rw [← hn, Char.ofNat_toNat]
    rw [hn] at h
    subst hc
    rw [hn]
    obtain ⟨h1, h2⟩ := h
    clear hn
    interval_cases n <;> decide
  · rfl

theorem infer_is_string_number_unknown (columnName : String) :
    inferDataTypeFromColumnName columnName = .STRING ∨
      inferDataTypeFromColumnName columnName = .NUMBER ∨
      inferDataTypeFromColumnName columnName = .UNKNOWN := by
  unfold inferDataTypeFromColumnName
  simp only
  split
  · exact Or.inl rfl
  · split
    · exact Or.inr (Or.inl rfl)
    · exact Or.inr (Or.inr rfl)

theorem identifier_valid_for_inferred (columnName : String) :
    isValueTypeValid .IDENTIFIER (inferDataTypeFromColumnName columnName) = true := by
  rcases infer_is_string_number_unknown columnName with h | h | h <;> rw [h] <;> rfl

/-! ## The verdict does not depend on the keyword spellings -/

namespace Parser

theorem SameVerdict.same {α : Type} (r : Except Failure α) : SameVerdict r r := Or.inl rfl

theorem SameVerdict.bind {α β : Type} {r r' : Except Failure α} (h : SameVerdict r r')
    (f : α → Except Failure β) : SameVerdict (r >>= f) (r' >>= f) := by
  rcases h with rfl | ⟨m, m', rfl, rfl⟩
  · exact Or.inl rfl
  · exact Or.inr ⟨m, m', rfl, rfl⟩

theorem unknownStatement_sameVerdict (k k' : List String) (p : Parser) :
    SameVerdict (p.unknownStatement k) (p.unknownStatement k') := by
  unfold unknownStatement
  cases hp : p.peek with
  | error e => exact Or.inl rfl
  | ok t =>
    simp only [bind, Except.bind]
    by_cases ht : (t.type == TokenType.IDENTIFIER) = true
    · rw [if_pos ht, if_pos ht]
      right
      split <;> split <;> exact ⟨_, _, rfl, rfl⟩
    · rw [if_neg ht, if_neg ht]
      exact Or.inl rfl

theorem statement_sameVerdict (k k' : List String) (p : Parser) :
    SameVerdict (p.statement k) (p.statement k') := by
  unfold statement
  simp only [bind, Except.bind]
  cases p.matchType .SELECT with
  | error e => exact Or.inl rfl
  | ok r1 =>
    dsimp only
    split
    · exact Or.inl rfl
    cases r1.2.matchType .INSERT with
    | error e => exact Or.inl rfl
    | ok r2 =>
      dsimp only
      split
      · exact Or.inl rfl
      cases r2.2.matchType .UPDATE with
      | error e => exact Or.inl rfl
      | ok r3 =>
        dsimp only
        split
        · exact Or.inl rfl
        cases r3.2.matchType .DELETE with
        | error e => exact Or.inl rfl
        | ok r4 =>
          dsimp only
          split
          · exact Or.inl rfl
          · exact unknownStatement_sameVerdict k k' _

theorem parse_sameVerdict (k k' : List String) (p : Parser) :
    SameVerdict (p.parse k) (p.parse k') := by
  unfold parse
  exact SameVerdict.bind (statement_sameVerdict k k' p) _

end Parser

namespace Parser

theorem forM_all_ok (f : Nat → Except Failure Unit) (l : List Nat)
    (h : ∀ i ∈ l, f i = .ok ()) : l.forM f = .ok () := by
  induction l with
  | nil => rfl
  | cons a l ih =>
    have step : (a :: l).forM f = (f a >>= fun _ => l.forM f) := rfl
    rw [step, h a (List.mem_cons_self _ _)]
    exact ih (fun i hi => h i (List.mem_cons_of_mem _ hi))

/-- The type check loop of `insertStatement` passes when every value is compatible with
its column. -/
theorem checkValueTypes_ok (columns : List Column) (valueTypes : List TokenType)
    (h : ∀ (i : Nat) (c : Column) (v : TokenType), columns[i]? = some c →
      valueTypes[i]? = some v → isValueTypeValid v c.type = true) :
    checkValueTypes columns valueTypes = .ok () := by
  unfold checkValueTypes
  apply forM_all_ok
  intro i _
  split
  · next c v hc hv =>
    simp [h i c v hc hv, pure, Except.pure]
  · rfl

end Parser

theorem validate_keywords (k k' : List String) (sql : String) :
    SQLValidator.validate k sql = SQLValidator.validate k' sql := by
  unfold SQLValidator.validate SQLValidator.run
  simp only [bind, Except.bind]
  cases Lexer.tokenize sql with
  | error e => rfl
  | ok tokens =>
    dsimp only
    rcases Parser.parse_sameVerdict k k' ⟨tokens, 0⟩ with h | ⟨m, m', h1, h2⟩
    · rw [h]
    · rw [h1, h2]

/-! ## The closest keyword -/

theorem exists_first_min (f : String → Nat) (l : List String) (hl : l ≠ []) :
    ∃ pre a post, l = pre ++ a :: post ∧ (∀ x ∈ pre, f a < f x) ∧ ∀ x ∈ post, f a ≤ f x := by
  induction l with
  | nil => exact absurd rfl hl
  | cons a l ih =>
    by_cases hnil : l = []
    · subst hnil
      exact ⟨[], a, [], rfl, by simp, by simp⟩
    · obtain ⟨pre, b, post, rfl, hpre, hpost⟩ := ih hnil
      by_cases hab : f a ≤ f b
      · refine ⟨[], a, pre ++ b :: post, rfl, by simp, ?_⟩
        intro x hx
        rcases List.mem_append.mp hx with h | h
        · exact le_of_lt (lt_of_le_of_lt hab (hpre x h))
        · rcases List.mem_cons.mp h with rfl | h
          · exact hab
          · exact le_trans hab (hpost x h)
      · refine ⟨a :: pre, b, post, rfl, ?_, hpost⟩
        intro x hx
        rcases List.mem_cons.mp hx with rfl | h
        · omega
        · exact hpre x h

/-- The loop of `findClosestKeyword` keeps its candidate over keywords that are not
strictly closer. -/
theorem closest_stay (word : String) (post : List String) (acc : String × Nat)
    (h : ∀ k ∈ post, acc.2 ≤ levenshteinDistance word k) :
    post.foldl (closestStep word) acc = acc := by
  induction post with
  | nil => rfl
  | cons k post ih =>
    rw [List.foldl_cons]
    have hk := h k (List.mem_cons_self _ _)
    have hstep : closestStep word acc k = acc := by
      unfold closestStep
      simp only
      rw [if_neg (by omega)]
    rw [hstep]
    exact ih (fun x hx => h x (List.mem_cons_of_mem _ hx))

/-- The loop of `findClosestKeyword` ends on the first keyword at the least distance, as
soon as that distance is below the initial `minDistance`. -/
theorem closest_first_min (word : String) (pre : List String) (k0 : String)
    (post : List String) :
    ∀ acc : String × Nat, levenshteinDistance word k0 < acc.2 →
      (∀ k ∈ pre, levenshteinDistance word k0 < levenshteinDistance word k) →
      (∀ k ∈ post, levenshteinDistance word k0 ≤ levenshteinDistance word k) →
      (pre ++ k0 :: post).foldl (closestStep word) acc =
        (k0, levenshteinDistance word k0) := by
  induction pre with
  | nil =>
    intro acc hacc _ hpost
    rw [List.nil_append, List.foldl_cons]
    have hstep : closestStep word acc k0 = (k0, levenshteinDistance word k0) := by
      unfold closestStep
      simp only
      rw [if_pos hacc]
    rw [hstep]
    exact closest_stay word post _ hpost
  | cons x pre ih =>
    intro acc hacc hpre hpost
    rw [List.cons_append, List.foldl_cons]
    apply ih _ _ (fun k hk => hpre k (List.mem_cons_of_mem _ hk)) hpost
    have hx := hpre x (List.mem_cons_self _ _)
    unfold closestStep
    simp only
    split
    · exact hx
    · exact hacc

/-! ## The cursor stays within a well-formed token vector -/

namespace Parser

theorem inBounds_get {p : Parser} (h : InBounds p) : ∃ t, p.tokens[p.current]? = some t := by
  cases hg : p.tokens[p.current]? with
  | some t => exact ⟨t, rfl⟩
  | none =>
    have := List.getElem?_eq_none_iff.mp hg
    have := h.2
    omega

/-- Behind a token that is not END_OF_FILE there is another token. -/
theorem inBounds_succ {p : Parser} (h : InBounds p) {t : Token}
    (ht : p.tokens[p.current]? = some t) (hne : t.type ≠ .END_OF_FILE) :
    InBounds ⟨p.tokens, p.current + 1⟩ := by
  obtain ⟨⟨init, last, htoks, hlast, hinit⟩, hlt⟩ := h
  refine ⟨⟨init, last, htoks, hlast, hinit⟩, ?_⟩
  show p.current + 1 < p.tokens.length
  rw [htoks] at ht hlt ⊢
  simp only [List.length_append, List.length_singleton] at hlt ⊢
  by_contra hge
  have hcur : p.current = init.length := by omega
  rw [hcur, List.getElem?_append_right (le_refl _)] at ht
  simp at ht
  rw [← ht] at hne
  exact hne hlast

theorem safeStep_ok {α : Type} {p : Parser} {a : α} {proj : α → Parser}
    (hb : InBounds (proj a)) (ht : (proj a).tokens = p.tokens)
    (hc : p.current ≤ (proj a).current) : SafeStep p (.ok a) proj := by
  refine ⟨?_, ?_⟩
  · intro h; cases h
  · intro b hb'
    cases hb'
    exact ⟨hb, ht, hc⟩

theorem safeStep_throw {α : Type} (p : Parser) (what : String) (proj : α → Parser) :
    SafeStep p (.error (.runtime_error what) : Except Failure α) proj := by
  refine ⟨?_, ?_⟩
  · intro h; cases h
  · intro b hb'; cases hb'

theorem safeStep_fuel {α : Type} (p : Parser) (proj : α → Parser) :
    SafeStep p (.error .out_of_fuel : Except Failure α) proj := by
  refine ⟨?_, ?_⟩
  · intro h; cases h
  · intro b hb'; cases hb'

/-- Safe steps compose. -/
theorem safeStep_bind {α β : Type} {p : Parser} {x : Except Failure α} {proj : α → Parser}
    {g : α → Except Failure β} {proj' : β → Parser} (hx : SafeStep p x proj)
    (hg : ∀ a, x = .ok a → SafeStep (proj a) (g a) proj') :
    SafeStep p (x >>= g) proj' := by
  cases x with
  | error e =>
    have hbind : (Except.error e >>= g) = Except.error e := rfl
    rw [hbind]
    refine ⟨?_, ?_⟩
    · intro h
      cases h
      exact hx.1 rfl
    · intro b hb; cases hb
  | ok a =>
    obtain ⟨h1, h2, h3⟩ := hx.2 a rfl
    have hga := hg a rfl
    refine ⟨hga.1, ?_⟩
    intro b hb
    obtain ⟨k1, k2, k3⟩ := hga.2 b hb
    exact ⟨k1, k2.trans h2, le_trans h3 k3⟩

theorem peek_safe {p : Parser} (h : InBounds p) : SafeStep p p.peek (fun _ => p) := by
  obtain ⟨t, ht⟩ := inBounds_get h
  rw [peek_of_get ht]
  exact safeStep_ok h rfl (le_refl _)

theorem isAtEnd_safe {p : Parser} (h : InBounds p) : SafeStep p p.isAtEnd (fun _ => p) := by
  obtain ⟨t, ht⟩ := inBounds_get h
  rw [isAtEnd_of_get ht]
  exact safeStep_ok h rfl (le_refl _)

theorem check_safe {p : Parser} (h : InBounds p) (type : TokenType) :
    SafeStep p (p.check type) (fun _ => p) := by
  obtain ⟨t, ht⟩ := inBounds_get h
  rw [check_of_get ht]
  exact safeStep_ok h rfl (le_refl _)

theorem matchType_safe {p : Parser} (h : InBounds p) (type : TokenType) :
    SafeStep p (p.matchType type) Prod.snd := by
  obtain ⟨t, ht⟩ := inBounds_get h
  rw [matchType_of_get ht]
  split
  · next hc => exact safeStep_ok (inBounds_succ h ht hc.1) rfl (Nat.le_succ _)
  · exact safeStep_ok h rfl (le_refl _)

theorem consume_safe {p : Parser} (h : InBounds p) (type : TokenType) (message : String) :
    SafeStep p (p.consume type message) id := by
  obtain ⟨t, ht⟩ := inBounds_get h
  rw [consume_of_get ht]
  split
  · next hc => exact safeStep_ok (inBounds_succ h ht hc.1) rfl (Nat.le_succ _)
  · exact safeStep_throw _ _ _

theorem matchAny_safe (types : List TokenType) {p : Parser} (h : InBounds p) :
    SafeStep p (p.matchAny types) Prod.snd := by
  induction types generalizing p with
  | nil => exact safeStep_ok h rfl (le_refl _)
  | cons type types ih =>
    unfold matchAny
    apply safeStep_bind (matchType_safe h type)
    intro r hr
    have hb := ((matchType_safe h type).2 r hr).1
    split
    · exact safeStep_ok hb rfl (le_refl _)
    · exact ih hb

/-- Safe steps compose: the continuation starts from a parser in bounds. -/
theorem safeStep_then {α β : Type} {p : Parser} {x : Except Failure α} {proj : α → Parser}
    {g : α → Except Failure β} {proj' : β → Parser} (hx : SafeStep p x proj)
    (hg : ∀ a, InBounds (proj a) → SafeStep (proj a) (g a) proj') :
    SafeStep p (x >>= g) proj' :=
  safeStep_bind hx (fun a ha => hg a (hx.2 a ha).1)

theorem columnListLoop_safe (fuel : Nat) {p : Parser} (h : InBounds p) :
    SafeStep p (columnListLoop fuel p) id := by
  induction fuel generalizing p with
  | zero => exact safeStep_fuel _ _
  | succ fuel ih =>
    unfold columnListLoop
    apply safeStep_then (consume_safe h _ _)
    intro p1 h1
    apply safeStep_then (matchType_safe h1 _)
    intro r hr
    split
    · exact ih hr
    · exact safeStep_ok hr rfl (le_refl _)

theorem columnList_safe {p : Parser} (h : InBounds p) : SafeStep p p.columnList id := by
  unfold columnList
  apply safeStep_then (matchType_safe h _)
  intro r hr
  split
  · exact safeStep_ok hr rfl (le_refl _)
  · exact columnListLoop_safe _ hr

theorem parseColumnListLoop_safe (fuel : Nat) {p : Parser} (h : InBounds p)
    (columns : List Column) : SafeStep p (parseColumnListLoop fuel p columns) Prod.snd := by
  induction fuel generalizing p columns with
  | zero => exact safeStep_fuel _ _
  | succ fuel ih =>
    unfold parseColumnListLoop
    apply safeStep_then (peek_safe h)
    intro t _
    apply safeStep_then (consume_safe h _ _)
    intro p1 h1
    apply safeStep_then (matchType_safe h1 _)
    intro r hr
    split
    · exact ih hr _
    · exact safeStep_ok hr rfl (le_refl _)

theorem parseColumnList_safe {p : Parser} (h : InBounds p) :
    SafeStep p p.parseColumnList Prod.snd := by
  unfold parseColumnList
  apply safeStep_then (matchType_safe h _)
  intro r hr
  split
  · exact safeStep_ok hr rfl (le_refl _)
  · exact parseColumnListLoop_safe _ hr _

theorem tableListLoop_safe (fuel : Nat) {p : Parser} (h : InBounds p) :
    SafeStep p (tableListLoop fuel p) id := by
  induction fuel generalizing p with
  | zero => exact safeStep_fuel _ _
  | succ fuel ih =>
    unfold tableListLoop
    apply safeStep_then (consume_safe h _ _)
    intro p1 h1
    apply safeStep_then (matchType_safe h1 _)
    intro r hr
    split
    · exact ih hr
    · exact safeStep_ok hr rfl (le_refl _)

theorem parseValue_safe {p : Parser} (h : InBounds p) (valueTypes : List TokenType) :
    SafeStep p (p.parseValue valueTypes) Prod.snd := by
  unfold parseValue
  apply safeStep_then (matchType_safe h _)
  intro r1 h1
  split
  · exact safeStep_ok h1 rfl (le_refl _)
  apply safeStep_then (matchType_safe h1 _)
  intro r2 h2
  split
  · exact safeStep_ok h2 rfl (le_refl _)
  apply safeStep_then (matchType_safe h2 _)
  intro r3 h3
  split
  · exact safeStep_ok h3 rfl (le_refl _)
  · exact safeStep_throw _ _ _

theorem parseValueListLoop_safe (fuel : Nat) {p : Parser} (h : InBounds p)
    (valueTypes : List TokenType) :
    SafeStep p (parseValueListLoop fuel p valueTypes) Prod.snd := by
  induction fuel generalizing p valueTypes with
  | zero => exact safeStep_fuel _ _
  | succ fuel ih =>
    unfold parseValueListLoop
    apply safeStep_then (parseValue_safe h _)
    intro s hs
    apply safeStep_then (matchType_safe hs _)
    intro r hr
    split
    · exact ih hr _
    · exact safeStep_ok hr rfl (le_refl _)

theorem assignmentListLoop_safe (fuel : Nat) {p : Parser} (h : InBounds p) :
    SafeStep p (assignmentListLoop fuel p) id := by
  induction fuel generalizing p with
  | zero => exact safeStep_fuel _ _
  | succ fuel ih =>
    unfold assignmentListLoop
    apply safeStep_then (consume_safe h _ _)
    intro p1 h1
    apply safeStep_then (consume_safe h1 _ _)
    intro p2 h2
    apply safeStep_then (matchAny_safe _ h2)
    intro r hr
    split
    · exact safeStep_throw _ _ _
    apply safeStep_then (matchType_safe hr _)
    intro r' hr'
    split
    · exact ih hr'
    · exact safeStep_ok hr' rfl (le_refl _)

theorem term_safe {p : Parser} (h : InBounds p) : SafeStep p p.term id := by
  unfold term
  apply safeStep_then (consume_safe h _ _)
  intro p1 h1
  apply safeStep_then (matchAny_safe _ h1)
  intro r hr
  split
  · exact safeStep_throw _ _ _
  apply safeStep_then (matchAny_safe _ hr)
  intro r' hr'
  split
  · exact safeStep_throw _ _ _
  · exact safeStep_ok hr' rfl (le_refl _)

theorem expressionLoop_safe (fuel : Nat) {p : Parser} (h : InBounds p) :
    SafeStep p (expressionLoop fuel p) id := by
  induction fuel generalizing p with
  | zero => exact safeStep_fuel _ _
  | succ fuel ih =>
    unfold expressionLoop
    apply safeStep_then (matchAny_safe _ h)
    intro r hr
    split
    · apply safeStep_then (term_safe hr)
      intro p2 h2
      exact ih h2
    · exact safeStep_ok hr rfl (le_refl _)

theorem condition_safe {p : Parser} (h : InBounds p) : SafeStep p p.condition id := by
  unfold condition expression
  apply safeStep_then (term_safe h)
  intro p1 h1
  exact expressionLoop_safe _ h1

theorem whereClause_safe {p : Parser} (h : InBounds p) : SafeStep p p.whereClause id := by
  unfold whereClause
  apply safeStep_then (matchType_safe h _)
  intro r hr
  split
  · exact condition_safe hr
  · exact safeStep_ok hr rfl (le_refl _)

theorem selectStatement_safe {p : Parser} (h : InBounds p) :
    SafeStep p p.selectStatement id := by
  unfold selectStatement
  apply safeStep_then (columnList_safe h)
  intro p1 h1
  apply safeStep_then (consume_safe h1 _ _)
  intro p2 h2
  apply safeStep_then (tableListLoop_safe _ h2)
  intro p3 h3
  apply safeStep_then (whereClause_safe h3)
  intro p4 h4
  exact consume_safe h4 _ _

theorem checkValueTypes_safe (p : Parser) (h : InBounds p) (columns : List Column)
    (valueTypes : List TokenType) :
    SafeStep p (checkValueTypes columns valueTypes) (fun _ => p) := by
  refine ⟨?_, fun _ _ => ⟨h, rfl, le_refl _⟩⟩
  unfold checkValueTypes
  generalize List.range (min columns.length valueTypes.length) = l
  induction l with
  | nil => intro h; cases h
  | cons i l ih =>
    intro hu
    have step : ∀ f : Nat → Except Failure Unit,
        (i :: l).forM f = (f i >>= fun _ => l.forM f) := fun _ => rfl
    rw [step] at hu
    revert hu
    split
    · split
      · intro hu; cases hu
      · exact ih
    · exact ih

theorem insertColumns_safe {p : Parser} (h : InBounds p) :
    SafeStep p p.insertColumns Prod.snd := by
  unfold insertColumns
  apply safeStep_then (matchType_safe h _)
  intro r hr
  split
  · apply safeStep_then (parseColumnList_safe hr)
    intro cs hcs
    apply safeStep_then (consume_safe hcs _ _)
    intro p1 h1
    exact safeStep_ok h1 rfl (le_refl _)
  · exact safeStep_ok hr rfl (le_refl _)

theorem insertStatement_safe {p : Parser} (h : InBounds p) :
    SafeStep p p.insertStatement id := by
  unfold insertStatement
  apply safeStep_then (consume_safe h _ _)
  intro p1 h1
  apply safeStep_then (consume_safe h1 _ _)
  intro p2 h2
  apply safeStep_then (insertColumns_safe h2)
  intro cp hcp
  apply safeStep_then (consume_safe hcp _ _)
  intro p5 h5
  apply safeStep_then (consume_safe h5 _ _)
  intro p6 h6
  apply safeStep_then (parseValueListLoop_safe _ h6 _)
  intro vs hvs
  apply safeStep_then (consume_safe hvs _ _)
  intro p8 h8
  split
  · exact safeStep_throw _ _ _
  · apply safeStep_then (checkValueTypes_safe p8 h8 _ _)
    intro _ _
    exact consume_safe h8 _ _

theorem updateStatement_safe {p : Parser} (h : InBounds p) :
    SafeStep p p.updateStatement id := by
  unfold updateStatement
  apply safeStep_then (consume_safe h _ _)
  intro p1 h1
  apply safeStep_then (consume_safe h1 _ _)
  intro p2 h2
  apply safeStep_then (assignmentListLoop_safe _ h2)
  intro p3 h3
  apply safeStep_then (whereClause_safe h3)
  intro p4 h4
  exact consume_safe h4 _ _

theorem deleteStatement_safe {p : Parser} (h : InBounds p) :
    SafeStep p p.deleteStatement id := by
  unfold deleteStatement
  apply safeStep_then (consume_safe h _ _)
  intro p1 h1
  apply safeStep_then (consume_safe h1 _ _)
  intro p2 h2
  apply safeStep_then (whereClause_safe h2)
  intro p4 h4
  exact consume_safe h4 _ _

theorem unknownStatement_safe (keywords : List String) {p : Parser} (h : InBounds p) :
    SafeStep p (p.unknownStatement keywords) id := by
  unfold unknownStatement
  apply safeStep_then (peek_safe h)
  intro t _
  split
  · dsimp only
    split
    · exact safeStep_throw _ _ _
    · exact safeStep_throw _ _ _
  · exact safeStep_throw _ _ _

theorem statement_safe (keywords : List String) {p : Parser} (h : InBounds p) :
    SafeStep p (p.statement keywords) id := by
  unfold statement
  apply safeStep_then (matchType_safe h _)
  intro r1 h1
  split
  · exact selectStatement_safe h1
  apply safeStep_then (matchType_safe h1 _)
  intro r2 h2
  split
  · exact insertStatement_safe h2
  apply safeStep_then (matchType_safe h2 _)
  intro r3 h3
  split
  · exact updateStatement_safe h3
  apply safeStep_then (matchType_safe h3 _)
  intro r4 h4
  split
  · exact deleteStatement_safe h4
  · exact unknownStatement_safe keywords h4

/-- On a well-formed token vector `parse` never reads a token out of range. -/
theorem parse_safe (keywords : List String) {p : Parser} (h : InBounds p) :
    p.parse keywords ≠ .error .undefined := by
  intro hu
  have hst := statement_safe keywords h
  unfold parse at hu
  cases hs : p.statement keywords with
  | error e =>
    rw [hs] at hu
    have hbind : ∀ g : Parser → Except Failure Unit,
        ((Except.error e : Except Failure Parser) >>= g) = Except.error e := fun _ => rfl
    rw [hbind] at hu
    cases hu
    exact hst.1 hs
  | ok q =>
    have hb : InBounds q := (hst.2 q hs).1
    obtain ⟨t, ht⟩ := inBounds_get hb
    rw [hs] at hu
    simp only [bind, Except.bind, isAtEnd_of_get ht, peek_of_get ht] at hu
    split at hu
    · split at hu <;> cases hu
    · cases hu

/-- When `advance` returns, the parser it leaves is in bounds and not behind. -/
theorem advance_safe {p : Parser} (h : InBounds p) :
    SafeStep p p.advance Prod.snd ∨ p.current = 0 := by
  obtain ⟨t, ht⟩ := inBounds_get h
  by_cases hne : t.type = .END_OF_FILE
  · by_cases h0 : p.current = 0
    · exact Or.inr h0
    · left
      have hprev : ∃ s, p.tokens[p.current - 1]? = some s := by
        cases hg : p.tokens[p.current - 1]? with
        | some s => exact ⟨s, rfl⟩
        | none =>
          have := List.getElem?_eq_none_iff.mp hg
          have := h.2
          omega
      obtain ⟨s, hs⟩ := hprev
      have hadv : p.advance = .ok (s, p) := by
        simp [advance, isAtEnd_of_get ht, hne, previous, h0, hs, bind, Except.bind, pure,
          Except.pure]
      rw [hadv]
      exact safeStep_ok h rfl (le_refl _)
  · left
    rw [advance_of_get ht hne]
    exact safeStep_ok (inBounds_succ h ht hne) rfl (Nat.le_succ _)

end Parser

/-! ## Edit distance -/

theorem specLev_nil_left (t : List Char) : specLev [] t = t.length := rfl

theorem specLev_nil_right (s : List Char) : specLev s [] = s.length := by
  cases s <;> rfl

theorem specLev_cons_cons (a b : Char) (s t : List Char) :
    specLev (a :: s) (b :: t) =
      min (specLev s (b :: t) + 1)
        (min (specLev (a :: s) t + 1) (specLev s t + if a != b then 1 else 0)) := rfl

/-- The recursive distance is reached by an edit script. -/
theorem specLev_edits (s : List Char) : ∀ t, Edits s t (specLev s t) := by
  induction s with
  | nil =>
    intro t
    induction t with
    | nil => exact Edits.nil
    | cons b t ih => exact Edits.insert b ih
  | cons a s ihs =>
    intro t
    induction t with
    | nil =>
      rw [specLev_nil_right]
      have := ihs []
      rw [specLev_nil_right] at this
      exact Edits.delete a this
    | cons b t iht =>
      rw [specLev_cons_cons]
      have h1 : Edits (a :: s) (b :: t) (specLev s (b :: t) + 1) := Edits.delete a (ihs _)
      have h2 : Edits (a :: s) (b :: t) (specLev (a :: s) t + 1) := Edits.insert b iht
      have h3 : Edits (a :: s) (b :: t) (specLev s t + if a != b then 1 else 0) := by
        by_cases hab : a = b
        · subst hab
          simp only [bne_self_eq_false, Bool.false_eq_true, if_false, Nat.add_zero]
          exact Edits.keep a (ihs t)
        · have : (a != b) = true := bne_iff_ne.mpr hab
          simp only [this, if_true]
          exact Edits.substitute a b (ihs t)
      rcases min_choice (specLev s (b :: t) + 1)
        (min (specLev (a :: s) t + 1) (specLev s t + if a != b then 1 else 0)) with h | h
      · rw [h]; exact h1
      · rw [h]
        rcases min_choice (specLev (a :: s) t + 1)
          (specLev s t + if a != b then 1 else 0) with h' | h'
        · rw [h']; exact h2
        · rw [h']; exact h3

/-- No edit script is shorter than the recursive distance. -/
theorem specLev_le {s t : List Char} {n : Nat} (h : Edits s t n) : specLev s t ≤ n := by
  induction h with
  | nil => exact le_refl _
  | @keep a s t n _ ih =>
    rw [specLev_cons_cons]
    refine le_trans (min_le_right _ _) (le_trans (min_le_right _ _) ?_)
    simpa using ih
  | @substitute a b s t n _ ih =>
    rw [specLev_cons_cons]
    refine le_trans (min_le_right _ _) (le_trans (min_le_right _ _) ?_)
    split <;> omega
  | @delete a s t n _ ih =>
    cases t with
    | nil =>
      rw [specLev_nil_right] at ih ⊢
      simp only [List.length_cons]
      omega
    | cons b t =>
      rw [specLev_cons_cons]
      exact le_trans (min_le_left _ _) (Nat.succ_le_succ ih)
  | @insert b s t n _ ih =>
    cases s with
    | nil =>
      rw [specLev_nil_left] at ih ⊢
      simp only [List.length_cons]
      omega
    | cons a s =>
      rw [specLev_cons_cons]
      exact le_trans (min_le_right _ _) (le_trans (min_le_left _ _) (Nat.succ_le_succ ih))

theorem Edits_append_same (c : Char) {s t : List Char} {n : Nat} (h : Edits s t n) :
    Edits (s ++ [c]) (t ++ [c]) n := by
  induction h with
  | nil => exact Edits.keep c Edits.nil
  | keep a _ ih => exact Edits.keep a ih
  | substitute a b _ ih => exact Edits.substitute a b ih
  | delete a _ ih => exact Edits.delete a ih
  | insert b _ ih => exact Edits.insert b ih

theorem Edits_append_substitute (c e : Char) {s t : List Char} {n : Nat} (h : Edits s t n) :
    Edits (s ++ [c]) (t ++ [e]) (n + 1) := by
  induction h with
  | nil => exact Edits.substitute c e Edits.nil
  | keep a _ ih => exact Edits.keep a ih
  | substitute a b _ ih => exact Edits.substitute a b ih
  | delete a _ ih => exact Edits.delete a ih
  | insert b _ ih => exact Edits.insert b ih

theorem Edits_append_delete (c : Char) {s t : List Char} {n : Nat} (h : Edits s t n) :
    Edits (s ++ [c]) t (n + 1) := by
  induction h with
  | nil => exact Edits.delete c Edits.nil
  | keep a _ ih => exact Edits.keep a ih
  | substitute a b _ ih => exact Edits.substitute a b ih
  | delete a _ ih => exact Edits.delete a ih
  | insert b _ ih => exact Edits.insert b ih

theorem Edits_append_insert (e : Char) {s t : List Char} {n : Nat} (h : Edits s t n) :
    Edits s (t ++ [e]) (n + 1) := by
  induction h with
  | nil => exact Edits.insert e Edits.nil
  | keep a _ ih => exact Edits.keep a ih
  | substitute a b _ ih => exact Edits.substitute a b ih
  | delete a _ ih => exact Edits.delete a ih
  | insert b _ ih => exact Edits.insert b ih

/-- An edit script read from right to left is an edit script of the reversed strings. -/
theorem Edits_reverse {s t : List Char} {n : Nat} (h : Edits s t n) :
    Edits s.reverse t.reverse n := by
  induction h with
  | nil => exact Edits.nil
  | keep a _ ih =>
    rw [List.reverse_cons, List.reverse_cons]
    exact Edits_append_same a ih
  | substitute a b _ ih =>
    rw [List.reverse_cons, List.reverse_cons]
    exact Edits_append_substitute a b ih
  | delete a _ ih =>
    rw [List.reverse_cons]
    exact Edits_append_delete a ih
  | insert b _ ih =>
    rw [List.reverse_cons]
    exact Edits_append_insert b ih

theorem specLev_reverse (s t : List Char) : specLev s.reverse t.reverse = specLev s t := by
  apply le_antisymm
  · exact specLev_le (Edits_reverse (specLev_edits s t))
  · have := specLev_le (Edits_reverse (specLev_edits s.reverse t.reverse))
    rwa [List.reverse_reverse, List.reverse_reverse] at this

/-- The recursion of the edit distance at the last characters. -/
theorem specLev_append_append (s t : List Char) (a b : Char) :
    specLev (s ++ [a]) (t ++ [b]) =
      min (specLev s (t ++ [b]) + 1)
        (min (specLev (s ++ [a]) t + 1) (specLev s t + if a != b then 1 else 0)) := by
  rw [← specLev_reverse (s ++ [a]) (t ++ [b]), ← specLev_reverse s (t ++ [b]),
    ← specLev_reverse (s ++ [a]) t, ← specLev_reverse s t]
  simp only [List.reverse_append, List.reverse_singleton, List.singleton_append]
  exact specLev_cons_cons a b s.reverse t.reverse


/-! ## The table of `levenshteinDistance` -/

theorem setCell_same (d : Nat → Nat → Nat) (i j v : Nat) : setCell d i j v i j = v := by
  simp [setCell]

theorem setCell_other (d : Nat → Nat → Nat) (i j v i' j' : Nat) (h : ¬ (i' = i ∧ j' = j)) :
    setCell d i j v i' j' = d i' j' := by
  simp only [setCell, if_neg h]

/-- The first loop of `levenshteinDistance` writes column 0. -/
theorem firstColumn_loop (d : Nat → Nat → Nat) (n i j : Nat) :
    (List.range n).foldl (fun d i => setCell d i 0 i) d i j =
      if j = 0 ∧ i < n then i else d i j := by
  induction n with
  | zero => simp
  | succ n ih =>
    rw [List.range_succ, List.foldl_append, List.foldl_cons, List.foldl_nil]
    by_cases h : i = n ∧ j = 0
    · obtain ⟨rfl, rfl⟩ := h
      rw [setCell_same]
      simp
    · rw [setCell_other _ _ _ _ _ _ h, ih]
      by_cases h' : j = 0 ∧ i < n
      · rw [if_pos h', if_pos ⟨h'.1, by omega⟩]
      · rw [if_neg h', if_neg]
        rintro ⟨rfl, hlt⟩
        rcases Nat.lt_succ_iff_lt_or_eq.mp hlt with hlt | rfl
        · exact h' ⟨rfl, hlt⟩
        · exact h ⟨rfl, rfl⟩

/-- The second loop of `levenshteinDistance` writes row 0. -/
theorem firstRow_loop (d : Nat → Nat → Nat) (n i j : Nat) :
    (List.range n).foldl (fun d j => setCell d 0 j j) d i j =
      if i = 0 ∧ j < n then j else d i j := by
  induction n with
  | zero => simp
  | succ n ih =>
    rw [List.range_succ, List.foldl_append, List.foldl_cons, List.foldl_nil]
    by_cases h : i = 0 ∧ j = n
    · obtain ⟨rfl, rfl⟩ := h
      rw [setCell_same]
      simp
    · rw [setCell_other _ _ _ _ _ _ h, ih]
      by_cases h' : i = 0 ∧ j < n
      · rw [if_pos h', if_pos ⟨h'.1, by omega⟩]
      · rw [if_neg h', if_neg]
        rintro ⟨rfl, hlt⟩
        rcases Nat.lt_succ_iff_lt_or_eq.mp hlt with hlt | rfl
        · exact h' ⟨rfl, hlt⟩
        · exact h ⟨rfl, rfl⟩

/-- The inner loop on row `i`: when row `i - 1` and the cell `(i, 0)` hold the values of a
table `D` that satisfies the recurrence, the loop fills the cells `(i, 1..n)` with the
values of `D` and leaves the other cells. -/
theorem row_loop (cost D : Nat → Nat → Nat) (len2 i : Nat) (hi : 1 ≤ i)
    (hrec : ∀ j, 1 ≤ j → j ≤ len2 →
      D i j = min (D (i - 1) j + 1) (min (D i (j - 1) + 1) (D (i - 1) (j - 1) + cost i j)))
    (d : Nat → Nat → Nat) (hprev : ∀ j, j ≤ len2 → d (i - 1) j = D (i - 1) j)
    (hzero : d i 0 = D i 0) (n : Nat) (hn : n ≤ len2) :
    (∀ j, j ≤ n → (List.range' 1 n).foldl (cellStep cost i) d i j = D i j) ∧
    (∀ i' j', ¬ (i' = i ∧ 1 ≤ j' ∧ j' ≤ n) →
      (List.range' 1 n).foldl (cellStep cost i) d i' j' = d i' j') := by
  induction n with
  | zero =>
    refine ⟨?_, ?_⟩
    · intro j hj
      have : j = 0 := by omega
      subst this
      exact hzero
    · intro i' j' _
      rfl
  | succ n ih =>
    obtain ⟨ih1, ih2⟩ := ih (by omega)
    have hcat : List.range' 1 (n + 1) = List.range' 1 n ++ [n + 1] := by
      rw [List.range'_concat, Nat.add_comm]
      simp
    rw [hcat, List.foldl_append, List.foldl_cons, List.foldl_nil]
    have hval : (List.range' 1 n).foldl (cellStep cost i) d (i - 1) (n + 1) + 1
        = D (i - 1) (n + 1) + 1 := by
      rw [ih2 _ _ (by omega), hprev _ hn]
    have hval2 : (List.range' 1 n).foldl (cellStep cost i) d i (n + 1 - 1) = D i (n + 1 - 1) :=
      ih1 _ (by omega)
    have hval3 : (List.range' 1 n).foldl (cellStep cost i) d (i - 1) (n + 1 - 1)
        = D (i - 1) (n + 1 - 1) := by
      rw [ih2 _ _ (by omega), hprev _ (by omega)]
    have hstep : ∀ (d' : Nat → Nat → Nat) (j : Nat), cellStep cost i d' j =
        setCell d' i j
          (min (d' (i - 1) j + 1) (min (d' i (j - 1) + 1) (d' (i - 1) (j - 1) + cost i j))) :=
      fun _ _ => rfl
    refine ⟨?_, ?_⟩
    · intro j hj
      by_cases hjn : j = n + 1
      · subst hjn
        rw [hstep, setCell_same, hval, hval2, hval3]
        exact (hrec _ (by omega) hn).symm
      · rw [hstep, setCell_other _ _ _ _ _ _ (by omega)]
        exact ih1 _ (by omega)
    · intro i' j' h
      rw [hstep, setCell_other _ _ _ _ _ _ (by omega)]
      exact ih2 _ _ (by omega)

/-- The outer loop: after the rows `1..m` every cell `(i, j)` with `i ≤ m` and `j ≤ len2`
holds the value of `D`, and the rows below are as before. -/
theorem table_loop (cost D : Nat → Nat → Nat) (len1 len2 : Nat)
    (hrec : ∀ i j, 1 ≤ i → i ≤ len1 → 1 ≤ j → j ≤ len2 →
      D i j = min (D (i - 1) j + 1) (min (D i (j - 1) + 1) (D (i - 1) (j - 1) + cost i j)))
    (d : Nat → Nat → Nat) (hrow : ∀ j, j ≤ len2 → d 0 j = D 0 j)
    (hcol : ∀ i, i ≤ len1 → d i 0 = D i 0) (m : Nat) (hm : m ≤ len1) :
    (∀ i j, i ≤ m → j ≤ len2 →
      (List.range' 1 m).foldl (fun d i => (List.range' 1 len2).foldl (cellStep cost i) d) d i j
        = D i j) ∧
    (∀ i j, m < i →
      (List.range' 1 m).foldl (fun d i => (List.range' 1 len2).foldl (cellStep cost i) d) d i j
        = d i j) := by
  induction m with
  | zero =>
    refine ⟨?_, ?_⟩
    · intro i j hi hj
      have : i = 0 := by omega
      subst this
      exact hrow j hj
    · intro i j _
      rfl
  | succ m ih =>
    obtain ⟨ih1, ih2⟩ := ih (by omega)
    have hcat : List.range' 1 (m + 1) = List.range' 1 m ++ [m + 1] := by
      rw [List.range'_concat, Nat.add_comm]
      simp
    rw [hcat, List.foldl_append, List.foldl_cons, List.foldl_nil]
    obtain ⟨r1, r2⟩ := row_loop cost D len2 (m + 1) (by omega)
      (fun j h1 h2 => hrec (m + 1) j (by omega) hm h1 h2)
      ((List.range' 1 m).foldl
        (fun d i => (List.range' 1 len2).foldl (cellStep cost i) d) d)
      (fun j hj => ih1 _ _ (by omega) hj)
      (by rw [ih2 _ _ (by omega)]; exact hcol _ hm) len2 (le_refl _)
    refine ⟨?_, ?_⟩
    · intro i j hi hj
      by_cases him : i = m + 1
      · subst him
        exact r1 j hj
      · rw [r2 _ _ (by omega)]
        exact ih1 _ _ (by omega) hj
    · intro i j hi
      rw [r2 _ _ (by omega)]
      exact ih2 _ _ (by omega)

/-- The table of prefix distances satisfies the recurrence of the inner loop. -/
theorem specLev_take (s t : List Char) (i j : Nat) (hi1 : 1 ≤ i) (hi : i ≤ s.length)
    (hj1 : 1 ≤ j) (hj : j ≤ t.length) :
    specLev (s.take i) (t.take j) =
      min (specLev (s.take (i - 1)) (t.take j) + 1)
        (min (specLev (s.take i) (t.take (j - 1)) + 1)
          (specLev (s.take (i - 1)) (t.take (j - 1)) +
            (if s.getD (i - 1) (Char.ofNat 0) != t.getD (j - 1) (Char.ofNat 0)
              then 1 else 0))) := by
  obtain ⟨i, rfl⟩ : ∃ k, i = k + 1 := ⟨i - 1, by omega⟩
  obtain ⟨j, rfl⟩ : ∃ k, j = k + 1 := ⟨j - 1, by omega⟩
  have hs : s.take (i + 1) = s.take i ++ [s.getD i (Char.ofNat 0)] := by
    rw [List.take_succ, List.getD_eq_getElem?_getD, List.getElem?_eq_getElem (by omega)]
    rfl
  have ht : t.take (j + 1) = t.take j ++ [t.getD j (Char.ofNat 0)] := by
    rw [List.take_succ, List.getD_eq_getElem?_getD, List.getElem?_eq_getElem (by omega)]
    rfl
  simp only [Nat.add_sub_cancel]
  rw [hs, ht, specLev_append_append, ← hs, ← ht]

/-- The table computation of `levenshteinDistance` yields the recursive edit distance. -/
theorem levenshteinDistance_eq_specLev (s1 s2 : String) :
    levenshteinDistance s1 s2 = specLev s1.data s2.data := by
  unfold levenshteinDistance
  simp only
  have h := (table_loop
    (fun i j => if s1.data.getD (i - 1) (Char.ofNat 0) != s2.data.getD (j - 1) (Char.ofNat 0)
      then 1 else 0)
    (fun i j => specLev (s1.data.take i) (s2.data.take j)) s1.data.length s2.data.length
    (fun i j h1 h2 h3 h4 => specLev_take s1.data s2.data i j h1 h2 h3 h4)
    ((List.range (s2.data.length + 1)).foldl (fun d j => setCell d 0 j j)
      ((List.range (s1.data.length + 1)).foldl (fun d i => setCell d i 0 i) (fun _ _ => 0)))
    ?_ ?_ s1.data.length (le_refl _)).1 s1.data.length s2.data.length (le_refl _) (le_refl _)
  · simp only [List.take_length] at h
    exact h
  · intro j hj
    rw [firstRow_loop, if_pos ⟨rfl, by omega⟩]
    show j = specLev (s1.data.take 0) (s2.data.take j)
    rw [List.take_zero, specLev_nil_left, List.length_take]
    exact (Nat.min_eq_left hj).symm
  · intro i hi
    rw [firstRow_loop, firstColumn_loop]
    show _ = specLev (s1.data.take i) (s2.data.take 0)
    rw [List.take_zero, specLev_nil_right, List.length_take, Nat.min_eq_left hi]
    by_cases h0 : i = 0
    · subst h0
      simp
    · rw [if_neg (by omega), if_pos ⟨rfl, by omega⟩]

/-! ## Sequences of single-character operations -/

theorem Edits_refl (s : List Char) : Edits s s 0 := by
  induction s with
  | nil => exact Edits.nil
  | cons a s ih => exact Edits.keep a ih

/-- Edit scripts compose: the costs add up at most. -/
theorem Edits_trans {s u : List Char} {n : Nat} (h1 : Edits s u n) :
    ∀ {t : List Char} {m : Nat}, Edits u t m → ∃ k, k ≤ n + m ∧ Edits s t k := by
  induction h1 with
  | nil =>
    intro t m h2
    exact ⟨m, by omega, h2⟩
  | @keep a s u n _ ih =>
    intro t m h2
    generalize hw : a :: u = w at h2
    induction h2 with
    | nil => cases hw
    | keep b h2 _ =>
      injection hw with ha hu
      subst ha hu
      obtain ⟨k, hk, e⟩ := ih h2
      exact ⟨k, hk, Edits.keep _ e⟩
    | substitute b c h2 _ =>
      injection hw with ha hu
      subst ha hu
      obtain ⟨k, hk, e⟩ := ih h2
      exact ⟨k + 1, by omega, Edits.substitute _ c e⟩
    | delete b h2 _ =>
      injection hw with ha hu
      subst ha hu
      obtain ⟨k, hk, e⟩ := ih h2
      exact ⟨k + 1, by omega, Edits.delete _ e⟩
    | insert c _ ih2 =>
      obtain ⟨k, hk, e⟩ := ih2 hw
      exact ⟨k + 1, by omega, Edits.insert c e⟩
  | @substitute a a' s u n _ ih =>
    intro t m h2
    generalize hw : a' :: u = w at h2
    induction h2 with
    | nil => cases hw
    | keep b h2 _ =>
      injection hw with ha hu
      subst ha hu
      obtain ⟨k, hk, e⟩ := ih h2
      exact ⟨k + 1, by omega, Edits.substitute a _ e⟩
    | substitute b c h2 _ =>
      injection hw with ha hu
      subst ha hu
      obtain ⟨k, hk, e⟩ := ih h2
      exact ⟨k + 1, by omega, Edits.substitute a c e⟩
    | delete b h2 _ =>
      injection hw with ha hu
      subst ha hu
      obtain ⟨k, hk, e⟩ := ih h2
      exact ⟨k + 1, by omega, Edits.delete a e⟩
    | insert c _ ih2 =>
      obtain ⟨k, hk, e⟩ := ih2 hw
      exact ⟨k + 1, by omega, Edits.insert c e⟩
  | @delete a s u n _ ih =>
    intro t m h2
    obtain ⟨k, hk, e⟩ := ih h2
    exact ⟨k + 1, by omega, Edits.delete a e⟩
  | @insert a' s u n _ ih =>
    intro t m h2
    generalize hw : a' :: u = w at h2
    induction h2 with
    | nil => cases hw
    | keep b h2 _ =>
      injection hw with ha hu
      subst ha hu
      obtain ⟨k, hk, e⟩ := ih h2
      exact ⟨k + 1, by omega, Edits.insert _ e⟩
    | substitute b c h2 _ =>
      injection hw with ha hu
      subst ha hu
      obtain ⟨k, hk, e⟩ := ih h2
      exact ⟨k + 1, by omega, Edits.insert c e⟩
    | delete b h2 _ =>
      injection hw with ha hu
      subst ha hu
      obtain ⟨k, hk, e⟩ := ih h2
      exact ⟨k, by omega, e⟩
    | insert c _ ih2 =>
      obtain ⟨k, hk, e⟩ := ih2 hw
      exact ⟨k + 1, by omega, Edits.insert c e⟩

theorem Edits_prefix (l : List Char) {s t : List Char} {n : Nat} (h : Edits s t n) :
    Edits (l ++ s) (l ++ t) n := by
  induction l with
  | nil => exact h
  | cons a l ih => exact Edits.keep a ih

/-- One operation is an edit script of cost 1. -/
theorem EditStep_edits {s u : List Char} (h : EditStep s u) : Edits s u 1 := by
  cases h with
  | insert l r c => exact Edits_prefix l (Edits.insert c (Edits_refl r))
  | delete l r c => exact Edits_prefix l (Edits.delete c (Edits_refl r))
  | substitute l r a b => exact Edits_prefix l (Edits.substitute a b (Edits_refl r))

theorem EditStep_cons (a : Char) {s u : List Char} (h : EditStep s u) :
    EditStep (a :: s) (a :: u) := by
  cases h with
  | insert l r c => exact EditStep.insert (a :: l) r c
  | delete l r c => exact EditStep.delete (a :: l) r c
  | substitute l r b c => exact EditStep.substitute (a :: l) r b c

theorem Transforms_cons (a : Char) {n : Nat} {s t : List Char} (h : Transforms n s t) :
    Transforms n (a :: s) (a :: t) := by
  induction h with
  | done s => exact Transforms.done _
  | step hs _ ih => exact Transforms.step (EditStep_cons a hs) ih

/-- An edit script can be carried out operation by operation. -/
theorem Edits_transforms {s t : List Char} {n : Nat} (h : Edits s t n) : Transforms n s t := by
  induction h with
  | nil => exact Transforms.done []
  | keep a _ ih => exact Transforms_cons a ih
  | substitute a b _ ih =>
    exact Transforms.step (EditStep.substitute [] _ a b) (Transforms_cons b ih)
  | delete a _ ih => exact Transforms.step (EditStep.delete [] _ a) ih
  | insert b _ ih => exact Transforms.step (EditStep.insert [] _ b) (Transforms_cons b ih)

/-- A sequence of operations is summed up by an edit script that is not longer. -/
theorem Transforms_edits {n : Nat} {s t : List Char} (h : Transforms n s t) :
    ∃ k, k ≤ n ∧ Edits s t k := by
  induction h with
  | done s => exact ⟨0, le_refl _, Edits_refl s⟩
  | step hs _ ih =>
    obtain ⟨k, hk, e⟩ := ih
    obtain ⟨k', hk', e'⟩ := Edits_trans (EditStep_edits hs) e
    exact ⟨k', by omega, e'⟩

/-- The recursive edit distance is the least number of operations that transform `s` into
`t`. -/
theorem specLev_transforms (s t : List Char) :
    Transforms (specLev s t) s t ∧ ∀ n, Transforms n s t → specLev s t ≤ n := by
  refine ⟨Edits_transforms (specLev_edits s t), ?_⟩
  intro n h
  obtain ⟨k, hk, e⟩ := Transforms_edits h
  exact le_trans (specLev_le e) hk

/-! ## The parser accepts the derivations of the grammar -/

namespace Parser

theorem unread_length_le (p : Parser) : (p.tokens.drop p.current).length ≤ p.tokens.length := by
  rw [List.length_drop]
  omega

theorem eats_consume {p : Parser} {t : Token} {x : List Token} {type : TokenType}
    (hd : p.tokens.drop p.current = t :: x) (ht : t.type = type)
    (hne : type ≠ .END_OF_FILE) (message : String) :
    Eats (p.consume type message) p x :=
  ⟨⟨p.tokens, p.current + 1⟩, consume_unread hd ht hne message, rfl, unread_succ hd⟩

theorem eats_matchType {p : Parser} {t : Token} {x : List Token} {type : TokenType}
    (hd : p.tokens.drop p.current = t :: x) (ht : t.type = type)
    (hne : type ≠ .END_OF_FILE) :
    ∃ q, p.matchType type = .ok (true, q) ∧ q.tokens = p.tokens ∧
      q.tokens.drop q.current = x :=
  ⟨⟨p.tokens, p.current + 1⟩, matchType_unread_true hd ht hne, rfl, unread_succ hd⟩

theorem eats_matchAny {p : Parser} {t : Token} {ts : List Token}
    (hd : p.tokens.drop p.current = t :: ts) :
    ∀ types : List TokenType, t.type ∈ types → TokenType.END_OF_FILE ∉ types →
      ∃ q, p.matchAny types = .ok (true, q) ∧ q.tokens = p.tokens ∧
        q.tokens.drop q.current = ts := by
  intro types
  induction types with
  | nil => intro h; cases h
  | cons type types ih =>
    intro hmem heof
    unfold matchAny
    by_cases h : t.type = type
    · obtain ⟨q, hq, h1, h2⟩ := eats_matchType hd h
        (fun e => heof (e ▸ List.mem_cons_self _ _))
      exact ⟨q, by simp [hq, bind, Except.bind, pure, Except.pure], h1, h2⟩
    · rw [matchType_unread_false hd h]
      simp only [bind, Except.bind, Bool.false_eq_true, if_false]
      apply ih
      · rcases List.mem_cons.mp hmem with h' | h'
        · exact absurd h' h
        · exact h'
      · exact fun h' => heof (List.mem_cons_of_mem _ h')

theorem matchAny_unread_false {p : Parser} {t : Token} {ts : List Token}
    (hd : p.tokens.drop p.current = t :: ts) :
    ∀ types : List TokenType, t.type ∉ types → p.matchAny types = .ok (false, p) := by
  intro types
  induction types with
  | nil => intro _; rfl
  | cons type types ih =>
    intro hmem
    unfold matchAny
    rw [matchType_unread_false hd (fun e => hmem (e ▸ List.mem_cons_self _ _))]
    simp only [bind, Except.bind, Bool.false_eq_true, if_false]
    exact ih (fun h' => hmem (List.mem_cons_of_mem _ h'))

theorem isValue_mem {v : Token} (h : IsValue v) :
    v.type ∈ [TokenType.STRING_LITERAL, .NUMBER, .IDENTIFIER] := by
  rcases h with h | h | h <;> rw [h] <;> decide

/-- The function `term` reads `IDENTIFIER compareOp value`. -/
theorem eats_term {p : Parser} {c op v : Token} {x : List Token}
    (hd : p.tokens.drop p.current = c :: op :: v :: x) (hc : c.type = .IDENTIFIER)
    (hop : IsCompareOp op) (hv : IsValue v) : Eats p.term p x := by
  obtain ⟨q1, e1, t1, d1⟩ := eats_consume hd hc (by decide) "Expected column name in condition."
  obtain ⟨q2, e2, t2, d2⟩ := eats_matchAny d1 _ hop (by decide)
  obtain ⟨q3, e3, t3, d3⟩ := eats_matchAny d2 _ (isValue_mem hv) (by decide)
  refine ⟨q3, ?_, by rw [t3, t2, t1], d3⟩
  unfold term
  simp only [bind, Except.bind, e1, e2, e3, Bool.not_true, Bool.false_eq_true, if_false, pure,
    Except.pure]

/-- The loop of `expression` reads `((AND|OR) term)*` and stops in front of a token that
is neither AND nor OR. -/
theorem eats_expressionLoop {tail : List Token} (h : SpecConditionTail tail) :
    ∀ (p : Parser) (fuel : Nat) (next : Token) (rest : List Token),
      p.tokens.drop p.current = tail ++ next :: rest → next.type ≠ .AND → next.type ≠ .OR →
      tail.length < fuel → Eats (expressionLoop fuel p) p (next :: rest) := by
  induction h with
  | nil =>
    intro p fuel next rest hd h1 h2 hfuel
    obtain ⟨f, rfl⟩ : ∃ f, fuel = f + 1 := ⟨fuel - 1, by omega⟩
    refine ⟨p, ?_, rfl, hd⟩
    unfold expressionLoop
    rw [matchAny_unread_false hd _ (by simp [h1, h2])]
    rfl
  | cons conj c op v tail hconj hc hop hv _ ih =>
    intro p fuel next rest hd h1 h2 hfuel
    obtain ⟨f, rfl⟩ : ∃ f, fuel = f + 1 := ⟨fuel - 1, by omega⟩
    obtain ⟨q1, e1, t1, d1⟩ := eats_matchAny hd [.AND, .OR]
      (by rcases hconj with h | h <;> rw [h] <;> decide) (by decide)
    obtain ⟨q2, e2, t2, d2⟩ := eats_term d1 hc hop hv
    obtain ⟨q3, e3, t3, d3⟩ := ih q2 f next rest d2 h1 h2
      (by simp only [List.length_cons] at hfuel; omega)
    refine ⟨q3, ?_, by rw [t3, t2, t1], d3⟩
    unfold expressionLoop
    simp only [bind, Except.bind, e1, e2, if_true]
    exact e3

/-- The function `condition` reads a condition of the grammar. -/
theorem eats_condition {cond : List Token} (h : SpecCondition cond) (p : Parser)
    (next : Token) (rest : List Token)
    (hd : p.tokens.drop p.current = cond ++ next :: rest) (h1 : next.type ≠ .AND)
    (h2 : next.type ≠ .OR) : Eats p.condition p (next :: rest) := by
  cases h with
  | mk c op v tail hc hop hv htail =>
    obtain ⟨q1, e1, t1, d1⟩ := eats_term (x := tail ++ next :: rest) hd hc hop hv
    have hlen := unread_length_le q1
    rw [d1] at hlen
    obtain ⟨q2, e2, t2, d2⟩ := eats_expressionLoop htail q1 (q1.tokens.length + 1) next rest d1
      h1 h2 (by simp only [List.length_append, List.length_cons] at hlen; omega)
    refine ⟨q2, ?_, by rw [t2, t1], d2⟩
    unfold condition expression
    simp only [bind, Except.bind, e1]
    exact e2

/-- The optional WHERE clause in front of the closing `;`. -/
theorem eats_whereClause {wh : List Token} (h : SpecWhere wh) (p : Parser)
    (semi : Token) (rest : List Token)
    (hd : p.tokens.drop p.current = wh ++ semi :: rest) (hsemi : semi.type = .SEMICOLON) :
    Eats p.whereClause p (semi :: rest) := by
  cases h with
  | absent =>
    refine ⟨p, ?_, rfl, hd⟩
    unfold whereClause
    rw [matchType_unread_false hd (by rw [hsemi]; decide)]
    rfl
  | present w cond hw hcond =>
    obtain ⟨q1, e1, t1, d1⟩ := eats_matchType hd hw (by decide)
    obtain ⟨q2, e2, t2, d2⟩ := eats_condition hcond q1 semi rest d1 (by rw [hsemi]; decide)
      (by rw [hsemi]; decide)
    refine ⟨q2, ?_, by rw [t2, t1], d2⟩
    unfold whereClause
    simp only [bind, Except.bind, e1, if_true]
    exact e2

/-- The loop of `columnList` reads identifiers separated by commas. -/
theorem eats_columnListLoop {items part : List Token} (h : CommaSeparated items part) :
    ∀ (p : Parser) (fuel : Nat) (next : Token) (rest : List Token),
      (∀ c ∈ items, c.type = .IDENTIFIER) → p.tokens.drop p.current = part ++ next :: rest →
      next.type ≠ .COMMA → items.length ≤ fuel →
      Eats (columnListLoop fuel p) p (next :: rest) := by
  induction h with
  | single c =>
    intro p fuel next rest hid hd hnext hfuel
    obtain ⟨f, rfl⟩ : ∃ f, fuel = f + 1 := ⟨fuel - 1, by simp at hfuel; omega⟩
    obtain ⟨q1, e1, t1, d1⟩ := eats_consume (x := next :: rest) hd
      (hid c (List.mem_singleton.mpr rfl)) (by decide) "Expected column name."
    refine ⟨q1, ?_, t1, d1⟩
    unfold columnListLoop
    simp only [bind, Except.bind, e1, matchType_unread_false d1 hnext, Bool.false_eq_true,
      if_false, pure, Except.pure]
  | cons c comma items part hcomma _ ih =>
    intro p fuel next rest hid hd hnext hfuel
    obtain ⟨f, rfl⟩ : ∃ f, fuel = f + 1 := ⟨fuel - 1, by simp at hfuel; omega⟩
    obtain ⟨q1, e1, t1, d1⟩ := eats_consume (x := comma :: (part ++ next :: rest)) hd
      (hid c (List.mem_cons_self _ _)) (by decide) "Expected column name."
    obtain ⟨q2, e2, t2, d2⟩ := eats_matchType d1 hcomma (by decide)
    obtain ⟨q3, e3, t3, d3⟩ := ih q2 f next rest
      (fun x hx => hid x (List.mem_cons_of_mem _ hx)) d2 hnext
      (by simp only [List.length_cons] at hfuel; omega)
    refine ⟨q3, ?_, by rw [t3, t2, t1], d3⟩
    unfold columnListLoop
    simp only [bind, Except.bind, e1, e2, if_true]
    exact e3

/-- The loop of `tableList` reads identifiers separated by commas. -/
theorem eats_tableListLoop {items part : List Token} (h : CommaSeparated items part) :
    ∀ (p : Parser) (fuel : Nat) (next : Token) (rest : List Token),
      (∀ c ∈ items, c.type = .IDENTIFIER) → p.tokens.drop p.current = part ++ next :: rest →
      next.type ≠ .COMMA → items.length ≤ fuel →
      Eats (tableListLoop fuel p) p (next :: rest) := by
  induction h with
  | single c =>
    intro p fuel next rest hid hd hnext hfuel
    obtain ⟨f, rfl⟩ : ∃ f, fuel = f + 1 := ⟨fuel - 1, by simp at hfuel; omega⟩
    obtain ⟨q1, e1, t1, d1⟩ := eats_consume (x := next :: rest) hd
      (hid c (List.mem_singleton.mpr rfl)) (by decide) "Expected table name."
    refine ⟨q1, ?_, t1, d1⟩
    unfold tableListLoop
    simp only [bind, Except.bind, e1, matchType_unread_false d1 hnext, Bool.false_eq_true,
      if_false, pure, Except.pure]
  | cons c comma items part hcomma _ ih =>
    intro p fuel next rest hid hd hnext hfuel
    obtain ⟨f, rfl⟩ : ∃ f, fuel = f + 1 := ⟨fuel - 1, by simp at hfuel; omega⟩
    obtain ⟨q1, e1, t1, d1⟩ := eats_consume (x := comma :: (part ++ next :: rest)) hd
      (hid c (List.mem_cons_self _ _)) (by decide) "Expected table name."
    obtain ⟨q2, e2, t2, d2⟩ := eats_matchType d1 hcomma (by decide)
    obtain ⟨q3, e3, t3, d3⟩ := ih q2 f next rest
      (fun x hx => hid x (List.mem_cons_of_mem _ hx)) d2 hnext
      (by simp only [List.length_cons] at hfuel; omega)
    refine ⟨q3, ?_, by rw [t3, t2, t1], d3⟩
    unfold tableListLoop
    simp only [bind, Except.bind, e1, e2, if_true]
    exact e3

/-- A list of items separated by commas that is unread is not longer than the token
vector. -/
theorem separated_length_le {items part x : List Token} (h : CommaSeparated items part)
    (p : Parser) (hd : p.tokens.drop p.current = part ++ x) :
    items.length ≤ p.tokens.length := by
  have h1 := CommaSeparated.length_le h
  have h2 := unread_length_le p
  rw [hd, List.length_append] at h2
  omega

/-- The function `columnList` reads a column list of the grammar. -/
theorem eats_columnList {part : List Token} (h : SpecColumnList part) (p : Parser)
    (next : Token) (rest : List Token)
    (hd : p.tokens.drop p.current = part ++ next :: rest) (hnext : next.type ≠ .COMMA) :
    Eats p.columnList p (next :: rest) := by
  cases h with
  | star t ht =>
    obtain ⟨q1, e1, t1, d1⟩ := eats_matchType (x := next :: rest) hd ht (by decide)
    refine ⟨q1, ?_, t1, d1⟩
    unfold columnList
    simp only [bind, Except.bind, e1, if_true, pure, Except.pure]
  | names _ hnames =>
    obtain ⟨items, hid, hsep⟩ := hnames
    obtain ⟨c, cs, ps, hcs, hps⟩ := CommaSeparated.head hsep
    have hcty : c.type = .IDENTIFIER := hid c (by rw [hcs]; exact List.mem_cons_self _ _)
    have hd' : p.tokens.drop p.current = c :: (ps ++ next :: rest) := by rw [hd, hps]; rfl
    obtain ⟨q, e, t, d⟩ := eats_columnListLoop hsep p (p.tokens.length + 1) next rest hid hd
      hnext (by have := separated_length_le hsep p hd; omega)
    refine ⟨q, ?_, t, d⟩
    have hstar : p.matchType .ASTERISK = .ok (false, p) :=
      matchType_unread_false hd' (by rw [hcty]; decide)
    unfold columnList
    simp only [bind, Except.bind, hstar, Bool.false_eq_true, if_false]
    exact e

/-- The function `tableList` reads a table list of the grammar. -/
theorem eats_tableList {part : List Token} (h : SpecIdentifierList part) (p : Parser)
    (next : Token) (rest : List Token)
    (hd : p.tokens.drop p.current = part ++ next :: rest) (hnext : next.type ≠ .COMMA) :
    Eats p.tableList p (next :: rest) := by
  obtain ⟨items, hid, hsep⟩ := h
  exact eats_tableListLoop hsep p (p.tokens.length + 1) next rest hid hd hnext
    (by have := separated_length_le hsep p hd; omega)

/-- The loop of `assignmentList` reads assignments separated by commas. -/
theorem eats_assignmentListLoop {part : List Token} (h : SpecAssignmentList part) :
    ∀ (p : Parser) (fuel : Nat) (next : Token) (rest : List Token),
      p.tokens.drop p.current = part ++ next :: rest → next.type ≠ .COMMA →
      part.length ≤ fuel → Eats (assignmentListLoop fuel p) p (next :: rest) := by
  induction h with
  | single c eq v hc heq hv =>
    intro p fuel next rest hd hnext hfuel
    obtain ⟨f, rfl⟩ : ∃ f, fuel = f + 1 := ⟨fuel - 1, by simp at hfuel; omega⟩
    obtain ⟨q1, e1, t1, d1⟩ := eats_consume (x := eq :: v :: next :: rest) hd hc (by decide)
      "Expected column name."
    obtain ⟨q2, e2, t2, d2⟩ := eats_consume d1 heq (by decide)
      "Expected '=' after column name."
    obtain ⟨q3, e3, t3, d3⟩ := eats_matchAny d2 _ (isValue_mem hv) (by decide)
    refine ⟨q3, ?_, by rw [t3, t2, t1], d3⟩
    unfold assignmentListLoop
    simp only [bind, Except.bind, e1, e2, e3, matchType_unread_false d3 hnext, Bool.not_true,
      Bool.false_eq_true, if_false, pure, Except.pure]
  | cons c eq v comma part hc heq hv hcomma _ ih =>
    intro p fuel next rest hd hnext hfuel
    obtain ⟨f, rfl⟩ : ∃ f, fuel = f + 1 := ⟨fuel - 1, by simp at hfuel; omega⟩
    obtain ⟨q1, e1, t1, d1⟩ := eats_consume
      (x := eq :: v :: comma :: (part ++ next :: rest)) hd hc (by decide)
      "Expected column name."
    obtain ⟨q2, e2, t2, d2⟩ := eats_consume d1 heq (by decide)
      "Expected '=' after column name."
    obtain ⟨q3, e3, t3, d3⟩ := eats_matchAny d2 _ (isValue_mem hv) (by decide)
    obtain ⟨q4, e4, t4, d4⟩ := eats_matchType d3 hcomma (by decide)
    obtain ⟨q5, e5, t5, d5⟩ := ih q4 f next rest d4 hnext
      (by simp only [List.length_cons] at hfuel; omega)
    refine ⟨q5, ?_, by rw [t5, t4, t3, t2, t1], d5⟩
    unfold assignmentListLoop
    simp only [bind, Except.bind, e1, e2, e3, e4, Bool.not_true, Bool.false_eq_true, if_false,
      if_true]
    exact e5

/-- The function `assignmentList` reads an assignment list of the grammar. -/
theorem eats_assignmentList {part : List Token} (h : SpecAssignmentList part) (p : Parser)
    (next : Token) (rest : List Token)
    (hd : p.tokens.drop p.current = part ++ next :: rest) (hnext : next.type ≠ .COMMA) :
    Eats p.assignmentList p (next :: rest) := by
  have h2 := unread_length_le p
  rw [hd, List.length_append] at h2
  exact eats_assignmentListLoop h p (p.tokens.length + 1) next rest hd hnext (by omega)

/-- The token in front of which a WHERE clause and the closing `;` stand is not a comma. -/
theorem where_head_ne_comma {wh : List Token} (h : SpecWhere wh) (semi : Token)
    (rest : List Token) (hsemi : semi.type = .SEMICOLON) :
    ∃ next rest', wh ++ semi :: rest = next :: rest' ∧ next.type ≠ .COMMA := by
  cases h with
  | absent => exact ⟨semi, rest, rfl, by rw [hsemi]; decide⟩
  | present w cond hw _ => exact ⟨w, cond ++ semi :: rest, rfl, by rw [hw]; decide⟩

/-- The function `selectStatement` reads the rest of a SELECT statement of the grammar. -/
theorem eats_selectStatement {columns tables wh : List Token} {fr semi : Token}
    (hcols : SpecColumnList columns) (hfr : fr.type = .FROM)
    (htabs : SpecIdentifierList tables) (hwh : SpecWhere wh) (hsemi : semi.type = .SEMICOLON)
    (p : Parser) (rest : List Token)
    (hd : p.tokens.drop p.current = columns ++ fr :: (tables ++ (wh ++ semi :: rest))) :
    Eats p.selectStatement p rest := by
  obtain ⟨q1, e1, t1, d1⟩ := eats_columnList hcols p fr _ hd (by rw [hfr]; decide)
  obtain ⟨q2, e2, t2, d2⟩ := eats_consume d1 hfr (by decide)
    "Expected 'FROM' after SELECT columns."
  obtain ⟨next, rest', hnext, hne⟩ := where_head_ne_comma hwh semi rest hsemi
  rw [hnext] at d2
  obtain ⟨q3, e3, t3, d3⟩ := eats_tableList htabs q2 next rest' d2 hne
  rw [← hnext] at d3
  obtain ⟨q4, e4, t4, d4⟩ := eats_whereClause hwh q3 semi rest d3 hsemi
  obtain ⟨q5, e5, t5, d5⟩ := eats_consume d4 hsemi (by decide)
    "Expected ';' at the end of SELECT statement."
  refine ⟨q5, ?_, by rw [t5, t4, t3, t2, t1], d5⟩
  unfold selectStatement
  simp only [bind, Except.bind, e1, e2, e3, e4]
  exact e5

/-- The function `updateStatement` reads the rest of an UPDATE statement of the grammar. -/
theorem eats_updateStatement {assignments wh : List Token} {table set semi : Token}
    (htable : table.type = .IDENTIFIER) (hset : set.type = .SET)
    (hassign : SpecAssignmentList assignments) (hwh : SpecWhere wh)
    (hsemi : semi.type = .SEMICOLON) (p : Parser) (rest : List Token)
    (hd : p.tokens.drop p.current = table :: set :: (assignments ++ (wh ++ semi :: rest))) :
    Eats p.updateStatement p rest := by
  obtain ⟨q1, e1, t1, d1⟩ := eats_consume hd htable (by decide)
    "Expected table name after UPDATE."
  obtain ⟨q2, e2, t2, d2⟩ := eats_consume d1 hset (by decide)
    "Expected 'SET' after table name."
  obtain ⟨next, rest', hnext, hne⟩ := where_head_ne_comma hwh semi rest hsemi
  rw [hnext] at d2
  obtain ⟨q3, e3, t3, d3⟩ := eats_assignmentList hassign q2 next rest' d2 hne
  rw [← hnext] at d3
  obtain ⟨q4, e4, t4, d4⟩ := eats_whereClause hwh q3 semi rest d3 hsemi
  obtain ⟨q5, e5, t5, d5⟩ := eats_consume d4 hsemi (by decide)
    "Expected ';' at the end of UPDATE statement."
  refine ⟨q5, ?_, by rw [t5, t4, t3, t2, t1], d5⟩
  unfold updateStatement
  simp only [bind, Except.bind, e1, e2, e3, e4]
  exact e5

/-- The function `deleteStatement` reads the rest of a DELETE statement of the grammar. -/
theorem eats_deleteStatement {wh : List Token} {fr table semi : Token}
    (hfr : fr.type = .FROM) (htable : table.type = .IDENTIFIER) (hwh : SpecWhere wh)
    (hsemi : semi.type = .SEMICOLON) (p : Parser) (rest : List Token)
    (hd : p.tokens.drop p.current = fr :: table :: (wh ++ semi :: rest)) :
    Eats p.deleteStatement p rest := by
  obtain ⟨q1, e1, t1, d1⟩ := eats_consume hd hfr (by decide) "Expected 'FROM' after DELETE."
  obtain ⟨q2, e2, t2, d2⟩ := eats_consume d1 htable (by decide)
    "Expected table name after FROM."
  obtain ⟨q3, e3, t3, d3⟩ := eats_whereClause hwh q2 semi rest d2 hsemi
  obtain ⟨q4, e4, t4, d4⟩ := eats_consume d3 hsemi (by decide)
    "Expected ';' at the end of DELETE statement."
  refine ⟨q4, ?_, by rw [t4, t3, t2, t1], d4⟩
  unfold deleteStatement
  simp only [bind, Except.bind, e1, e2, e3]
  exact e4

/-- The function `parseColumnList` reads identifiers separated by commas and records their
columns. -/
theorem eats_parseColumnList {cols part : List Token} (h : CommaSeparated cols part)
    (hid : ∀ c ∈ cols, c.type = .IDENTIFIER) (p : Parser) (next : Token) (rest : List Token)
    (hd : p.tokens.drop p.current = part ++ next :: rest) (hnext : next.type ≠ .COMMA) :
    ∃ q, p.parseColumnList = .ok (cols.map columnOf, q) ∧ q.tokens = p.tokens ∧
      q.tokens.drop q.current = next :: rest := by
  obtain ⟨toks, start⟩ := p
  obtain ⟨c, cs, ps, hcs, hps⟩ := CommaSeparated.head h
  have hcty : c.type = .IDENTIFIER := hid c (by rw [hcs]; exact List.mem_cons_self _ _)
  have hd' : (⟨toks, start⟩ : Parser).tokens.drop (⟨toks, start⟩ : Parser).current =
      c :: (ps ++ next :: rest) := by rw [hd, hps]; rfl
  have hstar : (⟨toks, start⟩ : Parser).matchType .ASTERISK = .ok (false, ⟨toks, start⟩) :=
    matchType_unread_false hd' (by rw [hcty]; decide)
  have hloop := parseColumnListLoop_separated h toks start next rest (toks.length + 1) [] hid
    hd hnext (by have := separated_length_le h ⟨toks, start⟩ hd; simp only at this; omega)
  refine ⟨⟨toks, start + part.length⟩, ?_, rfl, drop_add_length hd⟩
  unfold parseColumnList
  simp only [bind, Except.bind, hstar, Bool.false_eq_true, if_false]
  rw [hloop]
  rfl

/-- The function `parseValueList` reads values separated by commas and records their
kinds. -/
theorem eats_parseValueList {vals part : List Token} (h : CommaSeparated vals part)
    (hv : ∀ v ∈ vals, IsValue v) (p : Parser) (next : Token) (rest : List Token)
    (hd : p.tokens.drop p.current = part ++ next :: rest) (hnext : next.type ≠ .COMMA) :
    ∃ q, p.parseValueList = .ok (vals.map Token.type, q) ∧ q.tokens = p.tokens ∧
      q.tokens.drop q.current = next :: rest := by
  obtain ⟨toks, start⟩ := p
  have hloop := parseValueListLoop_separated h toks start next rest (toks.length + 1) [] hv
    hd hnext (by have := separated_length_le h ⟨toks, start⟩ hd; simp only at this; omega)
  refine ⟨⟨toks, start + part.length⟩, ?_, rfl, drop_add_length hd⟩
  unfold parseValueList
  rw [hloop]
  rfl

/-- The type check loop passes under the proviso on the columns and values. -/
theorem checkValueTypes_proviso {cols vals : List Token} (h : InsertProviso cols vals) :
    checkValueTypes (cols.map columnOf) (vals.map Token.type) = .ok () := by
  apply checkValueTypes_ok
  intro i c v hc hv
  rw [List.getElem?_map] at hc hv
  cases hci : cols[i]? with
  | none => rw [hci] at hc; cases hc
  | some c0 =>
    cases hvi : vals[i]? with
    | none => rw [hvi] at hv; cases hv
    | some v0 =>
      rw [hci] at hc
      rw [hvi] at hv
      cases hc
      cases hv
      exact h.2 i c0 v0 hci hvi

/-- The function `insertStatement` reads the rest of an INSERT statement with a column
list, under the proviso on the columns and values. -/
theorem eats_insertStatement {cols colPart vals valPart : List Token}
    {into table lp rp values lp2 rp2 semi : Token}
    (hinto : into.type = .INTO) (htable : table.type = .IDENTIFIER)
    (hlp : lp.type = .LEFT_PAREN) (hcols : ∀ c ∈ cols, c.type = .IDENTIFIER)
    (hcp : CommaSeparated cols colPart) (hrp : rp.type = .RIGHT_PAREN)
    (hvalues : values.type = .VALUES) (hlp2 : lp2.type = .LEFT_PAREN)
    (hvals : ∀ v ∈ vals, IsValue v) (hvp : CommaSeparated vals valPart)
    (hrp2 : rp2.type = .RIGHT_PAREN) (hsemi : semi.type = .SEMICOLON)
    (hproviso : InsertProviso cols vals) (p : Parser) (rest : List Token)
    (hd : p.tokens.drop p.current =
      into :: table :: lp :: (colPart ++ rp :: values :: lp2 :: (valPart ++ rp2 :: semi :: rest))) :
    Eats p.insertStatement p rest := by
  obtain ⟨q1, e1, t1, d1⟩ := eats_consume hd hinto (by decide) "Expected 'INTO' after INSERT."
  obtain ⟨q2, e2, t2, d2⟩ := eats_consume d1 htable (by decide)
    "Expected table name after INTO."
  obtain ⟨q3, e3, t3, d3⟩ := eats_matchType d2 hlp (by decide)
  obtain ⟨q4, e4, t4, d4⟩ := eats_parseColumnList hcp hcols q3 rp _ d3 (by rw [hrp]; decide)
  obtain ⟨q5, e5, t5, d5⟩ := eats_consume d4 hrp (by decide) "Expected ')' after column list."
  obtain ⟨q6, e6, t6, d6⟩ := eats_consume d5 hvalues (by decide)
    "Expected 'VALUES' after table name or column list."
  obtain ⟨q7, e7, t7, d7⟩ := eats_consume d6 hlp2 (by decide) "Expected '(' after VALUES."
  obtain ⟨q8, e8, t8, d8⟩ := eats_parseValueList hvp hvals q7 rp2 _ d7 (by rw [hrp2]; decide)
  obtain ⟨q9, e9, t9, d9⟩ := eats_consume d8 hrp2 (by decide) "Expected ')' after value list."
  obtain ⟨q10, e10, t10, d10⟩ := eats_consume d9 hsemi (by decide)
    "Expected ';' at the end of INSERT statement."
  refine ⟨q10, ?_, by rw [t10, t9, t8, t7, t6, t5, t4, t3, t2, t1], d10⟩
  have hcount : ¬ (decide ((cols.map columnOf).length > 0) &&
      (cols.map columnOf).length != (vals.map Token.type).length) = true := by
    simp [hproviso.1]
  unfold insertStatement
  simp only [bind, Except.bind, e1, e2]
  unfold insertColumns
  simp only [bind, Except.bind, e3, if_true, e4, e5, pure, Except.pure, e6, e7, e8, e9]
  rw [if_neg hcount, checkValueTypes_proviso hproviso]
  exact e10

/-- The function `insertStatement` reads the rest of an INSERT statement without a column
list. -/
theorem eats_insertStatement_values {vals valPart : List Token}
    {into table values lp rp semi : Token}
    (hinto : into.type = .INTO) (htable : table.type = .IDENTIFIER)
    (hvalues : values.type = .VALUES) (hlp : lp.type = .LEFT_PAREN)
    (hvals : ∀ v ∈ vals, IsValue v) (hvp : CommaSeparated vals valPart)
    (hrp : rp.type = .RIGHT_PAREN) (hsemi : semi.type = .SEMICOLON)
    (p : Parser) (rest : List Token)
    (hd : p.tokens.drop p.current =
      into :: table :: values :: lp :: (valPart ++ rp :: semi :: rest)) :
    Eats p.insertStatement p rest := by
  obtain ⟨q1, e1, t1, d1⟩ := eats_consume hd hinto (by decide) "Expected 'INTO' after INSERT."
  obtain ⟨q2, e2, t2, d2⟩ := eats_consume d1 htable (by decide)
    "Expected table name after INTO."
  have e3 : q2.matchType .LEFT_PAREN = .ok (false, q2) :=
    matchType_unread_false d2 (by rw [hvalues]; decide)
  obtain ⟨q6, e6, t6, d6⟩ := eats_consume d2 hvalues (by decide)
    "Expected 'VALUES' after table name or column list."
  obtain ⟨q7, e7, t7, d7⟩ := eats_consume d6 hlp (by decide) "Expected '(' after VALUES."
  obtain ⟨q8, e8, t8, d8⟩ := eats_parseValueList hvp hvals q7 rp _ d7 (by rw [hrp]; decide)
  obtain ⟨q9, e9, t9, d9⟩ := eats_consume d8 hrp (by decide) "Expected ')' after value list."
  obtain ⟨q10, e10, t10, d10⟩ := eats_consume d9 hsemi (by decide)
    "Expected ';' at the end of INSERT statement."
  refine ⟨q10, ?_, by rw [t10, t9, t8, t7, t6, t2, t1], d10⟩
  have hcheck : checkValueTypes [] (vals.map Token.type) = .ok () :=
    checkValueTypes_ok _ _ (fun i c v hc _ => by cases hc)
  unfold insertStatement
  simp only [bind, Except.bind, e1, e2]
  unfold insertColumns
  simp only [bind, Except.bind, e3, Bool.false_eq_true, if_false, pure, Except.pure, e6, e7,
    e8, e9]
  rw [if_neg (by simp), hcheck]
  exact e10

/-- The function `statement` reads a statement of the grammar that satisfies the proviso
on INSERT. -/
theorem eats_statement (keywords : List String) {ts : List Token}
    (h : SpecStatement InsertProviso ts) (p : Parser) (rest : List Token)
    (hd : p.tokens.drop p.current = ts ++ rest) : Eats (p.statement keywords) p rest := by
  cases h with
  | select kw fr semi columns tables wh hkw hcols hfr htabs hwh hsemi =>
    have hd' : p.tokens.drop p.current =
        kw :: (columns ++ fr :: (tables ++ (wh ++ semi :: rest))) := by
      rw [hd]; simp
    obtain ⟨q1, e1, t1, d1⟩ := eats_matchType hd' hkw (by decide)
    obtain ⟨q2, e2, t2, d2⟩ := eats_selectStatement hcols hfr htabs hwh hsemi q1 rest d1
    refine ⟨q2, ?_, by rw [t2, t1], d2⟩
    unfold statement
    simp only [bind, Except.bind, e1, if_true]
    exact e2
  | insert kw into table lp rp values lp2 rp2 semi cols colPart vals valPart hkw hinto htable
      hlp hcols hcp hrp hvalues hlp2 hvals hvp hrp2 hsemi hproviso =>
    have hd' : p.tokens.drop p.current = kw :: into :: table :: lp ::
        (colPart ++ rp :: values :: lp2 :: (valPart ++ rp2 :: semi :: rest)) := by
      rw [hd]; simp
    have e0 : p.matchType .SELECT = .ok (false, p) :=
      matchType_unread_false hd' (by rw [hkw]; decide)
    obtain ⟨q1, e1, t1, d1⟩ := eats_matchType hd' hkw (by decide)
    obtain ⟨q2, e2, t2, d2⟩ := eats_insertStatement hinto htable hlp hcols hcp hrp hvalues
      hlp2 hvals hvp hrp2 hsemi hproviso q1 rest d1
    refine ⟨q2, ?_, by rw [t2, t1], d2⟩
    unfold statement
    simp only [bind, Except.bind, e0, Bool.false_eq_true, if_false, e1, if_true]
    exact e2
  | insertValues kw into table values lp rp semi vals valPart hkw hinto htable hvalues hlp
      hvals hvp hrp hsemi =>
    have hd' : p.tokens.drop p.current = kw :: into :: table :: values :: lp ::
        (valPart ++ rp :: semi :: rest) := by
      rw [hd]; simp
    have e0 : p.matchType .SELECT = .ok (false, p) :=
      matchType_unread_false hd' (by rw [hkw]; decide)
    obtain ⟨q1, e1, t1, d1⟩ := eats_matchType hd' hkw (by decide)
    obtain ⟨q2, e2, t2, d2⟩ := eats_insertStatement_values hinto htable hvalues hlp hvals hvp
      hrp hsemi q1 rest d1
    refine ⟨q2, ?_, by rw [t2, t1], d2⟩
    unfold statement
    simp only [bind, Except.bind, e0, Bool.false_eq_true, if_false, e1, if_true]
    exact e2
  | update kw table set semi assignments wh hkw htable hset hassign hwh hsemi =>
    have hd' : p.tokens.drop p.current =
        kw :: table :: set :: (assignments ++ (wh ++ semi :: rest)) := by
      rw [hd]; simp
    have e0 : p.matchType .SELECT = .ok (false, p) :=
      matchType_unread_false hd' (by rw [hkw]; decide)
    have e0' : p.matchType .INSERT = .ok (false, p) :=
      matchType_unread_false hd' (by rw [hkw]; decide)
    obtain ⟨q1, e1, t1, d1⟩ := eats_matchType hd' hkw (by decide)
    obtain ⟨q2, e2, t2, d2⟩ := eats_updateStatement htable hset hassign hwh hsemi q1 rest d1
    refine ⟨q2, ?_, by rw [t2, t1], d2⟩
    unfold statement
    simp only [bind, Except.bind, e0, e0', Bool.false_eq_true, if_false, e1, if_true]
    exact e2
  | delete kw fr table semi wh hkw hfr htable hwh hsemi =>
    have hd' : p.tokens.drop p.current = kw :: fr :: table :: (wh ++ semi :: rest) := by
      rw [hd]; simp
    have e0 : p.matchType .SELECT = .ok (false, p) :=
      matchType_unread_false hd' (by rw [hkw]; decide)
    have e0' : p.matchType .INSERT = .ok (false, p) :=
      matchType_unread_false hd' (by rw [hkw]; decide)
    have e0'' : p.matchType .UPDATE = .ok (false, p) :=
      matchType_unread_false hd' (by rw [hkw]; decide)
    obtain ⟨q1, e1, t1, d1⟩ := eats_matchType hd' hkw (by decide)
    obtain ⟨q2, e2, t2, d2⟩ := eats_deleteStatement hfr htable hwh hsemi q1 rest d1
    refine ⟨q2, ?_, by rw [t2, t1], d2⟩
    unfold statement
    simp only [bind, Except.bind, e0, e0', e0'', Bool.false_eq_true, if_false, e1, if_true]
    exact e2

/-- The function `parse` accepts a statement of the grammar, under the proviso on INSERT,
that is followed by the END_OF_FILE token. -/
theorem parse_specStatement (keywords : List String) {ts : List Token}
    (h : SpecStatement InsertProviso ts) (eof : Token) (heof : eof.type = .END_OF_FILE) :
    parse keywords ⟨ts ++ [eof], 0⟩ = .ok () := by
  obtain ⟨q, e, _, d⟩ := eats_statement keywords h ⟨ts ++ [eof], 0⟩ [eof] rfl
  unfold parse
  simp only [bind, Except.bind, e, isAtEnd_of_get (get_of_unread d), heof, beq_self_eq_true,
    Bool.not_true, Bool.false_eq_true, if_false, pure, Except.pure]

end Parser

/-! ## No grammar rule reads a NOT token -/

namespace Parser

theorem Plain.stay (p : Parser) : Plain p p :=
  ⟨rfl, le_refl _, fun _ _ h1 h2 => absurd h2 (not_lt.mpr h1)⟩

theorem Plain.then {p q r : Parser} (h1 : Plain p q) (h2 : Plain q r) : Plain p r := by
  refine ⟨h2.1.trans h1.1, le_trans h1.2.1 h2.2.1, ?_⟩
  intro i t hi hlt hget
  by_cases hq : i < q.current
  · exact h1.2.2 i t hi hq hget
  · exact h2.2.2 i t (not_lt.mp hq) hlt (by rw [h1.1]; exact hget)

theorem plain_step {p : Parser} {t : Token} (h : p.tokens[p.current]? = some t)
    (h1 : t.type ≠ .NOT) (h2 : t.type ≠ .SEMICOLON) : Plain p ⟨p.tokens, p.current + 1⟩ := by
  refine ⟨rfl, Nat.le_succ _, ?_⟩
  intro i t' hi hlt hget
  have : i = p.current := by
    have : i < p.current + 1 := hlt
    omega
  subst this
  rw [h] at hget
  cases hget
  exact ⟨h1, h2⟩

theorem consume_plain {p q : Parser} {type : TokenType} {message : String}
    (h : p.consume type message = .ok q) (h1 : type ≠ .NOT) (h2 : type ≠ .SEMICOLON) :
    Plain p q := by
  obtain ⟨rfl, t, ht, hty, _⟩ := consume_ok h
  exact plain_step ht (hty ▸ h1) (hty ▸ h2)

theorem matchType_plain {p : Parser} {type : TokenType} {r : Bool × Parser}
    (h : p.matchType type = .ok r) (h1 : type ≠ .NOT) (h2 : type ≠ .SEMICOLON) :
    Plain p r.2 := by
  rcases matchType_ok h with ⟨rfl, t, ht, hty, _⟩ | ⟨rfl, _⟩
  · exact plain_step ht (hty ▸ h1) (hty ▸ h2)
  · exact Plain.stay _

theorem matchAny_plain (types : List TokenType) {p : Parser} {r : Bool × Parser}
    (h : p.matchAny types = .ok r) (h1 : TokenType.NOT ∉ types)
    (h2 : TokenType.SEMICOLON ∉ types) : Plain p r.2 := by
  induction types generalizing p with
  | nil => cases h; exact Plain.stay _
  | cons type types ih =>
    unfold matchAny at h
    obtain ⟨r1, e1, h⟩ := bind_ok h
    have r1 := matchType_plain e1 (fun e => h1 (e ▸ List.mem_cons_self _ _))
      (fun e => h2 (e ▸ List.mem_cons_self _ _))
    split at h
    · cases h; exact r1
    · exact r1.then (ih h (fun h' => h1 (List.mem_cons_of_mem _ h'))
        (fun h' => h2 (List.mem_cons_of_mem _ h')))

theorem columnListLoop_plain (fuel : Nat) {p q : Parser}
    (h : columnListLoop fuel p = .ok q) : Plain p q := by
  induction fuel generalizing p with
  | zero => cases h
  | succ fuel ih =>
    unfold columnListLoop at h
    obtain ⟨p1, h1, h⟩ := bind_ok h
    obtain ⟨r, h2, h⟩ := bind_ok h
    have h12 := (consume_plain h1 (by decide) (by decide)).then
      (matchType_plain h2 (by decide) (by decide))
    split at h
    · exact h12.then (ih h)
    · cases h; exact h12

theorem columnList_plain {p q : Parser} (h : p.columnList = .ok q) : Plain p q := by
  unfold columnList at h
  obtain ⟨r, h1, h⟩ := bind_ok h
  have r1 := matchType_plain h1 (by decide) (by decide)
  split at h
  · cases h; exact r1
  · exact r1.then (columnListLoop_plain _ h)

theorem parseColumnListLoop_plain (fuel : Nat) {p : Parser} {columns : List Column}
    {r : List Column × Parser} (h : parseColumnListLoop fuel p columns = .ok r) :
    Plain p r.2 := by
  induction fuel generalizing p columns with
  | zero => cases h
  | succ fuel ih =>
    unfold parseColumnListLoop at h
    obtain ⟨t, _, h⟩ := bind_ok h
    obtain ⟨p1, h1, h⟩ := bind_ok h
    obtain ⟨m, h2, h⟩ := bind_ok h
    have h12 := (consume_plain h1 (by decide) (by decide)).then
      (matchType_plain h2 (by decide) (by decide))
    split at h
    · exact h12.then (ih h)
    · cases h; exact h12

theorem parseColumnList_plain {p : Parser} {r : List Column × Parser}
    (h : p.parseColumnList = .ok r) : Plain p r.2 := by
  unfold parseColumnList at h
  obtain ⟨m, h1, h⟩ := bind_ok h
  have r1 := matchType_plain h1 (by decide) (by decide)
  split at h
  · cases h; exact r1
  · exact r1.then (parseColumnListLoop_plain _ h)

theorem tableListLoop_plain (fuel : Nat) {p q : Parser}
    (h : tableListLoop fuel p = .ok q) : Plain p q := by
  induction fuel generalizing p with
  | zero => cases h
  | succ fuel ih =>
    unfold tableListLoop at h
    obtain ⟨p1, h1, h⟩ := bind_ok h
    obtain ⟨r, h2, h⟩ := bind_ok h
    have h12 := (consume_plain h1 (by decide) (by decide)).then
      (matchType_plain h2 (by decide) (by decide))
    split at h
    · exact h12.then (ih h)
    · cases h; exact h12

theorem parseValue_plain {p : Parser} {valueTypes : List TokenType}
    {s : List TokenType × Parser} (hs : p.parseValue valueTypes = .ok s) : Plain p s.2 := by
  unfold parseValue at hs
  obtain ⟨m1, h1, hs⟩ := bind_ok hs
  have r1 := matchType_plain h1 (by decide) (by decide)
  split at hs
  · cases hs; exact r1
  · obtain ⟨m2, h2, hs⟩ := bind_ok hs
    have r2 := r1.then (matchType_plain h2 (by decide) (by decide))
    split at hs
    · cases hs; exact r2
    · obtain ⟨m3, h3, hs⟩ := bind_ok hs
      have r3 := r2.then (matchType_plain h3 (by decide) (by decide))
      split at hs
      · cases hs; exact r3
      · cases hs

theorem parseValueListLoop_plain (fuel : Nat) {p : Parser} {valueTypes : List TokenType}
    {r : List TokenType × Parser} (h : parseValueListLoop fuel p valueTypes = .ok r) :
    Plain p r.2 := by
  induction fuel generalizing p valueTypes with
  | zero => cases h
  | succ fuel ih =>
    unfold parseValueListLoop at h
    obtain ⟨s, hs, h⟩ := bind_ok h
    obtain ⟨m4, h4, h⟩ := bind_ok h
    have h14 := (parseValue_plain hs).then (matchType_plain h4 (by decide) (by decide))
    split at h
    · exact h14.then (ih h)
    · cases h; exact h14

theorem assignmentListLoop_plain (fuel : Nat) {p q : Parser}
    (h : assignmentListLoop fuel p = .ok q) : Plain p q := by
  induction fuel generalizing p with
  | zero => cases h
  | succ fuel ih =>
    unfold assignmentListLoop at h
    obtain ⟨p1, h1, h⟩ := bind_ok h
    obtain ⟨p2, h2, h⟩ := bind_ok h
    obtain ⟨m, h3, h⟩ := bind_ok h
    split at h
    · cases h
    · obtain ⟨m', h4, h⟩ := bind_ok h
      have h14 := (((consume_plain h1 (by decide) (by decide)).then
        (consume_plain h2 (by decide) (by decide))).then
        (matchAny_plain _ h3 (by decide) (by decide))).then
        (matchType_plain h4 (by decide) (by decide))
      split at h
      · exact h14.then (ih h)
      · cases h; exact h14

theorem term_plain {p q : Parser} (h : p.term = .ok q) : Plain p q := by
  unfold term at h
  obtain ⟨p1, h1, h⟩ := bind_ok h
  obtain ⟨m, h2, h⟩ := bind_ok h
  split at h
  · cases h
  · obtain ⟨m', h3, h⟩ := bind_ok h
    split at h
    · cases h
    · cases h
      exact ((consume_plain h1 (by decide) (by decide)).then
        (matchAny_plain _ h2 (by decide) (by decide))).then
        (matchAny_plain _ h3 (by decide) (by decide))

theorem expressionLoop_plain (fuel : Nat) {p q : Parser}
    (h : expressionLoop fuel p = .ok q) : Plain p q := by
  induction fuel generalizing p with
  | zero => cases h
  | succ fuel ih =>
    unfold expressionLoop at h
    obtain ⟨m, h1, h⟩ := bind_ok h
    have r1 := matchAny_plain _ h1 (by decide) (by decide)
    split at h
    · obtain ⟨p2, h2, h⟩ := bind_ok h
      exact (r1.then (term_plain h2)).then (ih h)
    · cases h; exact r1

theorem condition_plain {p q : Parser} (h : p.condition = .ok q) : Plain p q := by
  unfold condition expression at h
  obtain ⟨p1, h1, h⟩ := bind_ok h
  exact (term_plain h1).then (expressionLoop_plain _ h)

theorem whereClause_plain {p q : Parser} (h : p.whereClause = .ok q) : Plain p q := by
  unfold whereClause at h
  obtain ⟨r, h1, h⟩ := bind_ok h
  have r1 := matchType_plain h1 (by decide) (by decide)
  split at h
  · exact r1.then (condition_plain h)
  · cases h; exact r1

theorem insertColumns_plain {p : Parser} {cp : List Column × Parser}
    (h : p.insertColumns = .ok cp) : Plain p cp.2 := by
  unfold insertColumns at h
  obtain ⟨r, h1, h⟩ := bind_ok h
  have r1 := matchType_plain h1 (by decide) (by decide)
  split at h
  · obtain ⟨cs, hc1, h⟩ := bind_ok h
    obtain ⟨pc, hc2, h⟩ := bind_ok h
    cases h
    exact (r1.then (parseColumnList_plain hc1)).then (consume_plain hc2 (by decide) (by decide))
  · cases h; exact r1

theorem consume_semicolon_plain {p m q : Parser} {message : String} (hr : Plain p m)
    (h : m.consume .SEMICOLON message = .ok q) : PlainThenSemicolon p q := by
  obtain ⟨rfl, s, hs, hty, _⟩ := consume_ok h
  exact ⟨m, hr, rfl, s, hs, hty⟩

theorem selectStatement_plain {p q : Parser} (h : p.selectStatement = .ok q) :
    PlainThenSemicolon p q := by
  unfold selectStatement at h
  obtain ⟨p1, h1, h⟩ := bind_ok h
  obtain ⟨p2, h2, h⟩ := bind_ok h
  obtain ⟨p3, h3, h⟩ := bind_ok h
  obtain ⟨p5, h5, h⟩ := bind_ok h
  exact consume_semicolon_plain ((((columnList_plain h1).then
    (consume_plain h2 (by decide) (by decide))).then
    (tableListLoop_plain _ h3)).then (whereClause_plain h5)) h

theorem updateStatement_plain {p q : Parser} (h : p.updateStatement = .ok q) :
    PlainThenSemicolon p q := by
  unfold updateStatement at h
  obtain ⟨p1, h1, h⟩ := bind_ok h
  obtain ⟨p2, h2, h⟩ := bind_ok h
  obtain ⟨p3, h3, h⟩ := bind_ok h
  obtain ⟨p5, h5, h⟩ := bind_ok h
  exact consume_semicolon_plain ((((consume_plain h1 (by decide) (by decide)).then
    (consume_plain h2 (by decide) (by decide))).then
    (assignmentListLoop_plain _ h3)).then (whereClause_plain h5)) h

theorem deleteStatement_plain {p q : Parser} (h : p.deleteStatement = .ok q) :
    PlainThenSemicolon p q := by
  unfold deleteStatement at h
  obtain ⟨p1, h1, h⟩ := bind_ok h
  obtain ⟨p2, h2, h⟩ := bind_ok h
  obtain ⟨p5, h5, h⟩ := bind_ok h
  exact consume_semicolon_plain (((consume_plain h1 (by decide) (by decide)).then
    (consume_plain h2 (by decide) (by decide))).then (whereClause_plain h5)) h

theorem insertStatement_plain {p q : Parser} (h : p.insertStatement = .ok q) :
    PlainThenSemicolon p q := by
  unfold insertStatement at h
  obtain ⟨p1, h1, h⟩ := bind_ok h
  obtain ⟨p2, h2, h⟩ := bind_ok h
  obtain ⟨cp, h4, h⟩ := bind_ok h
  obtain ⟨p5, h5, h⟩ := bind_ok h
  obtain ⟨p6, h6, h⟩ := bind_ok h
  obtain ⟨vs, h7, h⟩ := bind_ok h
  obtain ⟨p8, h8, h⟩ := bind_ok h
  split at h
  · cases h
  · obtain ⟨u, _, h⟩ := bind_ok h
    exact consume_semicolon_plain (((((((consume_plain h1 (by decide) (by decide)).then
      (consume_plain h2 (by decide) (by decide))).then
      (insertColumns_plain h4)).then (consume_plain h5 (by decide) (by decide))).then
      (consume_plain h6 (by decide) (by decide))).then (parseValueListLoop_plain _ h7)).then
      (consume_plain h8 (by decide) (by decide))) h

/-- A statement that parses has read tokens that are neither NOT nor SEMICOLON, and then
its terminating `;`. -/
theorem statement_plain {keywords : List String} {p q : Parser}
    (h : p.statement keywords = .ok q) : PlainThenSemicolon p q := by
  have lift : ∀ {a b : Parser}, Plain p a → PlainThenSemicolon a b → PlainThenSemicolon p b :=
    fun hr he => by
      obtain ⟨m, hm, hq, hs⟩ := he
      exact ⟨m, hr.then hm, hq, hs⟩
  unfold statement at h
  obtain ⟨m1, h1, h⟩ := bind_ok h
  have r1 := matchType_plain h1 (by decide) (by decide)
  split at h
  · exact lift r1 (selectStatement_plain h)
  · obtain ⟨m2, h2, h⟩ := bind_ok h
    have r2 := r1.then (matchType_plain h2 (by decide) (by decide))
    split at h
    · exact lift r2 (insertStatement_plain h)
    · obtain ⟨m3, h3, h⟩ := bind_ok h
      have r3 := r2.then (matchType_plain h3 (by decide) (by decide))
      split at h
      · exact lift r3 (updateStatement_plain h)
      · obtain ⟨m4, h4, h⟩ := bind_ok h
        have r4 := r3.then (matchType_plain h4 (by decide) (by decide))
        split at h
        · exact lift r4 (deleteStatement_plain h)
        · exfalso
          rcases unknownStatement_throws keywords m4.2 with ⟨w, hw⟩ | hw <;>
            rw [hw] at h <;> cases h

/-- With a NOT token before the first SEMICOLON token, `statement` does not return. -/
theorem statement_not (keywords : List String) (pre post : List Token) (t : Token)
    (ht : t.type = .NOT) (hpre : ∀ x ∈ pre, x.type ≠ .SEMICOLON) (q : Parser) :
    statement keywords ⟨pre ++ t :: post, 0⟩ ≠ .ok q := by
  intro h
  obtain ⟨m, ⟨htok, _, hplain⟩, -, s, hs, hsty⟩ := statement_plain h
  simp only at htok hplain
  rw [htok] at hs
  have hget : (pre ++ t :: post)[pre.length]? = some t := by
    rw [List.getElem?_append_right (le_refl _)]
    simp
  rcases Nat.lt_trichotomy pre.length m.current with hlt | heq | hgt
  · exact (hplain pre.length t (Nat.zero_le _) hlt hget).1 ht
  · rw [← heq, hget] at hs
    cases hs
    rw [ht] at hsty
    cases hsty
  · rw [List.getElem?_append_left hgt] at hs
    exact hpre s (List.getElem?_mem hs) hsty

/-- With a NOT token before the first SEMICOLON token, `parse` does not succeed. -/
theorem parse_not (keywords : List String) (pre post : List Token) (t : Token)
    (ht : t.type = .NOT) (hpre : ∀ x ∈ pre, x.type ≠ .SEMICOLON) :
    parse keywords ⟨pre ++ t :: post, 0⟩ ≠ .ok () := by
  intro h
  unfold parse at h
  obtain ⟨q, hq, -⟩ := bind_ok h
  exact statement_not keywords pre post t ht hpre q hq

/-- On a well-formed token vector with a NOT token before the first SEMICOLON token,
`parse` throws a `std::runtime_error`. -/
theorem parse_not_throws (keywords : List String) (pre post : List Token) (t : Token)
    (ht : t.type = .NOT) (hpre : ∀ x ∈ pre, x.type ≠ .SEMICOLON)
    (hwf : WellFormed (pre ++ t :: post)) :
    ∃ what, parse keywords ⟨pre ++ t :: post, 0⟩ = .error (.runtime_error what) := by
  have h1 := parse_not keywords pre post t ht hpre
  have h2 := parse_fuel keywords ⟨pre ++ t :: post, 0⟩
  have h3 := parse_safe keywords (p := ⟨pre ++ t :: post, 0⟩) ⟨hwf, by simp⟩
  cases hp : parse keywords ⟨pre ++ t :: post, 0⟩ with
  | ok u => exact absurd hp h1
  | error e =>
    cases e with
    | runtime_error what => exact ⟨what, rfl⟩
    | undefined => exact absurd hp h3
    | out_of_fuel => exact absurd hp h2

/-- With a SELECT token at the cursor, `statement` runs `selectStatement` behind it. -/
theorem statement_of_select (keywords : List String) {p : Parser} {t : Token}
    (h : p.tokens[p.current]? = some t) (ht : t.type = .SELECT) :
    p.statement keywords = selectStatement ⟨p.tokens, p.current + 1⟩ := by
  unfold statement
  simp [matchType_of_get h, ht, bind, Except.bind]

end Parser

namespace Lexer

theorem isalpha_of_toupper {x : Char} (h : isalpha (toupper x) = true) : isalpha x = true := by
  unfold toupper at h
  split at h
  · next hx =>
    unfold isalpha
    simp only [Bool.and_eq_true, decide_eq_true_eq] at hx
    simp [hx.1, hx.2]
  · exact h

/-- A word is tokenized as one identifier-or-keyword token followed by END_OF_FILE. -/
theorem tokenize_word (c : Char) (r : List Char) (hc : (isalpha c || c == '_') = true)
    (hr : ∀ x ∈ r, (isalnum x || x == '_') = true) :
    tokenize (String.mk (c :: r)) =
      .ok [⟨specKeywordKind (String.mk ((c :: r).map toupper)), String.mk (c :: r)⟩,
        ⟨.END_OF_FILE, ""⟩] := by
  have hs := scan_word c r hc hr
  unfold tokenize
  have hlen : (String.mk (c :: r)).data.length + 1 = r.length + 1 + 1 := rfl
  rw [hlen, tokenizeLoop_step (show scan (List.drop 0 _) = _ from hs)]
  · have hdrop : (c :: r).drop (0 + (r.length + 1)) = [] := by
      apply List.drop_eq_nil_iff.mpr
      simp
    rw [tokenizeLoop_eof (t := ⟨.END_OF_FILE, ""⟩) (n := 0) (by rw [hdrop]; rfl) rfl]
    rfl
  · exact specKeywordKind_ne_eof _

/-- The word NOT, in any casing, is tokenized as one NOT token. -/
theorem tokenize_not (w : String) (h : w.data.map toupper = ['N', 'O', 'T']) :
    tokenize w = .ok [⟨.NOT, w⟩, ⟨.END_OF_FILE, ""⟩] := by
  obtain ⟨data⟩ := w
  rcases data with _ | ⟨a, _ | ⟨b, _ | ⟨c, _ | ⟨d, l⟩⟩⟩⟩ <;>
    simp only [List.map_nil, List.map_cons, List.cons.injEq, and_true, and_false,
      reduceCtorEq] at h
  obtain ⟨ha, hb, hc⟩ := h
  have ha' : isalpha a = true := isalpha_of_toupper (by rw [ha]; decide)
  have hb' : isalpha b = true := isalpha_of_toupper (by rw [hb]; decide)
  have hc' : isalpha c = true := isalpha_of_toupper (by rw [hc]; decide)
  have hw := tokenize_word a [b, c] (by simp [ha']) (by
    intro x hx
    simp only [List.mem_cons, List.mem_singleton, List.not_mem_nil, or_false] at hx
    rcases hx with rfl | rfl
    · simp [isalnum, hb']
    · simp [isalnum, hc'])
  rw [hw]
  simp only [List.map_cons, List.map_nil, ha, hb, hc]
  rfl

end Lexer

namespace SQLValidator

/-- The validator rejects an input whose tokens have a NOT token before the first
SEMICOLON token. -/
theorem validate_not (keywords : List String) (sql : String) (pre post : List Token)
    (t : Token) (htok : Lexer.tokenize sql = .ok (pre ++ t :: post)) (ht : t.type = .NOT)
    (hpre : ∀ x ∈ pre, x.type ≠ .SEMICOLON) : validate keywords sql = .ok false := by
  have hwf : WellFormed (pre ++ t :: post) := by
    obtain ⟨mid, last, h1, h2, h3⟩ := Lexer.tokenizeLoop_shape _ _ _ _ htok
    exact ⟨mid, last, by simpa using h1, h2, h3⟩
  obtain ⟨what, hp⟩ := Parser.parse_not_throws keywords pre post t ht hpre hwf
  unfold validate run
  simp only [htok, bind, Except.bind, hp]

/-- The input `SELECT * FROM t WHERE NOT a = 1;` fails in `term`. -/
theorem run_where_not (keywords : List String) :
    run keywords "SELECT * FROM t WHERE NOT a = 1;" =
      .error (.runtime_error "Expected column name in condition.") := by
  have htok : Lexer.tokenize "SELECT * FROM t WHERE NOT a = 1;" =
      .ok [⟨.SELECT, "SELECT"⟩, ⟨.ASTERISK, "*"⟩, ⟨.FROM, "FROM"⟩, ⟨.IDENTIFIER, "t"⟩,
        ⟨.WHERE, "WHERE"⟩, ⟨.NOT, "NOT"⟩, ⟨.IDENTIFIER, "a"⟩, ⟨.EQUAL, "="⟩, ⟨.NUMBER, "1"⟩,
        ⟨.SEMICOLON, ";"⟩, ⟨.END_OF_FILE, ""⟩] := by decide
  have hsel : Parser.selectStatement
      ⟨[⟨.SELECT, "SELECT"⟩, ⟨.ASTERISK, "*"⟩, ⟨.FROM, "FROM"⟩, ⟨.IDENTIFIER, "t"⟩,
        ⟨.WHERE, "WHERE"⟩, ⟨.NOT, "NOT"⟩, ⟨.IDENTIFIER, "a"⟩, ⟨.EQUAL, "="⟩, ⟨.NUMBER, "1"⟩,
        ⟨.SEMICOLON, ";"⟩, ⟨.END_OF_FILE, ""⟩], 0 + 1⟩ =
      .error (.runtime_error "Expected column name in condition.") := by decide
  have hst : Parser.statement keywords
      ⟨[⟨.SELECT, "SELECT"⟩, ⟨.ASTERISK, "*"⟩, ⟨.FROM, "FROM"⟩, ⟨.IDENTIFIER, "t"⟩,
        ⟨.WHERE, "WHERE"⟩, ⟨.NOT, "NOT"⟩, ⟨.IDENTIFIER, "a"⟩, ⟨.EQUAL, "="⟩, ⟨.NUMBER, "1"⟩,
        ⟨.SEMICOLON, ";"⟩, ⟨.END_OF_FILE, ""⟩], 0⟩ =
      .error (.runtime_error "Expected column name in condition.") := by
    rw [← hsel]
    exact Parser.statement_of_select keywords (t := ⟨.SELECT, "SELECT"⟩) rfl rfl
  unfold run
  simp only [htok, bind, Except.bind]
  unfold Parser.parse
  simp only [hst, bind, Except.bind]

end SQLValidator

/-! ## The types and kinds that reach the type check of INSERT -/

namespace Parser

theorem parseColumnListLoop_types (fuel : Nat) {p : Parser} {columns : List Column}
    {r : List Column × Parser} (h : parseColumnListLoop fuel p columns = .ok r)
    (hacc : ∀ c ∈ columns, c.type = inferDataTypeFromColumnName c.name) :
    ∀ c ∈ r.1, c.type = inferDataTypeFromColumnName c.name := by
  induction fuel generalizing p columns with
  | zero => cases h
  | succ fuel ih =>
    unfold parseColumnListLoop at h
    obtain ⟨t, _, h⟩ := bind_ok h
    obtain ⟨p1, h1, h⟩ := bind_ok h
    obtain ⟨m, h2, h⟩ := bind_ok h
    have hacc' : ∀ c ∈ columns ++ [Column.mk t.lexeme (inferDataTypeFromColumnName t.lexeme)],
        c.type = inferDataTypeFromColumnName c.name := by
      intro c hc
      rcases List.mem_append.mp hc with hc | hc
      · exact hacc c hc
      · rw [List.mem_singleton.mp hc]
    split at h
    · exact ih h hacc'
    · cases h; exact hacc'

/-- Every column that `parseColumnList` records has the type inferred from its name. -/
theorem parseColumnList_types {p : Parser} {r : List Column × Parser}
    (h : p.parseColumnList = .ok r) :
    ∀ c ∈ r.1, c.type = inferDataTypeFromColumnName c.name := by
  unfold parseColumnList at h
  obtain ⟨m, h1, h⟩ := bind_ok h
  split at h
  · cases h
    intro c hc
    rw [List.mem_singleton.mp hc]
    decide
  · exact parseColumnListLoop_types _ h (fun c hc => absurd hc (List.not_mem_nil c))

/-- Every column that `insertStatement` gets has the type inferred from its name. -/
theorem insertColumns_types {p : Parser} {cp : List Column × Parser}
    (h : p.insertColumns = .ok cp) :
    ∀ c ∈ cp.1, c.type = inferDataTypeFromColumnName c.name := by
  unfold insertColumns at h
  obtain ⟨r, h1, h⟩ := bind_ok h
  split at h
  · obtain ⟨cs, hc1, h⟩ := bind_ok h
    obtain ⟨pc, hc2, h⟩ := bind_ok h
    cases h
    exact parseColumnList_types (r := cs) hc1
  · cases h
    exact fun c hc => absurd hc (List.not_mem_nil c)

theorem parseValue_kinds {p : Parser} {valueTypes : List TokenType}
    {s : List TokenType × Parser} (hs : p.parseValue valueTypes = .ok s)
    (hacc : ∀ v ∈ valueTypes, v = .STRING_LITERAL ∨ v = .NUMBER ∨ v = .IDENTIFIER) :
    ∀ v ∈ s.1, v = .STRING_LITERAL ∨ v = .NUMBER ∨ v = .IDENTIFIER := by
  have add : ∀ k : TokenType, (k = .STRING_LITERAL ∨ k = .NUMBER ∨ k = .IDENTIFIER) →
      ∀ v ∈ valueTypes ++ [k], v = .STRING_LITERAL ∨ v = .NUMBER ∨ v = .IDENTIFIER := by
    intro k hk v hv
    rcases List.mem_append.mp hv with hv | hv
    · exact hacc v hv
    · rw [List.mem_singleton.mp hv]; exact hk
  unfold parseValue at hs
  obtain ⟨m1, h1, hs⟩ := bind_ok hs
  split at hs
  · cases hs; exact add _ (Or.inl rfl)
  · obtain ⟨m2, h2, hs⟩ := bind_ok hs
    split at hs
    · cases hs; exact add _ (Or.inr (Or.inl rfl))
    · obtain ⟨m3, h3, hs⟩ := bind_ok hs
      split at hs
      · cases hs; exact add _ (Or.inr (Or.inr rfl))
      · cases hs

theorem parseValueListLoop_kinds (fuel : Nat) {p : Parser} {valueTypes : List TokenType}
    {r : List TokenType × Parser} (h : parseValueListLoop fuel p valueTypes = .ok r)
    (hacc : ∀ v ∈ valueTypes, v = .STRING_LITERAL ∨ v = .NUMBER ∨ v = .IDENTIFIER) :
    ∀ v ∈ r.1, v = .STRING_LITERAL ∨ v = .NUMBER ∨ v = .IDENTIFIER := by
  induction fuel generalizing p valueTypes with
  | zero => cases h
  | succ fuel ih =>
    unfold parseValueListLoop at h
    obtain ⟨s, hs, h⟩ := bind_ok h
    obtain ⟨m4, h4, h⟩ := bind_ok h
    have hs' := parseValue_kinds hs hacc
    split at h
    · exact ih h hs'
    · cases h; exact hs'

/-- Every value kind that `parseValueList` records is STRING_LITERAL, NUMBER or
IDENTIFIER. -/
theorem parseValueList_kinds {p : Parser} {r : List TokenType × Parser}
    (h : p.parseValueList = .ok r) :
    ∀ v ∈ r.1, v = .STRING_LITERAL ∨ v = .NUMBER ∨ v = .IDENTIFIER :=
  parseValueListLoop_kinds _ h (fun v hv => absurd hv (List.not_mem_nil v))

theorem forM_ok_all (f : Nat → Except Failure Unit) (l : List Nat)
    (h : l.forM f = .ok ()) : ∀ i ∈ l, f i = .ok () := by
  induction l with
  | nil => exact fun i hi => absurd hi (List.not_mem_nil i)
  | cons a l ih =>
    have step : (a :: l).forM f = (f a >>= fun _ => l.forM f) := rfl
    rw [step] at h
    obtain ⟨u, hu, h⟩ := bind_ok h
    intro i hi
    rcases List.mem_cons.mp hi with rfl | hi
    · exact hu
    · exact ih h i hi

/-- For an inferred column type and a value kind that `parseValueList` records, the
compatibility test fails in two situations only. -/
theorem invalid_iff_clash {v : TokenType} {ty : DataType}
    (hv : v = .STRING_LITERAL ∨ v = .NUMBER ∨ v = .IDENTIFIER)
    (hty : ty = .STRING ∨ ty = .NUMBER ∨ ty = .UNKNOWN) :
    isValueTypeValid v ty = false ↔
      (v = .NUMBER ∧ ty = .STRING) ∨ (v = .STRING_LITERAL ∧ ty = .NUMBER) := by
  rcases hv with rfl | rfl | rfl <;> rcases hty with rfl | rfl | rfl <;> decide

/-- The type check loop of `insertStatement`, on inferred column types and recorded value
kinds, fails exactly when some position pairs a NUMBER value with a STRING column or a
STRING_LITERAL value with a NUMBER column. -/
theorem checkValueTypes_fails_iff (columns : List Column) (valueTypes : List TokenType)
    (hcols : ∀ c ∈ columns, c.type = inferDataTypeFromColumnName c.name)
    (hvals : ∀ v ∈ valueTypes, v = .STRING_LITERAL ∨ v = .NUMBER ∨ v = .IDENTIFIER) :
    checkValueTypes columns valueTypes ≠ .ok () ↔
      ∃ (i : Nat) (c : Column) (v : TokenType), columns[i]? = some c ∧
        valueTypes[i]? = some v ∧
        ((v = .NUMBER ∧ c.type = .STRING) ∨ (v = .STRING_LITERAL ∧ c.type = .NUMBER)) := by
  have hty : ∀ c ∈ columns, c.type = .STRING ∨ c.type = .NUMBER ∨ c.type = .UNKNOWN :=
    fun c hc => by rw [hcols c hc]; exact infer_is_string_number_unknown _
  constructor
  · intro hne
    by_contra hno
    apply hne
    apply checkValueTypes_ok
    intro i c v hc hv
    by_contra hbad
    have hbad' : isValueTypeValid v c.type = false := by simpa using hbad
    exact hno ⟨i, c, v, hc, hv,
      (invalid_iff_clash (hvals v (List.getElem?_mem hv)) (hty c (List.getElem?_mem hc))).mp
        hbad'⟩
  · rintro ⟨i, c, v, hc, hv, hclash⟩ hok
    have hbad : isValueTypeValid v c.type = false :=
      (invalid_iff_clash (hvals v (List.getElem?_mem hv)) (hty c (List.getElem?_mem hc))).mpr
        hclash
    have hic : i < columns.length := by
      by_contra hge
      rw [List.getElem?_eq_none (not_lt.mp hge)] at hc
      cases hc
    have hiv : i < valueTypes.length := by
      by_contra hge
      rw [List.getElem?_eq_none (not_lt.mp hge)] at hv
      cases hv
    unfold checkValueTypes at hok
    have := forM_ok_all _ _ hok i (List.mem_range.mpr (lt_min hic hiv))
    simp [hc, hv, hbad, throw, throwThe, MonadExceptOf.throw] at this

end Parser

/-! ## The claims -/

/-- C1: the four example statements of the specification are accepted by
`SQLValidator::validate`, whatever the order in which the keyword spellings are listed. -/
theorem C1_examples_accepted (keywords : List String) :
    SQLValidator.validate keywords "SELECT * FROM users;" = .ok true ∧
    SQLValidator.validate keywords "SELECT id, name FROM users WHERE age > 18;" = .ok true ∧
    SQLValidator.validate keywords "DELETE FROM users WHERE id = 5;" = .ok true ∧
    SQLValidator.validate keywords "UPDATE users SET name = 'Bob' WHERE id = 1;" = .ok true :=
  ⟨SQLValidator.validate_true_keywords keywordNames keywords _ (by decide),
   SQLValidator.validate_true_keywords keywordNames keywords _ (by decide),
   SQLValidator.validate_true_keywords keywordNames keywords _ (by decide),
   SQLValidator.validate_true_keywords keywordNames keywords _ (by decide)⟩

/-- C10 (the code breaks the claim): `Parser::parse` lets tokens stand after the
statement's terminating `;`. On `SELECT * FROM t;; x y z` the statement ends behind the
first `;` (cursor 5), the token at the cursor is a second SEMICOLON and not END_OF_FILE,
three identifiers follow it, and yet `parse` succeeds and `SQLValidator::validate`
returns true. In general `parse` succeeds whenever the statement parses and a SEMICOLON
token follows it, whatever comes after. The guard does reject any other token after the
statement, a second statement included: `SELECT * FROM t; SELECT * FROM u;` fails with
"Unexpected tokens after statement.". -/
theorem C10_tokens_after_statement_accepted (keywords : List String) :
    Lexer.tokenize "SELECT * FROM t;; x y z" =
      .ok [⟨.SELECT, "SELECT"⟩, ⟨.ASTERISK, "*"⟩, ⟨.FROM, "FROM"⟩, ⟨.IDENTIFIER, "t"⟩,
        ⟨.SEMICOLON, ";"⟩, ⟨.SEMICOLON, ";"⟩, ⟨.IDENTIFIER, "x"⟩, ⟨.IDENTIFIER, "y"⟩,
        ⟨.IDENTIFIER, "z"⟩, ⟨.END_OF_FILE, ""⟩] ∧
    Parser.statement keywords
        ⟨[⟨.SELECT, "SELECT"⟩, ⟨.ASTERISK, "*"⟩, ⟨.FROM, "FROM"⟩, ⟨.IDENTIFIER, "t"⟩,
          ⟨.SEMICOLON, ";"⟩, ⟨.SEMICOLON, ";"⟩, ⟨.IDENTIFIER, "x"⟩, ⟨.IDENTIFIER, "y"⟩,
          ⟨.IDENTIFIER, "z"⟩, ⟨.END_OF_FILE, ""⟩], 0⟩ =
      .ok ⟨[⟨.SELECT, "SELECT"⟩, ⟨.ASTERISK, "*"⟩, ⟨.FROM, "FROM"⟩, ⟨.IDENTIFIER, "t"⟩,
          ⟨.SEMICOLON, ";"⟩, ⟨.SEMICOLON, ";"⟩, ⟨.IDENTIFIER, "x"⟩, ⟨.IDENTIFIER, "y"⟩,
          ⟨.IDENTIFIER, "z"⟩, ⟨.END_OF_FILE, ""⟩], 5⟩ ∧
    SQLValidator.run keywords "SELECT * FROM t;; x y z" = .ok () ∧
    SQLValidator.validate keywords "SELECT * FROM t;; x y z" = .ok true ∧
    SQLValidator.validate keywords "SELECT * FROM t;;" = .ok true ∧
    (∀ (p q : Parser) (t : Token), p.statement keywords = .ok q →
      q.tokens[q.current]? = some t → t.type = .SEMICOLON → p.parse keywords = .ok ()) ∧
    (∀ (p q : Parser) (t : Token), p.statement keywords = .ok q →
      q.tokens[q.current]? = some t → t.type ≠ .END_OF_FILE → t.type ≠ .SEMICOLON →
      p.parse keywords = .error (.runtime_error "Unexpected tokens after statement.")) ∧
    SQLValidator.run keywords "SELECT * FROM t; SELECT * FROM u;" =
      .error (.runtime_error "Unexpected tokens after statement.") := by
  have hguard : ∀ (p q : Parser) (t : Token), p.statement keywords = .ok q →
      q.tokens[q.current]? = some t → t.type = .SEMICOLON → p.parse keywords = .ok () := by
    intro p q t hs hg ht
    unfold Parser.parse
    simp [hs, Parser.isAtEnd_of_get hg, Parser.peek_of_get hg, bind, Except.bind, pure,
      Except.pure, ht]
  have hreject : ∀ (p q : Parser) (t : Token), p.statement keywords = .ok q →
      q.tokens[q.current]? = some t → t.type ≠ .END_OF_FILE → t.type ≠ .SEMICOLON →
      p.parse keywords = .error (.runtime_error "Unexpected tokens after statement.") := by
    intro p q t hs hg h1 h2
    unfold Parser.parse
    simp [hs, Parser.isAtEnd_of_get hg, Parser.peek_of_get hg, bind, Except.bind, pure,
      Except.pure, h1, h2, throw, throwThe, MonadExceptOf.throw]
  have htok : Lexer.tokenize "SELECT * FROM t;; x y z" =
      .ok [⟨.SELECT, "SELECT"⟩, ⟨.ASTERISK, "*"⟩, ⟨.FROM, "FROM"⟩, ⟨.IDENTIFIER, "t"⟩,
        ⟨.SEMICOLON, ";"⟩, ⟨.SEMICOLON, ";"⟩, ⟨.IDENTIFIER, "x"⟩, ⟨.IDENTIFIER, "y"⟩,
        ⟨.IDENTIFIER, "z"⟩, ⟨.END_OF_FILE, ""⟩] := by decide
  have hst : Parser.statement keywords
      ⟨[⟨.SELECT, "SELECT"⟩, ⟨.ASTERISK, "*"⟩, ⟨.FROM, "FROM"⟩, ⟨.IDENTIFIER, "t"⟩,
        ⟨.SEMICOLON, ";"⟩, ⟨.SEMICOLON, ";"⟩, ⟨.IDENTIFIER, "x"⟩, ⟨.IDENTIFIER, "y"⟩,
        ⟨.IDENTIFIER, "z"⟩, ⟨.END_OF_FILE, ""⟩], 0⟩ =
      .ok ⟨[⟨.SELECT, "SELECT"⟩, ⟨.ASTERISK, "*"⟩, ⟨.FROM, "FROM"⟩, ⟨.IDENTIFIER, "t"⟩,
        ⟨.SEMICOLON, ";"⟩, ⟨.SEMICOLON, ";"⟩, ⟨.IDENTIFIER, "x"⟩, ⟨.IDENTIFIER, "y"⟩,
        ⟨.IDENTIFIER, "z"⟩, ⟨.END_OF_FILE, ""⟩], 5⟩ := by
    rw [Parser.statement_of_select keywords (t := ⟨.SELECT, "SELECT"⟩)]
    · decide
    · rfl
    · rfl
  have hrun : SQLValidator.run keywords "SELECT * FROM t;; x y z" = .ok () := by
    unfold SQLValidator.run
    simp only [htok, bind, Except.bind]
    exact hguard _ _ ⟨.SEMICOLON, ";"⟩ hst rfl rfl
  have htok2 : Lexer.tokenize "SELECT * FROM t; SELECT * FROM u;" =
      .ok [⟨.SELECT, "SELECT"⟩, ⟨.ASTERISK, "*"⟩, ⟨.FROM, "FROM"⟩, ⟨.IDENTIFIER, "t"⟩,
        ⟨.SEMICOLON, ";"⟩, ⟨.SELECT, "SELECT"⟩, ⟨.ASTERISK, "*"⟩, ⟨.FROM, "FROM"⟩,
        ⟨.IDENTIFIER, "u"⟩, ⟨.SEMICOLON, ";"⟩, ⟨.END_OF_FILE, ""⟩] := by decide
  have hst2 : Parser.statement keywords
      ⟨[⟨.SELECT, "SELECT"⟩, ⟨.ASTERISK, "*"⟩, ⟨.FROM, "FROM"⟩, ⟨.IDENTIFIER, "t"⟩,
        ⟨.SEMICOLON, ";"⟩, ⟨.SELECT, "SELECT"⟩, ⟨.ASTERISK, "*"⟩, ⟨.FROM, "FROM"⟩,
        ⟨.IDENTIFIER, "u"⟩, ⟨.SEMICOLON, ";"⟩, ⟨.END_OF_FILE, ""⟩], 0⟩ =
      .ok ⟨[⟨.SELECT, "SELECT"⟩, ⟨.ASTERISK, "*"⟩, ⟨.FROM, "FROM"⟩, ⟨.IDENTIFIER, "t"⟩,
        ⟨.SEMICOLON, ";"⟩, ⟨.SELECT, "SELECT"⟩, ⟨.ASTERISK, "*"⟩, ⟨.FROM, "FROM"⟩,
        ⟨.IDENTIFIER, "u"⟩, ⟨.SEMICOLON, ";"⟩, ⟨.END_OF_FILE, ""⟩], 5⟩ := by
    rw [Parser.statement_of_select keywords (t := ⟨.SELECT, "SELECT"⟩)]
    · decide
    · rfl
    · rfl
  refine ⟨htok, hst, hrun, ?_, ?_, hguard, hreject, ?_⟩
  · unfold SQLValidator.validate
    rw [hrun]
  · exact SQLValidator.validate_true_keywords keywordNames keywords _ (by decide)
  · unfold SQLValidator.run
    simp only [htok2, bind, Except.bind]
    exact hreject _ _ ⟨.SELECT, "SELECT"⟩ hst2 rfl (by decide) (by decide)

/-- C6: for every body `b` without a quote character, tokenizing `'b'` succeeds and
yields exactly the STRING_LITERAL token with lexeme `b` followed by END_OF_FILE. -/
theorem C6_string_literal_roundtrip (b : String) (hb : quote ∉ b.data) :
    Lexer.tokenize ("'" ++ b ++ "'") =
      .ok [⟨.STRING_LITERAL, b⟩, ⟨.END_OF_FILE, ""⟩] := by
  have hdata : ("'" ++ b ++ "'" : String).data = quote :: (b.data ++ quote :: []) := by
    simp only [String.data_append]
    rfl
  have hlen : (quote :: (b.data ++ quote :: [])).length + 1 = b.data.length + 1 + 1 + 1 := by
    simp
  unfold Lexer.tokenize
  rw [hdata, hlen]
  have h1 := Lexer.scan_quoted b.data [] hb
  rw [Lexer.tokenizeLoop_step (show Lexer.scan (List.drop 0 _) = _ from h1)
    (by intro h; cases h)]
  have hdrop : (quote :: (b.data ++ [quote])).drop (0 + (b.data.length + 2)) = [] := by
    apply List.drop_eq_nil_iff.mpr
    simp
  rw [Lexer.tokenizeLoop_eof (t := ⟨.END_OF_FILE, ""⟩) (n := 0) (by rw [hdrop]; rfl) rfl]
  rfl

/-- C6 at the body `a b;#`, which holds a blank and characters that are illegal outside a
string literal. -/
theorem C6_string_literal_roundtrip_witness :
    quote ∉ ("a b;#" : String).data ∧
    Lexer.tokenize ("'" ++ "a b;#" ++ "'") =
      .ok [⟨.STRING_LITERAL, "a b;#"⟩, ⟨.END_OF_FILE, ""⟩] :=
  ⟨by decide, C6_string_literal_roundtrip "a b;#" (by decide)⟩

/-- C7: for every non-empty digit string `d` and every rest `r` that is empty or starts
with a character that is not a digit, the first token scanned from `d ++ "." ++ r` is the
NUMBER with lexeme `d`, and the scan position is left at `d.length`, on the `.`. -/
theorem C7_number_stops_before_dot (d r : String) (hne : d.data ≠ [])
    (hd : ∀ c ∈ d.data, isdigit c = true)
    (hr : ∀ c, r.data.head? = some c → isdigit c = false) :
    Lexer.nextToken ⟨(d ++ "." ++ r).data, 0⟩ =
      .ok (⟨.NUMBER, d⟩, ⟨(d ++ "." ++ r).data, d.data.length⟩) ∧
    Lexer.peek ⟨(d ++ "." ++ r).data, d.data.length⟩ = '.' := by
  have hdata : (d ++ "." ++ r).data = d.data ++ '.' :: r.data := by
    simp only [String.data_append, List.append_assoc]
    rfl
  rw [hdata]
  constructor
  · cases hdd : d.data with
    | nil => exact absurd hdd hne
    | cons c ds =>
      rw [hdd] at hd
      have hs := Lexer.scan_digits_dot c ds r.data (hd c (List.mem_cons_self _ _))
        (fun x hx => hd x (List.mem_cons_of_mem _ hx)) hr
      rw [Lexer.nextToken_eq, List.drop_zero, List.cons_append, hs]
      have hd' : d = String.mk (c :: ds) := by rw [← hdd]
      simp [hd', Nat.add_comm]
  · rw [Lexer.peek_eq_headD, List.drop_left]
    rfl

/-- C7 at `3.`: the first token is NUMBER `3`, the scan position stays on the `.`, and the
`.` is then reported as an unexpected character. -/
theorem C7_number_stops_before_dot_witness :
    (Lexer.nextToken ⟨("3" ++ "." ++ "" : String).data, 0⟩ =
      .ok (⟨.NUMBER, "3"⟩, ⟨("3" ++ "." ++ "" : String).data, ("3" : String).data.length⟩) ∧
     Lexer.peek ⟨("3" ++ "." ++ "" : String).data, ("3" : String).data.length⟩ = '.') ∧
    Lexer.tokenize "3." = .error (.runtime_error "Unexpected character: .") :=
  ⟨C7_number_stops_before_dot "3" "" (by decide) (by decide) (by decide), by decide⟩

/-- C8: whenever `Lexer::tokenize` succeeds, the returned vector is non-empty, its last
token is END_OF_FILE, and no earlier token is END_OF_FILE. -/
theorem C8_tokens_end_in_one_eof (input : String) (tokens : List Token)
    (h : Lexer.tokenize input = .ok tokens) :
    tokens ≠ [] ∧ (∃ last, tokens.getLast? = some last ∧ last.type = .END_OF_FILE) ∧
      ∀ t ∈ tokens.dropLast, t.type ≠ .END_OF_FILE := by
  obtain ⟨mid, last, h1, h2, h3⟩ := Lexer.tokenizeLoop_shape _ _ _ _ h
  simp only [List.nil_append] at h1
  subst h1
  refine ⟨by simp, ⟨last, by simp, h2⟩, ?_⟩
  simpa using h3

/-- C8 at `SELECT * FROM t;`. -/
theorem C8_tokens_end_in_one_eof_witness :
    Lexer.tokenize "SELECT * FROM t;" =
      .ok [⟨.SELECT, "SELECT"⟩, ⟨.ASTERISK, "*"⟩, ⟨.FROM, "FROM"⟩, ⟨.IDENTIFIER, "t"⟩,
        ⟨.SEMICOLON, ";"⟩, ⟨.END_OF_FILE, ""⟩] ∧
    ([⟨.SELECT, "SELECT"⟩, ⟨.ASTERISK, "*"⟩, ⟨.FROM, "FROM"⟩, ⟨.IDENTIFIER, "t"⟩,
        ⟨.SEMICOLON, ";"⟩, ⟨.END_OF_FILE, ""⟩] : List Token) ≠ [] :=
  ⟨by decide, (C8_tokens_end_in_one_eof "SELECT * FROM t;" _ (by decide)).1⟩

/-- C9: `Lexer::tokenize` is total. For every input the loop either returns a token
vector, of at most `length + 1` tokens, or throws a lex error; the result is the same for
every iteration budget above the input length, so the loop terminates within that many
calls of `nextToken`; every call of `nextToken` returns a token or throws (its inner loops
never exhaust their budget); and a call that returns a token other than END_OF_FILE leaves
the scan position at least one character further in the same input. -/
theorem C9_tokenize_total (input : String) :
    ((∃ tokens, Lexer.tokenize input = .ok tokens ∧
        tokens.length ≤ input.data.length + 1) ∨
      ∃ what, Lexer.tokenize input = .error (.runtime_error what)) ∧
    (∀ fuel, input.data.length < fuel →
      Lexer.tokenizeLoop fuel ⟨input.data, 0⟩ [] = Lexer.tokenize input) ∧
    (∀ pos, (∃ r, Lexer.nextToken ⟨input.data, pos⟩ = .ok r) ∨
      ∃ what, Lexer.nextToken ⟨input.data, pos⟩ = .error (.runtime_error what)) ∧
    (∀ pos t L, Lexer.nextToken ⟨input.data, pos⟩ = .ok (t, L) → t.type ≠ .END_OF_FILE →
      pos + 1 ≤ L.position ∧ L.input = input.data) := by
  obtain ⟨res, h1, h2, h3⟩ := Lexer.tokenizeLoop_spec input.data (input.data.length + 1) 0 []
    (Nat.zero_le _) (by omega)
  refine ⟨?_, ?_, ?_, ?_⟩
  · unfold Lexer.tokenize
    rw [h1]
    rcases h3 with ⟨tokens, rfl, hlen⟩ | ⟨what, rfl⟩
    · exact Or.inl ⟨tokens, rfl, by simpa using hlen⟩
    · exact Or.inr ⟨what, rfl⟩
  · intro fuel hf
    unfold Lexer.tokenize
    rw [h1]
    exact h2 fuel (by omega)
  · intro pos
    rw [Lexer.nextToken_eq]
    cases hs : Lexer.scan (input.data.drop pos) with
    | error e =>
      obtain ⟨what, rfl⟩ := Lexer.scan_error _ _ hs
      exact Or.inr ⟨what, rfl⟩
    | ok v => exact Or.inl ⟨_, rfl⟩
  · intro pos t L h hne
    rw [Lexer.nextToken_eq] at h
    cases hs : Lexer.scan (input.data.drop pos) with
    | error e => rw [hs] at h; cases h
    | ok v =>
      obtain ⟨t', n⟩ := v
      rw [hs] at h
      cases h
      have := (Lexer.scan_bound _ _ _ hs).2 hne
      exact ⟨by simp only; omega, rfl⟩

/-- C9 at `a <= 1`: a budget of 8 gives the result of `tokenize`, four tokens. -/
theorem C9_tokenize_total_witness :
    Lexer.tokenizeLoop 8 ⟨("a <= 1" : String).data, 0⟩ [] = Lexer.tokenize "a <= 1" ∧
    Lexer.tokenize "a <= 1" =
      .ok [⟨.IDENTIFIER, "a"⟩, ⟨.LESS_EQUAL, "<="⟩, ⟨.NUMBER, "1"⟩, ⟨.END_OF_FILE, ""⟩] :=
  ⟨(C9_tokenize_total "a <= 1").2.1 8 (by decide), by decide⟩

/-- C5: for every input `s` without a quote character that tokenizes successfully and
every body `b` without a quote character, tokenizing `s ++ "'" ++ b` fails with
"Unterminated string.", and `SQLValidator::validate` returns false. -/
theorem C5_unterminated_string (s b : String) (tokens : List Token)
    (hs : quote ∉ s.data) (hb : quote ∉ b.data) (h : Lexer.tokenize s = .ok tokens) :
    Lexer.tokenize (s ++ "'" ++ b) = .error (.runtime_error "Unterminated string.") ∧
    ∀ keywords, SQLValidator.validate keywords (s ++ "'" ++ b) = .ok false := by
  have hdata : (s ++ "'" ++ b).data = s.data ++ quote :: b.data := by
    simp only [String.data_append, List.append_assoc]
    rfl
  have ht : Lexer.tokenize (s ++ "'" ++ b) =
      .error (.runtime_error "Unterminated string.") := by
    unfold Lexer.tokenize at h ⊢
    rw [hdata]
    exact Lexer.tokenizeLoop_append_quote s.data b.data hs hb _ 0 [] tokens (Nat.zero_le _) h _
      (by simp only [List.length_append, List.length_cons]; omega)
  refine ⟨ht, fun keywords => ?_⟩
  simp [SQLValidator.validate, SQLValidator.run, ht, bind, Except.bind]

/-- C5 at `SELECT * FROM t WHERE name = 'abc;`. -/
theorem C5_unterminated_string_witness :
    Lexer.tokenize ("SELECT * FROM t WHERE name = " ++ "'" ++ "abc;") =
      .error (.runtime_error "Unterminated string.") ∧
    ∀ keywords, SQLValidator.validate keywords
      ("SELECT * FROM t WHERE name = " ++ "'" ++ "abc;") = .ok false :=
  C5_unterminated_string "SELECT * FROM t WHERE name = " "abc;"
    [⟨.SELECT, "SELECT"⟩, ⟨.ASTERISK, "*"⟩, ⟨.FROM, "FROM"⟩, ⟨.IDENTIFIER, "t"⟩,
     ⟨.WHERE, "WHERE"⟩, ⟨.IDENTIFIER, "name"⟩, ⟨.EQUAL, "="⟩, ⟨.END_OF_FILE, ""⟩]
    (by decide) (by decide) (by decide)

/-- C4: for every order in which the twelve keywords are listed, validating
`SELEC * FROM t;` fails with "Unknown keyword 'SELEC'. Did you mean 'SELECT'?"; SELECT is at
edit distance 1 from SELEC, every other keyword is at distance 2 or more, and 1 is within
the tolerance `max(2, 5 / 3)`. -/
theorem C4_suggests_select (keywords : List String) (hperm : keywords.Perm keywordNames) :
    SQLValidator.run keywords "SELEC * FROM t;" =
      .error (.runtime_error "Unknown keyword 'SELEC'. Did you mean 'SELECT'?") ∧
    SQLValidator.validate keywords "SELEC * FROM t;" = .ok false ∧
    levenshteinDistance "SELEC" "SELECT" = 1 ∧
    (∀ k ∈ keywords, k ≠ "SELECT" → 2 ≤ levenshteinDistance "SELEC" k) ∧
    1 ≤ max 2 (("SELEC" : String).data.length / 3) := by
  have htok : Lexer.tokenize "SELEC * FROM t;" =
      .ok [⟨.IDENTIFIER, "SELEC"⟩, ⟨.ASTERISK, "*"⟩, ⟨.FROM, "FROM"⟩, ⟨.IDENTIFIER, "t"⟩,
        ⟨.SEMICOLON, ";"⟩, ⟨.END_OF_FILE, ""⟩] := by decide
  have hrun : SQLValidator.run keywords "SELEC * FROM t;" =
      .error (.runtime_error "Unknown keyword 'SELEC'. Did you mean 'SELECT'?") := by
    unfold SQLValidator.run
    rw [htok]
    simp only [bind, Except.bind, Parser.parse]
    rw [Parser.statement_of_identifier keywords (p := ⟨[⟨.IDENTIFIER, "SELEC"⟩, ⟨.ASTERISK, "*"⟩, ⟨.FROM, "FROM"⟩,
      ⟨.IDENTIFIER, "t"⟩, ⟨.SEMICOLON, ";"⟩, ⟨.END_OF_FILE, ""⟩], 0⟩)
      (t := ⟨.IDENTIFIER, "SELEC"⟩) rfl rfl]
    unfold Parser.unknownStatement
    rw [Parser.peek_of_get (p := ⟨[⟨.IDENTIFIER, "SELEC"⟩, ⟨.ASTERISK, "*"⟩, ⟨.FROM, "FROM"⟩,
      ⟨.IDENTIFIER, "t"⟩, ⟨.SEMICOLON, ";"⟩, ⟨.END_OF_FILE, ""⟩], 0⟩)
      (t := ⟨.IDENTIFIER, "SELEC"⟩) rfl]
    have hup : String.mk (("SELEC" : String).data.map toupper) = "SELEC" := by decide
    simp only [bind, Except.bind, hup, findClosestKeyword_SELEC keywords hperm]
    rfl
  refine ⟨hrun, ?_, by decide, ?_, by decide⟩
  · simp [SQLValidator.validate, hrun]
  · intro k hk hne
    rcases distance_SELEC k (hperm.subset hk) with ⟨h, _⟩ | ⟨_, h⟩
    · exact absurd h hne
    · exact h

/-- C4 for the keywords listed in the reverse of their insertion order. -/
theorem C4_suggests_select_witness :
    SQLValidator.run keywordNames.reverse "SELEC * FROM t;" =
      .error (.runtime_error "Unknown keyword 'SELEC'. Did you mean 'SELECT'?") :=
  (C4_suggests_select keywordNames.reverse (List.reverse_perm _)).1

/-- C2: for every token sequence `INSERT INTO table ( c1 , ... , cn ) VALUES ( v1 , ... ,
vm )` followed by anything, with `n ≥ 1` identifiers, `m ≥ 1` values (STRING_LITERAL, NUMBER
or IDENTIFIER tokens of any kind, compatible or not) and `n ≠ m`, parsing fails with
"Column count (n) does not match value count (m).". The vector is `head ++ colPart ++ mid ++
valPart ++ tail`, where `colPart` is `cols` and `valPart` is `vals` with commas between. -/
theorem C2_insert_arity_error (keywords : List String)
    (head cols colPart mid vals valPart tail : List Token)
    (hhead : head.map Token.type = [.INSERT, .INTO, .IDENTIFIER, .LEFT_PAREN])
    (hcols : ∀ c ∈ cols, c.type = .IDENTIFIER) (hcp : CommaSeparated cols colPart)
    (hmid : mid.map Token.type = [.RIGHT_PAREN, .VALUES, .LEFT_PAREN])
    (hvals : ∀ v ∈ vals, v.type = .STRING_LITERAL ∨ v.type = .NUMBER ∨ v.type = .IDENTIFIER)
    (hvp : CommaSeparated vals valPart)
    (htail : (tail.map Token.type).head? = some .RIGHT_PAREN)
    (hne : cols.length ≠ vals.length) :
    Parser.parse keywords ⟨head ++ colPart ++ mid ++ valPart ++ tail, 0⟩ =
      .error (.runtime_error ("Column count (" ++ toString cols.length ++
        ") does not match value count (" ++ toString vals.length ++ ").")) := by
  have hs := Parser.statement_insert_parts keywords head cols colPart mid vals valPart tail
    hhead hcols hcp hmid hvals hvp htail
  have hpos := Parser.CommaSeparated.length_pos hcp
  have hcond : (decide (cols.length > 0) && cols.length != vals.length) = true := by
    simp [hpos, hne]
  rw [if_pos hcond] at hs
  unfold Parser.parse
  rw [hs]
  rfl

/-- C3: for every INSERT with a column list `c1 .. cn` and a value list `v1 .. vn` of the
same length, if position `i` is the smallest one whose value kind is not compatible with
the type inferred from the column name, parsing fails with the type-mismatch diagnostic
that names column `ci`, its inferred type and the kind of `vi`. -/
theorem C3_insert_type_error (keywords : List String)
    (head cols colPart mid vals valPart tail : List Token)
    (hhead : head.map Token.type = [.INSERT, .INTO, .IDENTIFIER, .LEFT_PAREN])
    (hcols : ∀ c ∈ cols, c.type = .IDENTIFIER) (hcp : CommaSeparated cols colPart)
    (hmid : mid.map Token.type = [.RIGHT_PAREN, .VALUES, .LEFT_PAREN])
    (hvals : ∀ v ∈ vals, v.type = .STRING_LITERAL ∨ v.type = .NUMBER ∨ v.type = .IDENTIFIER)
    (hvp : CommaSeparated vals valPart)
    (htail : (tail.map Token.type).head? = some .RIGHT_PAREN)
    (hlen : cols.length = vals.length)
    (i : Nat) (c v : Token) (hc : cols[i]? = some c) (hv : vals[i]? = some v)
    (hbad : isValueTypeValid v.type (inferDataTypeFromColumnName c.lexeme) = false)
    (hgood : ∀ j c' v', j < i → cols[j]? = some c' → vals[j]? = some v' →
      isValueTypeValid v'.type (inferDataTypeFromColumnName c'.lexeme) = true) :
    Parser.parse keywords ⟨head ++ colPart ++ mid ++ valPart ++ tail, 0⟩ =
      .error (.runtime_error ("Type mismatch for column '" ++ c.lexeme ++ "'. Expected " ++
        dataTypeToString (inferDataTypeFromColumnName c.lexeme) ++ " but got " ++
        (if v.type == .STRING_LITERAL then "string"
         else if v.type == .NUMBER then "number" else "identifier") ++ ".")) := by
  have hs := Parser.statement_insert_parts keywords head cols colPart mid vals valPart tail
    hhead hcols hcp hmid hvals hvp htail
  have hcond : ¬ (decide (cols.length > 0) && cols.length != vals.length) = true := by
    simp [hlen]
  rw [if_neg hcond, Parser.checkValueTypes_first_mismatch cols vals i c v hc hv hbad hgood] at hs
  unfold Parser.parse
  rw [hs]
  rfl

/-- C2 at `INSERT INTO t (a,b) VALUES (1);`: the diagnostic reports the counts 2 and 1. -/
theorem C2_insert_arity_error_witness :
    Lexer.tokenize "INSERT INTO t (a,b) VALUES (1);" =
      .ok ([⟨.INSERT, "INSERT"⟩, ⟨.INTO, "INTO"⟩, ⟨.IDENTIFIER, "t"⟩, ⟨.LEFT_PAREN, "("⟩] ++
        [⟨.IDENTIFIER, "a"⟩, ⟨.COMMA, ","⟩, ⟨.IDENTIFIER, "b"⟩] ++
        [⟨.RIGHT_PAREN, ")"⟩, ⟨.VALUES, "VALUES"⟩, ⟨.LEFT_PAREN, "("⟩] ++ [⟨.NUMBER, "1"⟩] ++
        [⟨.RIGHT_PAREN, ")"⟩, ⟨.SEMICOLON, ";"⟩, ⟨.END_OF_FILE, ""⟩]) ∧
    Parser.parse keywordNames
      ⟨[⟨.INSERT, "INSERT"⟩, ⟨.INTO, "INTO"⟩, ⟨.IDENTIFIER, "t"⟩, ⟨.LEFT_PAREN, "("⟩] ++
        [⟨.IDENTIFIER, "a"⟩, ⟨.COMMA, ","⟩, ⟨.IDENTIFIER, "b"⟩] ++
        [⟨.RIGHT_PAREN, ")"⟩, ⟨.VALUES, "VALUES"⟩, ⟨.LEFT_PAREN, "("⟩] ++ [⟨.NUMBER, "1"⟩] ++
        [⟨.RIGHT_PAREN, ")"⟩, ⟨.SEMICOLON, ";"⟩, ⟨.END_OF_FILE, ""⟩], 0⟩ =
      .error (.runtime_error "Column count (2) does not match value count (1).") :=
  ⟨by decide,
   C2_insert_arity_error keywordNames
    [⟨.INSERT, "INSERT"⟩, ⟨.INTO, "INTO"⟩, ⟨.IDENTIFIER, "t"⟩, ⟨.LEFT_PAREN, "("⟩]
    [⟨.IDENTIFIER, "a"⟩, ⟨.IDENTIFIER, "b"⟩]
    [⟨.IDENTIFIER, "a"⟩, ⟨.COMMA, ","⟩, ⟨.IDENTIFIER, "b"⟩]
    [⟨.RIGHT_PAREN, ")"⟩, ⟨.VALUES, "VALUES"⟩, ⟨.LEFT_PAREN, "("⟩]
    [⟨.NUMBER, "1"⟩] [⟨.NUMBER, "1"⟩]
    [⟨.RIGHT_PAREN, ")"⟩, ⟨.SEMICOLON, ";"⟩, ⟨.END_OF_FILE, ""⟩]
    rfl (by decide) (.cons _ _ _ _ rfl (.single _)) rfl (by decide) (.single _) rfl
    (by decide)⟩

/-- C3 at `INSERT INTO t (name) VALUES (123);`: column `name` is inferred as a string and
the value is a number. -/
theorem C3_insert_type_error_witness :
    Lexer.tokenize "INSERT INTO t (name) VALUES (123);" =
      .ok ([⟨.INSERT, "INSERT"⟩, ⟨.INTO, "INTO"⟩, ⟨.IDENTIFIER, "t"⟩, ⟨.LEFT_PAREN, "("⟩] ++
        [⟨.IDENTIFIER, "name"⟩] ++
        [⟨.RIGHT_PAREN, ")"⟩, ⟨.VALUES, "VALUES"⟩, ⟨.LEFT_PAREN, "("⟩] ++ [⟨.NUMBER, "123"⟩] ++
        [⟨.RIGHT_PAREN, ")"⟩, ⟨.SEMICOLON, ";"⟩, ⟨.END_OF_FILE, ""⟩]) ∧
    Parser.parse keywordNames
      ⟨[⟨.INSERT, "INSERT"⟩, ⟨.INTO, "INTO"⟩, ⟨.IDENTIFIER, "t"⟩, ⟨.LEFT_PAREN, "("⟩] ++
        [⟨.IDENTIFIER, "name"⟩] ++
        [⟨.RIGHT_PAREN, ")"⟩, ⟨.VALUES, "VALUES"⟩, ⟨.LEFT_PAREN, "("⟩] ++ [⟨.NUMBER, "123"⟩] ++
        [⟨.RIGHT_PAREN, ")"⟩, ⟨.SEMICOLON, ";"⟩, ⟨.END_OF_FILE, ""⟩], 0⟩ =
      .error (.runtime_error "Type mismatch for column 'name'. Expected string but got number.") :=
  ⟨by decide,
   C3_insert_type_error keywordNames
    [⟨.INSERT, "INSERT"⟩, ⟨.INTO, "INTO"⟩, ⟨.IDENTIFIER, "t"⟩, ⟨.LEFT_PAREN, "("⟩]
    [⟨.IDENTIFIER, "name"⟩] [⟨.IDENTIFIER, "name"⟩]
    [⟨.RIGHT_PAREN, ")"⟩, ⟨.VALUES, "VALUES"⟩, ⟨.LEFT_PAREN, "("⟩]
    [⟨.NUMBER, "123"⟩] [⟨.NUMBER, "123"⟩]
    [⟨.RIGHT_PAREN, ")"⟩, ⟨.SEMICOLON, ";"⟩, ⟨.END_OF_FILE, ""⟩]
    rfl (by decide) (.single _) rfl (by decide) (.single _) rfl rfl
    0 ⟨.IDENTIFIER, "name"⟩ ⟨.NUMBER, "123"⟩ rfl rfl (by decide)
    (fun j _ _ hj => absurd hj (Nat.not_lt_zero j))⟩

/-- C15: keywords are matched case-insensitively and lexemes keep their casing. For every
word `w` that starts with a letter or underscore `c` and goes on with letters, digits and
underscores `r`, tokenizing `w` yields exactly the token of kind `k` with lexeme `w`
followed by END_OF_FILE, where `k` is the keyword kind of the upper-case form of `w` when
that is one of the twelve keywords, and IDENTIFIER otherwise. -/
theorem C15_keyword_case_insensitive (w : String) (c : Char) (r : List Char)
    (hw : w.data = c :: r) (hc : isalpha c = true ∨ c = '_')
    (hr : ∀ x ∈ r, isalnum x = true ∨ x = '_') :
    Lexer.tokenize w =
      .ok [⟨specKeywordKind (String.mk (w.data.map toupper)), w⟩, ⟨.END_OF_FILE, ""⟩] := by
  have hc' : (isalpha c || c == '_') = true := by
    rcases hc with h | h
    · simp [h]
    · simp [h]
  have hr' : ∀ x ∈ r, (isalnum x || x == '_') = true := by
    intro x hx
    rcases hr x hx with h | h
    · simp [h]
    · simp [h]
  have hs := Lexer.scan_word c r hc' hr'
  have hw' : w = String.mk (c :: r) := by rw [← hw]
  unfold Lexer.tokenize
  rw [hw]
  have hlen : (c :: r).length + 1 = r.length + 1 + 1 := rfl
  rw [hlen, Lexer.tokenizeLoop_step (show Lexer.scan (List.drop 0 _) = _ from hs)]
  · have hdrop : (c :: r).drop (0 + (r.length + 1)) = [] := by
      apply List.drop_eq_nil_iff.mpr
      simp
    rw [Lexer.tokenizeLoop_eof (t := ⟨.END_OF_FILE, ""⟩) (n := 0) (by rw [hdrop]; rfl) rfl]
    rw [hw']
    rfl
  · exact Lexer.specKeywordKind_ne_eof _

/-- C15 at `sElEcT` and at `users2`. -/
theorem C15_keyword_case_insensitive_witness :
    Lexer.tokenize "sElEcT" = .ok [⟨.SELECT, "sElEcT"⟩, ⟨.END_OF_FILE, ""⟩] ∧
    Lexer.tokenize "users2" = .ok [⟨.IDENTIFIER, "users2"⟩, ⟨.END_OF_FILE, ""⟩] :=
  ⟨C15_keyword_case_insensitive "sElEcT" 's' ['E', 'l', 'E', 'c', 'T'] rfl (by decide)
    (by decide),
   C15_keyword_case_insensitive "users2" 'u' ['s', 'e', 'r', 's', '2'] rfl (by decide)
    (by decide)⟩

/-- C16: a bare `!` is a lex error and `!=` is the operator `<>`. For every rest `r`,
tokenizing `"!" ++ r` fails with "Unexpected character: !" unless `r` starts with `=`; in
that case the first token is NOT_EQUAL with lexeme `!=`, two characters long, and the
input `<>` yields a single token of the same kind NOT_EQUAL. -/
theorem C16_bang (r : String) :
    (r.data.head? ≠ some '=' →
      Lexer.tokenize ("!" ++ r) = .error (.runtime_error "Unexpected character: !")) ∧
    (r.data.head? = some '=' →
      Lexer.nextToken ⟨("!" ++ r).data, 0⟩ =
        .ok (⟨.NOT_EQUAL, "!="⟩, ⟨("!" ++ r).data, 2⟩)) ∧
    Lexer.tokenize "<>" = .ok [⟨.NOT_EQUAL, "<>"⟩, ⟨.END_OF_FILE, ""⟩] := by
  have hdata : ("!" ++ r).data = '!' :: r.data := by
    simp only [String.data_append]
    rfl
  refine ⟨?_, ?_, by decide⟩
  · intro h
    unfold Lexer.tokenize
    rw [hdata]
    have hs : Lexer.scan (List.drop 0 ('!' :: r.data)) =
        .error (.runtime_error "Unexpected character: !") := by
      rw [List.drop_zero, Lexer.scan_bang, if_neg h]
    exact Lexer.tokenizeLoop_error hs
  · intro h
    rw [hdata, Lexer.nextToken_eq, List.drop_zero, Lexer.scan_bang, if_pos h]

/-- C16 at `!` alone, at `!a` and at `!= 1`. -/
theorem C16_bang_witness :
    Lexer.tokenize ("!" ++ "") = .error (.runtime_error "Unexpected character: !") ∧
    Lexer.tokenize ("!" ++ "a") = .error (.runtime_error "Unexpected character: !") ∧
    Lexer.nextToken ⟨("!" ++ "= 1" : String).data, 0⟩ =
      .ok (⟨.NOT_EQUAL, "!="⟩, ⟨("!" ++ "= 1" : String).data, 2⟩) :=
  ⟨(C16_bang "").1 (by decide), (C16_bang "a").1 (by decide), (C16_bang "= 1").2.1 (by decide)⟩

/-- C19: the compatibility table of `isValueTypeValid`. A STRING column accepts
STRING_LITERAL and IDENTIFIER and rejects NUMBER; a NUMBER column accepts NUMBER and
IDENTIFIER and rejects STRING_LITERAL; BOOLEAN and UNKNOWN columns accept every kind; a
DATE column accepts STRING_LITERAL and no other kind. -/
theorem C19_compatibility_table :
    (isValueTypeValid .STRING_LITERAL .STRING = true ∧
      isValueTypeValid .IDENTIFIER .STRING = true ∧
      isValueTypeValid .NUMBER .STRING = false) ∧
    (isValueTypeValid .NUMBER .NUMBER = true ∧
      isValueTypeValid .IDENTIFIER .NUMBER = true ∧
      isValueTypeValid .STRING_LITERAL .NUMBER = false) ∧
    (∀ v, isValueTypeValid v .BOOLEAN = true) ∧
    (∀ v, isValueTypeValid v .UNKNOWN = true) ∧
    (∀ v, isValueTypeValid v .DATE = true ↔ v = .STRING_LITERAL) := by
  refine ⟨by decide, by decide, fun _ => rfl, fun _ => rfl, ?_⟩
  intro v
  cases v <;> decide

/-- C12: an IDENTIFIER value is always accepted in an INSERT. For every token sequence
`INSERT INTO table ( c1 , ... , cn ) VALUES ( v1 , ... , vn ) ; END_OF_FILE` with `n ≥ 1`
column identifiers of any name and `n` IDENTIFIER values, parsing succeeds. -/
theorem C12_identifier_values_accepted (keywords : List String)
    (head cols colPart mid vals valPart tail : List Token)
    (hhead : head.map Token.type = [.INSERT, .INTO, .IDENTIFIER, .LEFT_PAREN])
    (hcols : ∀ c ∈ cols, c.type = .IDENTIFIER) (hcp : CommaSeparated cols colPart)
    (hmid : mid.map Token.type = [.RIGHT_PAREN, .VALUES, .LEFT_PAREN])
    (hvals : ∀ v ∈ vals, v.type = .IDENTIFIER) (hvp : CommaSeparated vals valPart)
    (htail : tail.map Token.type = [.RIGHT_PAREN, .SEMICOLON, .END_OF_FILE])
    (hlen : cols.length = vals.length) :
    Parser.parse keywords ⟨head ++ colPart ++ mid ++ valPart ++ tail, 0⟩ = .ok () := by
  have hs := Parser.statement_insert_parts keywords head cols colPart mid vals valPart tail
    hhead hcols hcp hmid (fun v hv => Or.inr (Or.inr (hvals v hv))) hvp (by rw [htail]; rfl)
  have hcond : ¬ (decide (cols.length > 0) && cols.length != vals.length) = true := by
    simp [hlen]
  have hcheck : Parser.checkValueTypes (cols.map columnOf) (vals.map Token.type) = .ok () := by
    apply Parser.checkValueTypes_ok
    intro i c v hc hv
    rw [List.getElem?_map] at hc hv
    cases hci : cols[i]? with
    | none => rw [hci] at hc; cases hc
    | some c0 =>
      cases hvi : vals[i]? with
      | none => rw [hvi] at hv; cases hv
      | some v0 =>
        rw [hci] at hc
        rw [hvi] at hv
        cases hc
        cases hv
        rw [hvals v0 (List.getElem?_mem hvi)]
        exact identifier_valid_for_inferred _
  rw [if_neg hcond, hcheck] at hs
  obtain ⟨h1, h2, h3, h4, rfl, -⟩ := Parser.map_type_four hhead
  obtain ⟨m1, m2, m3, rfl, -⟩ := Parser.map_type_three hmid
  obtain ⟨rp, semi, eof, rfl, -, hsemi, heof⟩ := Parser.map_type_three htail
  have hdrop : ([h1, h2, h3, h4] ++ colPart ++ [m1, m2, m3] ++ valPart ++ [rp, semi, eof]).drop
      (0 + 1 + 1 + 1 + 1 + colPart.length + 1 + 1 + 1 + valPart.length + 1) = [semi, eof] := by
    have : [h1, h2, h3, h4] ++ colPart ++ [m1, m2, m3] ++ valPart ++ [rp, semi, eof] =
        ([h1, h2, h3, h4] ++ colPart ++ [m1, m2, m3] ++ valPart ++ [rp]) ++ [semi, eof] := by
      simp
    rw [this]
    apply List.drop_left'
    simp
    omega
  have hcons := Parser.consume_unread
    (p := ⟨[h1, h2, h3, h4] ++ colPart ++ [m1, m2, m3] ++ valPart ++ [rp, semi, eof],
      0 + 1 + 1 + 1 + 1 + colPart.length + 1 + 1 + 1 + valPart.length + 1⟩)
    hdrop hsemi (by decide) "Expected ';' at the end of INSERT statement."
  have hend : (⟨[h1, h2, h3, h4] ++ colPart ++ [m1, m2, m3] ++ valPart ++ [rp, semi, eof],
      0 + 1 + 1 + 1 + 1 + colPart.length + 1 + 1 + 1 + valPart.length + 1 + 1⟩ :
      Parser).tokens[(⟨[h1, h2, h3, h4] ++ colPart ++ [m1, m2, m3] ++ valPart ++
        [rp, semi, eof],
      0 + 1 + 1 + 1 + 1 + colPart.length + 1 + 1 + 1 + valPart.length + 1 + 1⟩ :
      Parser).current]? = some eof :=
    Parser.get_of_unread (Parser.unread_succ
      (p := ⟨[h1, h2, h3, h4] ++ colPart ++ [m1, m2, m3] ++ valPart ++ [rp, semi, eof],
        0 + 1 + 1 + 1 + 1 + colPart.length + 1 + 1 + 1 + valPart.length + 1⟩) hdrop)
  unfold Parser.parse
  rw [hs]
  simp only [hcons, bind, Except.bind, Parser.isAtEnd_of_get hend, heof, beq_self_eq_true,
    Bool.not_true, Bool.false_eq_true, if_false, pure, Except.pure]

/-- C12 at `INSERT INTO t (price, name) VALUES (p, n);`. -/
theorem C12_identifier_values_accepted_witness :
    Parser.parse keywordNames
      ⟨[⟨.INSERT, "INSERT"⟩, ⟨.INTO, "INTO"⟩, ⟨.IDENTIFIER, "t"⟩, ⟨.LEFT_PAREN, "("⟩] ++
        [⟨.IDENTIFIER, "price"⟩, ⟨.COMMA, ","⟩, ⟨.IDENTIFIER, "name"⟩] ++
        [⟨.RIGHT_PAREN, ")"⟩, ⟨.VALUES, "VALUES"⟩, ⟨.LEFT_PAREN, "("⟩] ++
        [⟨.IDENTIFIER, "p"⟩, ⟨.COMMA, ","⟩, ⟨.IDENTIFIER, "n"⟩] ++
        [⟨.RIGHT_PAREN, ")"⟩, ⟨.SEMICOLON, ";"⟩, ⟨.END_OF_FILE, ""⟩], 0⟩ = .ok () :=
  C12_identifier_values_accepted keywordNames
    [⟨.INSERT, "INSERT"⟩, ⟨.INTO, "INTO"⟩, ⟨.IDENTIFIER, "t"⟩, ⟨.LEFT_PAREN, "("⟩]
    [⟨.IDENTIFIER, "price"⟩, ⟨.IDENTIFIER, "name"⟩]
    [⟨.IDENTIFIER, "price"⟩, ⟨.COMMA, ","⟩, ⟨.IDENTIFIER, "name"⟩]
    [⟨.RIGHT_PAREN, ")"⟩, ⟨.VALUES, "VALUES"⟩, ⟨.LEFT_PAREN, "("⟩]
    [⟨.IDENTIFIER, "p"⟩, ⟨.IDENTIFIER, "n"⟩]
    [⟨.IDENTIFIER, "p"⟩, ⟨.COMMA, ","⟩, ⟨.IDENTIFIER, "n"⟩]
    [⟨.RIGHT_PAREN, ")"⟩, ⟨.SEMICOLON, ";"⟩, ⟨.END_OF_FILE, ""⟩]
    rfl (by decide) (.cons _ _ _ _ rfl (.single _)) rfl (by decide)
    (.cons _ _ _ _ rfl (.single _)) rfl rfl

/-- C13: `inferDataTypeFromColumnName` is decided by substring containment on the
lower-cased name, the string list first: it returns STRING when a word of the string list
occurs in the lower-cased name, otherwise NUMBER when a word of the number list occurs in
it, otherwise UNKNOWN. Names with the same lower-case form get the same type, so does the
upper-cased name, and `price_code`, which holds `price` and `code`, is a STRING. -/
theorem C13_infer_by_containment (columnName : String) :
    inferDataTypeFromColumnName columnName = specInferDataType columnName ∧
    (∀ other : String, other.data.map tolower = columnName.data.map tolower →
      inferDataTypeFromColumnName other = inferDataTypeFromColumnName columnName) ∧
    inferDataTypeFromColumnName (String.mk (columnName.data.map toupper)) =
      inferDataTypeFromColumnName columnName ∧
    inferDataTypeFromColumnName "price_code" = .STRING := by
  refine ⟨inferDataTypeFromColumnName_eq_spec _, ?_, ?_, by decide⟩
  · intro other h
    rw [inferDataTypeFromColumnName_eq_spec, inferDataTypeFromColumnName_eq_spec]
    unfold specInferDataType
    rw [h]
  · rw [inferDataTypeFromColumnName_eq_spec, inferDataTypeFromColumnName_eq_spec]
    unfold specInferDataType
    have : (String.mk (columnName.data.map toupper)).data.map tolower =
        columnName.data.map tolower := by
      simp only [List.map_map]
      apply List.map_congr_left
      intro c _
      exact tolower_toupper c
    rw [this]

/-- C13 at `Price_Code` and `PRICE_CODE`, two spellings of one lower-case form. -/
theorem C13_infer_by_containment_witness :
    inferDataTypeFromColumnName "PRICE_CODE" = inferDataTypeFromColumnName "Price_Code" ∧
    inferDataTypeFromColumnName "Price_Code" = .STRING :=
  ⟨(C13_infer_by_containment "Price_Code").2.1 "PRICE_CODE" (by decide), by decide⟩

/-- C14: the verdict of `SQLValidator::validate` on an input is determined by the input
alone. For any two orders (indeed any two lists) of keyword spellings `validate` returns
the same verdict, and `Parser::parse` succeeds with one iff it succeeds with the other. -/
theorem C14_verdict_deterministic (sql : String) (keywords keywords' : List String) :
    SQLValidator.validate keywords sql = SQLValidator.validate keywords' sql ∧
    ∀ p : Parser, p.parse keywords = .ok () ↔ p.parse keywords' = .ok () :=
  ⟨validate_keywords keywords keywords' sql,
   fun p => ⟨Parser.parse_ok_keywords keywords keywords' p,
     Parser.parse_ok_keywords keywords' keywords p⟩⟩

/-- C17: `findClosestKeyword(word, keywords)` returns the empty string for an empty list;
for a non-empty list it returns the first keyword in list order whose Levenshtein distance
to `word` is the least over the list (every keyword before it is strictly farther, none
after it is closer) when that distance is at most `max(2, len(word) / 3)`, and the empty
string otherwise. The tolerance `len(word) / 3` is taken within the range of `int`. -/
theorem C17_first_closest_keyword (word : String) (keywords : List String)
    (hint : word.data.length / 3 < INT_MAX) :
    (keywords = [] → findClosestKeyword word keywords = "") ∧
    (keywords ≠ [] → ∃ pre k0 post, keywords = pre ++ k0 :: post ∧
      (∀ k ∈ pre, levenshteinDistance word k0 < levenshteinDistance word k) ∧
      (∀ k ∈ post, levenshteinDistance word k0 ≤ levenshteinDistance word k) ∧
      findClosestKeyword word keywords =
        if levenshteinDistance word k0 ≤ max 2 (word.data.length / 3) then k0 else "") := by
  have htol : ¬ INT_MAX ≤ max 2 (word.data.length / 3) := by
    have h2 : 2 < INT_MAX := by decide
    rw [not_le]
    exact max_lt h2 hint
  constructor
  · rintro rfl
    unfold findClosestKeyword
    simp only [List.foldl_nil]
    rw [if_neg htol]
  · intro hne
    obtain ⟨pre, k0, post, rfl, hpre, hpost⟩ :=
      exists_first_min (levenshteinDistance word) keywords hne
    refine ⟨pre, k0, post, rfl, hpre, hpost, ?_⟩
    unfold findClosestKeyword
    by_cases hd : levenshteinDistance word k0 < INT_MAX
    · rw [closest_first_min word pre k0 post ("", INT_MAX) hd hpre hpost]
    · have hstay : (pre ++ k0 :: post).foldl (closestStep word) ("", INT_MAX) =
          ("", INT_MAX) := by
        apply closest_stay
        intro k hk
        have hk0 : INT_MAX ≤ levenshteinDistance word k0 := not_lt.mp hd
        rcases List.mem_append.mp hk with h | h
        · exact le_trans hk0 (le_of_lt (hpre k h))
        · rcases List.mem_cons.mp h with rfl | h
          · exact hk0
          · exact le_trans hk0 (hpost k h)
      rw [hstay]
      simp only
      rw [if_neg htol, if_neg]
      intro h
      exact htol (le_trans (not_lt.mp hd) h)

/-- C17 at `DELET` with the list `FROM, DELETE, SELECT`: DELETE is at distance 1. -/
theorem C17_first_closest_keyword_witness :
    findClosestKeyword "DELET" [] = "" ∧
    findClosestKeyword "DELET" ["FROM", "DELETE", "SELECT"] = "DELETE" :=
  ⟨(C17_first_closest_keyword "DELET" [] (by decide)).1 rfl, by decide⟩

/-- C20: the cursor invariant of the parser. On a non-empty token vector whose only
END_OF_FILE token is its last element, with the cursor `current` below `tokens.size()`:
`peek` reads in bounds; `advance`, `match` and `consume`, and hence every grammar rule up
to `statement`, never read a token out of range (`peek` out of bounds, or `previous` at
`current = 0`), and when they return they leave the same vector with a cursor that is not
smaller than before and still below `tokens.size()`; `parse` never reads out of range.
For `advance` called on the END_OF_FILE token, `previous` is in range unless the cursor
is 0; `match` and `consume` call it behind a token that is not END_OF_FILE only. -/
theorem C20_cursor_invariant (keywords : List String) (p : Parser)
    (hwf : WellFormed p.tokens) (hcur : p.current < p.tokens.length) :
    (∃ t, p.peek = .ok t) ∧
    (SafeStep p p.advance Prod.snd ∨ p.current = 0) ∧
    (∀ t, p.tokens[p.current]? = some t → t.type ≠ .END_OF_FILE →
      p.advance = .ok (t, ⟨p.tokens, p.current + 1⟩) ∧ p.current + 1 < p.tokens.length) ∧
    (∀ type, SafeStep p (p.matchType type) Prod.snd) ∧
    (∀ types, SafeStep p (p.matchAny types) Prod.snd) ∧
    (∀ type message, SafeStep p (p.consume type message) id) ∧
    SafeStep p p.term id ∧ SafeStep p p.expression id ∧ SafeStep p p.condition id ∧
    SafeStep p p.columnList id ∧ SafeStep p p.parseColumnList Prod.snd ∧
    SafeStep p p.tableList id ∧ SafeStep p p.parseValueList Prod.snd ∧
    SafeStep p p.assignmentList id ∧
    SafeStep p p.selectStatement id ∧ SafeStep p p.insertStatement id ∧
    SafeStep p p.updateStatement id ∧ SafeStep p p.deleteStatement id ∧
    SafeStep p (p.statement keywords) id ∧
    p.parse keywords ≠ .error .undefined := by
  have h : InBounds p := ⟨hwf, hcur⟩
  obtain ⟨t, ht⟩ := Parser.inBounds_get h
  refine ⟨⟨t, Parser.peek_of_get ht⟩, Parser.advance_safe h, ?_,
    fun type => Parser.matchType_safe h type, fun types => Parser.matchAny_safe types h,
    fun type message => Parser.consume_safe h type message,
    Parser.term_safe h, Parser.condition_safe h, Parser.condition_safe h,
    Parser.columnList_safe h, Parser.parseColumnList_safe h,
    Parser.tableListLoop_safe _ h, Parser.parseValueListLoop_safe _ h _,
    Parser.assignmentListLoop_safe _ h,
    Parser.selectStatement_safe h, Parser.insertStatement_safe h,
    Parser.updateStatement_safe h, Parser.deleteStatement_safe h,
    Parser.statement_safe keywords h, Parser.parse_safe keywords h⟩
  intro t' ht' hne
  exact ⟨Parser.advance_of_get ht' hne, (Parser.inBounds_succ h ht' hne).2⟩

/-- C20 at the tokens of `SELECT * FROM t;` with the cursor at 0. -/
theorem C20_cursor_invariant_witness :
    ∃ t, Parser.peek
      ⟨[⟨.SELECT, "SELECT"⟩, ⟨.ASTERISK, "*"⟩, ⟨.FROM, "FROM"⟩, ⟨.IDENTIFIER, "t"⟩,
        ⟨.SEMICOLON, ";"⟩, ⟨.END_OF_FILE, ""⟩], 0⟩ = .ok t :=
  (C20_cursor_invariant keywordNames
    ⟨[⟨.SELECT, "SELECT"⟩, ⟨.ASTERISK, "*"⟩, ⟨.FROM, "FROM"⟩, ⟨.IDENTIFIER, "t"⟩,
      ⟨.SEMICOLON, ";"⟩, ⟨.END_OF_FILE, ""⟩], 0⟩
    ⟨[⟨.SELECT, "SELECT"⟩, ⟨.ASTERISK, "*"⟩, ⟨.FROM, "FROM"⟩, ⟨.IDENTIFIER, "t"⟩,
      ⟨.SEMICOLON, ";"⟩], ⟨.END_OF_FILE, ""⟩, rfl, rfl, by decide⟩ (by decide)).1

/-- C18: `levenshteinDistance s1 s2` is the edit distance of the two strings. It is the value
of the standard recursive definition (`specLev`, with the three equations of the
definition), a sequence of that many single-character insertions, deletions and
substitutions transforms `s1` into `s2`, and no such sequence is shorter. -/
theorem C18_levenshtein_is_edit_distance (s1 s2 : String) :
    levenshteinDistance s1 s2 = specLev s1.data s2.data ∧
    (∀ t, specLev [] t = t.length) ∧
    (∀ s, specLev s [] = s.length) ∧
    (∀ a b s t, specLev (a :: s) (b :: t) =
      min (specLev s (b :: t) + 1)
        (min (specLev (a :: s) t + 1) (specLev s t + if a = b then 0 else 1))) ∧
    Transforms (levenshteinDistance s1 s2) s1.data s2.data ∧
    ∀ n, Transforms n s1.data s2.data → levenshteinDistance s1 s2 ≤ n := by
  refine ⟨levenshteinDistance_eq_specLev s1 s2, specLev_nil_left, specLev_nil_right, ?_, ?_, ?_⟩
  · intro a b s t
    rw [specLev_cons_cons]
    by_cases h : a = b
    · subst h
      simp
    · have : (a != b) = true := bne_iff_ne.mpr h
      simp [this, h]
  · rw [levenshteinDistance_eq_specLev]
    exact (specLev_transforms _ _).1
  · rw [levenshteinDistance_eq_specLev]
    exact (specLev_transforms _ _).2

/-- C18 at the strings `cat` and `cart`: the distance is 1, and one insertion does it. -/
theorem C18_levenshtein_is_edit_distance_witness :
    levenshteinDistance "cat" "cart" = 1 ∧ specLev "cat".data "cart".data = 1 ∧
    Transforms 1 "cat".data "cart".data ∧
    (Transforms 1 "cat".data "cart".data → levenshteinDistance "cat" "cart" ≤ 1) :=
  have h := C18_levenshtein_is_edit_distance "cat" "cart"
  have e : levenshteinDistance "cat" "cart" = 1 := by decide
  ⟨e, h.1 ▸ e, e ▸ h.2.2.2.2.1, h.2.2.2.2.2 1⟩

/-- C11: completeness for the grammar. Every token sequence `ts` derived from `statement`
in the grammar of the specification (`SpecStatement`: SELECT, INSERT with or without a
column list, UPDATE, DELETE, each closed by `;`), followed by the END_OF_FILE token, is
accepted by `Parser::parse`, for every keyword list. For an INSERT with a column list the
derivation carries the proviso `InsertProviso`: as many values as columns, every value
compatible with the inferred type of its column. An INSERT without a column list carries
no proviso: any non-empty value list is accepted. -/
theorem C11_grammar_complete (keywords : List String) (ts : List Token) (eof : Token)
    (h : SpecStatement InsertProviso ts) (heof : eof.type = .END_OF_FILE) :
    Parser.parse keywords ⟨ts ++ [eof], 0⟩ = .ok () :=
  Parser.parse_specStatement keywords h eof heof

/-- C11 at `INSERT INTO t (name, age) VALUES ('Bob', 5);`. -/
theorem C11_grammar_complete_witness :
    Parser.parse keywordNames
      ⟨[⟨.INSERT, "INSERT"⟩, ⟨.INTO, "INTO"⟩, ⟨.IDENTIFIER, "t"⟩, ⟨.LEFT_PAREN, "("⟩,
        ⟨.IDENTIFIER, "name"⟩, ⟨.COMMA, ","⟩, ⟨.IDENTIFIER, "age"⟩,
        ⟨.RIGHT_PAREN, ")"⟩, ⟨.VALUES, "VALUES"⟩, ⟨.LEFT_PAREN, "("⟩,
        ⟨.STRING_LITERAL, "Bob"⟩, ⟨.COMMA, ","⟩, ⟨.NUMBER, "5"⟩,
        ⟨.RIGHT_PAREN, ")"⟩, ⟨.SEMICOLON, ";"⟩] ++ [⟨.END_OF_FILE, ""⟩], 0⟩ = .ok () :=
  C11_grammar_complete keywordNames _ ⟨.END_OF_FILE, ""⟩
    (SpecStatement.insert ⟨.INSERT, "INSERT"⟩ ⟨.INTO, "INTO"⟩ ⟨.IDENTIFIER, "t"⟩
      ⟨.LEFT_PAREN, "("⟩ ⟨.RIGHT_PAREN, ")"⟩ ⟨.VALUES, "VALUES"⟩ ⟨.LEFT_PAREN, "("⟩
      ⟨.RIGHT_PAREN, ")"⟩ ⟨.SEMICOLON, ";"⟩
      [⟨.IDENTIFIER, "name"⟩, ⟨.IDENTIFIER, "age"⟩]
      [⟨.IDENTIFIER, "name"⟩, ⟨.COMMA, ","⟩, ⟨.IDENTIFIER, "age"⟩]
      [⟨.STRING_LITERAL, "Bob"⟩, ⟨.NUMBER, "5"⟩]
      [⟨.STRING_LITERAL, "Bob"⟩, ⟨.COMMA, ","⟩, ⟨.NUMBER, "5"⟩]
      rfl rfl rfl rfl (by decide) (.cons _ _ _ _ rfl (.single _)) rfl rfl rfl
      (by unfold IsValue; decide) (.cons _ _ _ _ rfl (.single _)) rfl rfl
      ⟨rfl, fun i c v hc hv =>
        match i, hc, hv with
        | 0, hc, hv => by cases hc; cases hv; decide
        | 1, hc, hv => by cases hc; cases hv; decide
        | _ + 2, hc, _ => by cases hc⟩)
    rfl

/-- C21: NOT is a keyword that no grammar rule accepts. A word whose upper-case form is
`NOT` tokenizes to one NOT token that keeps the word as lexeme. A token sequence with a NOT
token `t` in front of which no SEMICOLON token stands is never accepted by `Parser::parse`,
and when the sequence is well formed (END_OF_FILE last and only there, as the tokenizer
makes it) `parse` throws a `std::runtime_error`; hence `SQLValidator::validate` returns
false on every input whose tokens are such a sequence. The input
`SELECT * FROM t WHERE NOT a = 1;` fails with "Expected column name in condition.". -/
theorem C21_not_is_rejected (keywords : List String) :
    (∀ w : String, w.data.map toupper = ['N', 'O', 'T'] →
      Lexer.tokenize w = .ok [⟨.NOT, w⟩, ⟨.END_OF_FILE, ""⟩]) ∧
    (∀ (pre post : List Token) (t : Token), t.type = .NOT →
      (∀ x ∈ pre, x.type ≠ .SEMICOLON) →
      Parser.parse keywords ⟨pre ++ t :: post, 0⟩ ≠ .ok () ∧
      (WellFormed (pre ++ t :: post) →
        ∃ what, Parser.parse keywords ⟨pre ++ t :: post, 0⟩ = .error (.runtime_error what))) ∧
    (∀ (sql : String) (pre post : List Token) (t : Token),
      Lexer.tokenize sql = .ok (pre ++ t :: post) → t.type = .NOT →
      (∀ x ∈ pre, x.type ≠ .SEMICOLON) → SQLValidator.validate keywords sql = .ok false) ∧
    SQLValidator.run keywords "SELECT * FROM t WHERE NOT a = 1;" =
      .error (.runtime_error "Expected column name in condition.") ∧
    SQLValidator.validate keywords "SELECT * FROM t WHERE NOT a = 1;" = .ok false := by
  refine ⟨Lexer.tokenize_not, ?_, ?_, SQLValidator.run_where_not keywords, ?_⟩
  · intro pre post t ht hpre
    exact ⟨Parser.parse_not keywords pre post t ht hpre,
      Parser.parse_not_throws keywords pre post t ht hpre⟩
  · intro sql pre post t htok ht hpre
    exact SQLValidator.validate_not keywords sql pre post t htok ht hpre
  · unfold SQLValidator.validate
    rw [SQLValidator.run_where_not]

/-- C21 at the word `nOt` and at the input `UPDATE t SET a = NOT b;`. -/
theorem C21_not_is_rejected_witness :
    Lexer.tokenize "nOt" = .ok [⟨.NOT, "nOt"⟩, ⟨.END_OF_FILE, ""⟩] ∧
    SQLValidator.validate keywordNames "UPDATE t SET a = NOT b;" = .ok false :=
  ⟨(C21_not_is_rejected keywordNames).1 "nOt" (by decide),
   (C21_not_is_rejected keywordNames).2.2.1 "UPDATE t SET a = NOT b;"
    [⟨.UPDATE, "UPDATE"⟩, ⟨.IDENTIFIER, "t"⟩, ⟨.SET, "SET"⟩, ⟨.IDENTIFIER, "a"⟩,
      ⟨.EQUAL, "="⟩]
    [⟨.IDENTIFIER, "b"⟩, ⟨.SEMICOLON, ";"⟩, ⟨.END_OF_FILE, ""⟩] ⟨.NOT, "NOT"⟩
    (by decide) rfl (by decide)⟩

/-- C22: `inferDataTypeFromColumnName` never returns BOOLEAN or DATE; for every column name
its result is STRING, NUMBER or UNKNOWN. Hence, for a value kind that `parseValueList`
records, `isValueTypeValid` against the inferred type fails in exactly two situations: a
NUMBER value in a column inferred as STRING, a STRING_LITERAL value in a column inferred as
NUMBER; both arise (`name`, `id`). The columns and value kinds that `insertStatement`
hands to its type check are of these types and kinds, so the check fails exactly when
some position shows one of the two situations, and the DATE and BOOLEAN rows of the table
are never reached. -/
theorem C22_inferred_types (columnName : String) :
    (inferDataTypeFromColumnName columnName = .STRING ∨
      inferDataTypeFromColumnName columnName = .NUMBER ∨
      inferDataTypeFromColumnName columnName = .UNKNOWN) ∧
    inferDataTypeFromColumnName columnName ≠ .BOOLEAN ∧
    inferDataTypeFromColumnName columnName ≠ .DATE ∧
    (∀ v : TokenType, v = .STRING_LITERAL ∨ v = .NUMBER ∨ v = .IDENTIFIER →
      (isValueTypeValid v (inferDataTypeFromColumnName columnName) = false ↔
        (v = .NUMBER ∧ inferDataTypeFromColumnName columnName = .STRING) ∨
        (v = .STRING_LITERAL ∧ inferDataTypeFromColumnName columnName = .NUMBER))) ∧
    (isValueTypeValid .NUMBER (inferDataTypeFromColumnName "name") = false ∧
      isValueTypeValid .STRING_LITERAL (inferDataTypeFromColumnName "id") = false) ∧
    (∀ (p p' : Parser) (cp : List Column × Parser) (vs : List TokenType × Parser),
      p.insertColumns = .ok cp → p'.parseValueList = .ok vs →
      (∀ c ∈ cp.1, c.type = inferDataTypeFromColumnName c.name ∧ c.type ≠ .BOOLEAN ∧
        c.type ≠ .DATE) ∧
      (∀ v ∈ vs.1, v = .STRING_LITERAL ∨ v = .NUMBER ∨ v = .IDENTIFIER) ∧
      (Parser.checkValueTypes cp.1 vs.1 ≠ .ok () ↔
        ∃ (i : Nat) (c : Column) (v : TokenType), cp.1[i]? = some c ∧ vs.1[i]? = some v ∧
          ((v = .NUMBER ∧ c.type = .STRING) ∨ (v = .STRING_LITERAL ∧ c.type = .NUMBER)))) := by
  have hne : ∀ name : String, inferDataTypeFromColumnName name ≠ .BOOLEAN ∧
      inferDataTypeFromColumnName name ≠ .DATE := by
    intro name
    rcases infer_is_string_number_unknown name with h | h | h <;> rw [h] <;>
      exact ⟨by decide, by decide⟩
  refine ⟨infer_is_string_number_unknown columnName, (hne columnName).1, (hne columnName).2,
    fun v hv => Parser.invalid_iff_clash hv (infer_is_string_number_unknown columnName),
    ⟨by decide, by decide⟩, ?_⟩
  intro p p' cp vs hcp hvs
  have hcols := Parser.insertColumns_types hcp
  have hvals := Parser.parseValueList_kinds hvs
  refine ⟨fun c hc => ?_, hvals, Parser.checkValueTypes_fails_iff cp.1 vs.1 hcols hvals⟩
  rw [hcols c hc]
  exact ⟨rfl, hne c.name⟩

/-- C22 at the column names `birth_date` and `is_active`: neither DATE nor BOOLEAN is
inferred. -/
theorem C22_inferred_types_witness :
    inferDataTypeFromColumnName "birth_date" ≠ .DATE ∧
    inferDataTypeFromColumnName "is_active" ≠ .BOOLEAN :=
  ⟨(C22_inferred_types "birth_date").2.2.1, (C22_inferred_types "is_active").2.1⟩

end SqlValidator
